import Mathlib

/-!
Verification of the `Datastructures` repository (Rust) against its
natural-language specification, via a shallow embedding in Lean 4.

The embedding covers:
* `src/workstealing/sized.rs` — the bounded work-stealing deque
  (`SizedWorkStealingPool`), executed sequentially: each operation is a
  load / check / compare-and-swap cycle, and in a sequential execution the
  CAS always succeeds, so every operation is a pure state transformer.
  The `u64` packed state word is modelled as a `Nat` together with the
  explicit `% 2^32` / `% 2^64` arithmetic of the `u32`/`u64` machine types.
  The `MaybeUninit` ring is modelled as a total function `Nat → T`; an
  uninitialised slot holds an arbitrary (quantified) garbage value.
* `src/array/core.rs` — `keep_lowest_by`, the sorted-merge helper.
* `src/double_linked_list/sized.rs` — the fixed-capacity arena list
  (`SizedDoubleLinkedList`), with the slot array modelled as a
  `List (Option (Node T))` (`none` = uninitialised slot, mirroring
  `MaybeUninit`), the `u64` used-bitmask as a `Nat`, and panics
  (`unwrap` on a broken chain, `usize` underflow) modelled by `Option`
  results or by default values that are provably never exercised under
  the structural invariant.
-/

namespace Datastructures

/-! ## Work-stealing deque: `src/workstealing/sized.rs` -/

/-- Errors returned by `SizedWorkStealingPool` operations (source: enum
`SizedWorkStealingPoolError`). -/
inductive SizedWorkStealingPoolError where
  | IsFull
  | IsEmpty
deriving DecidableEq, Repr

/-- Source: struct `SizedWorkStealingPool<T, N> { queue: [MaybeUninit<T>; N],
state: AtomicU64 }`.  The ring is a total function (garbage values model
uninitialised slots); the capacity `N` is passed to each operation, mirroring
the const generic. -/
structure SizedWorkStealingPool (T : Type) where
  queue : Nat → T
  state : Nat

/-- Source: `fn pack(top: u32, bot: u32) -> u64 { ((top as u64) << 32) | (bot as u64) }`.
For `bot < 2^32` the bit-or of the shifted value with `bot` is exactly
`top * 2^32 + bot`; the `% 2^32` records that both arguments are `u32`. -/
def pack (top bot : Nat) : Nat :=
  (top % 2 ^ 32) * 2 ^ 32 + (bot % 2 ^ 32)

/-- Source: `fn unpack(value: u64) -> (u32, u32)`, where
`top = (value >> 32) as u32` and `bot = (value & 0xFFFF_FFFF) as u32`.
Right shift by 32 is division by `2^32`, masking with `0xFFFF_FFFF` is
`% 2^32`, and the `as u32` casts are the outer `% 2^32`. -/
def unpack (value : Nat) : Nat × Nat :=
  ((value / 2 ^ 32) % 2 ^ 32, value % 2 ^ 32)

namespace SizedWorkStealingPool

variable {T : Type}

/-- Source: `SizedWorkStealingPool::new` — empty ring (`g` is the arbitrary
content of the uninitialised `MaybeUninit` slots), `state = 0`. -/
def new (g : Nat → T) : SizedWorkStealingPool T :=
  { queue := g, state := 0 }

/-- Source: `SizedWorkStealingPool::insert`, sequential execution (the CAS
succeeds on the first try).  The capacity check is
`bot - top == (N as u32)`: `bot - top` is the `u32` subtraction of the
loaded snapshot (exact as `Nat` subtraction whenever `top ≤ bot`, which holds
in every sequentially reachable state) and the `as u32` cast of the `usize`
capacity is `% 2^32`.  On success the value is written at `queue[bot % N]`
and `pack(top, bot + 1)` is published (`bot + 1` is a `u32` addition,
truncated by `pack`'s `% 2^32`). -/
def insert (N : Nat) (p : SizedWorkStealingPool T) (value : T) :
    Except SizedWorkStealingPoolError Unit × SizedWorkStealingPool T :=
  let top := (unpack p.state).1
  let bot := (unpack p.state).2
  if bot - top = N % 2 ^ 32 then
    (.error .IsFull, p)
  else
    (.ok (), { queue := fun i => if i = bot % N then value else p.queue i,
               state := pack top (bot + 1) })

/-- Source: `SizedWorkStealingPool::steal`, sequential execution.  Returns
`none` when `top == bot`, and also when `bot.checked_sub(1)` fails; otherwise
reads `queue[(bot - 1) % N]` and publishes `pack(top, bot - 1)`. -/
def steal (N : Nat) (p : SizedWorkStealingPool T) :
    Option T × SizedWorkStealingPool T :=
  let top := (unpack p.state).1
  let bot := (unpack p.state).2
  if top = bot then
    (none, p)
  else if bot = 0 then
    (none, p)
  else
    (some (p.queue ((bot - 1) % N)), { p with state := pack top (bot - 1) })

/-- Source: `SizedWorkStealingPool::take`, sequential execution.  Returns
`none` when `top == bot`; otherwise reads `queue[top % N]` and publishes
`pack(top + 1, bot)`. -/
def take (N : Nat) (p : SizedWorkStealingPool T) :
    Option T × SizedWorkStealingPool T :=
  let top := (unpack p.state).1
  let bot := (unpack p.state).2
  if top = bot then
    (none, p)
  else
    (some (p.queue (top % N)), { p with state := pack (top + 1) bot })

/-- Abstraction relation: the pool `p` (capacity `N`) represents the logical
element sequence `l`, oldest first.  `top ≤ bot`, the element count is
`bot - top`, it never exceeds `N`, and the `i`-th oldest element sits at
`ring[(top + i) % N]`. -/
def PoolInv (N : Nat) (p : SizedWorkStealingPool T) (l : List T) : Prop :=
  (unpack p.state).1 ≤ (unpack p.state).2 ∧
  (unpack p.state).2 - (unpack p.state).1 = l.length ∧
  l.length ≤ N ∧
  ∀ i, (h : i < l.length) → p.queue (((unpack p.state).1 + i) % N) = l[i]

theorem unpack_pack {t b : Nat} (ht : t < 2 ^ 32) (hb : b < 2 ^ 32) :
    unpack (pack t b) = (t, b) := by
  simp only [unpack, pack, Prod.mk.injEq]
  constructor <;> omega

theorem unpack_fst_lt (v : Nat) : (unpack v).1 < 2 ^ 32 := by
  simp only [unpack]
  omega

theorem unpack_snd_lt (v : Nat) : (unpack v).2 < 2 ^ 32 := by
  simp only [unpack]
  omega

theorem poolInv_new (N : Nat) (g : Nat → T) : PoolInv N (new g) [] := by
  refine ⟨?_, ?_, Nat.zero_le _, ?_⟩
  · simp [new, unpack]
  · simp [new, unpack]
  · intro i h
    simp at h

theorem insert_full {N : Nat} {p : SizedWorkStealingPool T} {l : List T}
    (hinv : PoolInv N p l) (hfull : l.length = N) (hN : N < 2 ^ 32)
    (v : T) :
    insert N p v = (.error .IsFull, p) := by
  obtain ⟨hle, hcount, hlen, hslots⟩ := hinv
  simp only [insert]
  rw [if_pos (by rw [Nat.mod_eq_of_lt hN]; omega)]

theorem insert_ok {N : Nat} {p : SizedWorkStealingPool T} {l : List T}
    (hinv : PoolInv N p l) (hroom : l.length < N) (hN : N < 2 ^ 32)
    (hb : (unpack p.state).2 + 1 < 2 ^ 32) (v : T) :
    (insert N p v).1 = .ok () ∧ PoolInv N (insert N p v).2 (l ++ [v]) := by
  obtain ⟨hle, hcount, hlen, hslots⟩ := hinv
  have hNpos : 0 < N := Nat.lt_of_le_of_lt (Nat.zero_le _) hroom
  have htlt : (unpack p.state).1 < 2 ^ 32 := unpack_fst_lt _
  simp only [insert]
  rw [if_neg (by rw [Nat.mod_eq_of_lt hN]; omega)]
  refine ⟨rfl, ?_, ?_, ?_, ?_⟩ <;>
    simp only [unpack_pack htlt hb, List.length_append, List.length_cons,
      List.length_nil]
  · omega
  · omega
  · omega
  · intro i h
    by_cases hi : i < l.length
    · have hne : ((unpack p.state).1 + i) % N ≠ (unpack p.state).2 % N := by
        intro heq
        have hmod : ((unpack p.state).1 + i) % N =
            ((unpack p.state).1 + l.length) % N := by
          rw [heq]; congr 1; omega
        have hcancel : i % N = l.length % N :=
          Nat.ModEq.add_left_cancel' (unpack p.state).1 hmod
        rw [Nat.mod_eq_of_lt (by omega), Nat.mod_eq_of_lt hroom] at hcancel
        omega
      rw [if_neg hne]
      rw [hslots i hi, List.getElem_append_left hi]
    · have hieq : i = l.length := by omega
      subst hieq
      have : ((unpack p.state).1 + l.length) % N = (unpack p.state).2 % N := by
        congr 1; omega
      rw [if_pos this]
      simp

theorem unpack_pack_trunc (t b : Nat) :
    unpack (pack t b) = (t % 2 ^ 32, b % 2 ^ 32) := by
  simp only [unpack, pack, Prod.mk.injEq]
  constructor <;> omega

theorem insert_ok_state {N : Nat} {p : SizedWorkStealingPool T} {l : List T}
    (hinv : PoolInv N p l) (hroom : l.length < N) (hN : N < 2 ^ 32)
    (v : T) :
    unpack (insert N p v).2.state =
      ((unpack p.state).1, ((unpack p.state).2 + 1) % 2 ^ 32) := by
  obtain ⟨hle, hcount, hlen, hslots⟩ := hinv
  simp only [insert]
  rw [if_neg (by rw [Nat.mod_eq_of_lt hN]; omega)]
  rw [unpack_pack_trunc]
  have := unpack_fst_lt p.state
  rw [Nat.mod_eq_of_lt this]

theorem take_spec {N : Nat} {p : SizedWorkStealingPool T} {l : List T}
    (hinv : PoolInv N p l) :
    (take N p).1 = l.head? ∧ PoolInv N (take N p).2 l.tail := by
  obtain ⟨hle, hcount, hlen, hslots⟩ := hinv
  match l with
  | [] =>
    have ht : (unpack p.state).1 = (unpack p.state).2 := by
      simp at hcount; omega
    simp only [take]
    rw [if_pos ht]
    exact ⟨rfl, ht.le, by simp [ht], Nat.zero_le _, by intro i h; simp at h⟩
  | x :: xs =>
    have hne : (unpack p.state).1 ≠ (unpack p.state).2 := by
      simp at hcount; omega
    have hb : (unpack p.state).2 < 2 ^ 32 := unpack_snd_lt _
    have ht1 : (unpack p.state).1 + 1 < 2 ^ 32 := by
      simp at hcount; omega
    simp only [take]
    rw [if_neg hne]
    have h0 : p.queue (((unpack p.state).1 + 0) % N) = (x :: xs)[0] :=
      hslots 0 (by simp)
    simp only [Nat.add_zero] at h0
    refine ⟨by rw [h0]; rfl, ?_, ?_, ?_, ?_⟩ <;>
      simp only [unpack_pack ht1 hb, List.length_cons, List.tail_cons]
    · simp at hcount ⊢; omega
    · simp at hcount ⊢; omega
    · simp at hlen ⊢; omega
    · intro i h
      have := hslots (i + 1) (by simp; omega)
      simp only [List.getElem_cons_succ] at this
      rw [← this]
      congr 2
      omega

theorem steal_spec {N : Nat} {p : SizedWorkStealingPool T} {l : List T}
    (hinv : PoolInv N p l) :
    (steal N p).1 = l.getLast? ∧ PoolInv N (steal N p).2 l.dropLast := by
  obtain ⟨hle, hcount, hlen, hslots⟩ := hinv
  by_cases hempty : l = []
  · subst hempty
    have ht : (unpack p.state).1 = (unpack p.state).2 := by
      simp at hcount; omega
    simp only [steal]
    rw [if_pos ht]
    exact ⟨rfl, ht.le, by simp [ht], Nat.zero_le _, by intro i h; simp at h⟩
  · have hpos : 0 < l.length := List.length_pos.2 hempty
    have hne : (unpack p.state).1 ≠ (unpack p.state).2 := by omega
    have hb0 : (unpack p.state).2 ≠ 0 := by omega
    have ht : (unpack p.state).1 < 2 ^ 32 := unpack_fst_lt _
    have hb : (unpack p.state).2 - 1 < 2 ^ 32 := by
      have := unpack_snd_lt p.state; omega
    simp only [steal]
    rw [if_neg hne, if_neg hb0]
    have hlast : p.queue (((unpack p.state).2 - 1) % N) = l[l.length - 1] := by
      have := hslots (l.length - 1) (by omega)
      rw [← this]
      congr 2
      omega
    refine ⟨?_, ?_, ?_, ?_, ?_⟩
    · rw [hlast]
      rw [List.getLast?_eq_getElem?, List.getElem?_eq_getElem (by omega)]
    all_goals simp only [unpack_pack ht hb, List.length_dropLast]
    · omega
    · omega
    · omega
    · intro i h
      have := hslots i (by omega)
      rw [List.getElem_dropLast, ← this]

/-- Runs a sequence of `insert` calls, keeping the (unchanged) pool when an
individual insert fails — the sequential "insert these values" scenario. -/
def insertList (N : Nat) (p : SizedWorkStealingPool T) : List T → SizedWorkStealingPool T
  | [] => p
  | v :: vs => insertList N (insert N p v).2 vs

theorem insertList_inv {N : Nat} {p : SizedWorkStealingPool T} {l : List T}
    (hinv : PoolInv N p l) (vs : List T)
    (hroom : l.length + vs.length ≤ N) (hN : N < 2 ^ 32)
    (hb : (unpack p.state).2 + vs.length < 2 ^ 32) :
    PoolInv N (insertList N p vs) (l ++ vs) := by
  induction vs generalizing p l with
  | nil => simpa using hinv
  | cons v vs ih =>
    have hlt : l.length < N := by simp at hroom; omega
    have hb1 : (unpack p.state).2 + 1 < 2 ^ 32 := by simp at hb; omega
    have hok := insert_ok hinv hlt hN hb1 v
    have hst := insert_ok_state hinv hlt hN v
    have hbnext : (unpack (insert N p v).2.state).2 + vs.length < 2 ^ 32 := by
      rw [hst]
      simp at hb ⊢
      omega
    have := ih hok.2 (by simp at hroom ⊢; omega) hbnext
    simpa [insertList] using this

/-- C1: for the deque used sequentially, after any sequence of successful
inserts into an initially empty deque the pool abstracts to the inserted
sequence (oldest first); in any abstract state, `take` removes and returns
the oldest remaining element (FIFO), `steal` removes and returns the newest
remaining element (LIFO), and each returns `none` exactly when the deque is
empty. -/
theorem claim_C1 (T : Type) (N : Nat) (g : Nat → T) (vs : List T)
    (hvs : vs.length ≤ N) (hN : N < 2 ^ 32) :
    PoolInv N (insertList N (new g) vs) vs ∧
    (∀ (p : SizedWorkStealingPool T) (l : List T), PoolInv N p l →
      ((take N p).1 = l.head? ∧ PoolInv N (take N p).2 l.tail ∧
        ((take N p).1 = none ↔ l = [])) ∧
      ((steal N p).1 = l.getLast? ∧ PoolInv N (steal N p).2 l.dropLast ∧
        ((steal N p).1 = none ↔ l = []))) := by
  constructor
  · have := insertList_inv (poolInv_new N g) vs (by simpa using hvs) hN
      (by simp [new, unpack]; omega)
    simpa using this
  · intro p l hinv
    obtain ⟨htv, htinv⟩ := take_spec hinv
    obtain ⟨hsv, hsinv⟩ := steal_spec hinv
    refine ⟨⟨htv, htinv, ?_⟩, ⟨hsv, hsinv, ?_⟩⟩
    · rw [htv, List.head?_eq_none_iff]
    · rw [hsv, List.getLast?_eq_none_iff]

theorem claim_C1_witness :
    ([1, 2, 3] : List Nat).length ≤ 3 ∧ 3 < 2 ^ 32 ∧
      (PoolInv 3 (insertList 3 (new fun _ => 0) [1, 2, 3]) [1, 2, 3] ∧
        (∀ (p : SizedWorkStealingPool Nat) (l : List Nat), PoolInv 3 p l →
          ((take 3 p).1 = l.head? ∧ PoolInv 3 (take 3 p).2 l.tail ∧
            ((take 3 p).1 = none ↔ l = [])) ∧
          ((steal 3 p).1 = l.getLast? ∧ PoolInv 3 (steal 3 p).2 l.dropLast ∧
            ((steal 3 p).1 = none ↔ l = [])))) :=
  ⟨by decide, by norm_num,
    claim_C1 Nat 3 (fun _ => 0) [1, 2, 3] (by decide) (by norm_num)⟩

theorem takeStealPart (N : Nat) (p : SizedWorkStealingPool T)
    (hle : (unpack p.state).1 ≤ (unpack p.state).2) :
    ((take N p).1 = none ↔ (unpack p.state).1 = (unpack p.state).2) ∧
    ((take N p).1 = none → (take N p).2 = p) ∧
    ((steal N p).1 = none ↔ (unpack p.state).1 = (unpack p.state).2) ∧
    ((steal N p).1 = none → (steal N p).2 = p) := by
  by_cases h : (unpack p.state).1 = (unpack p.state).2
  · have htk : take N p = (none, p) := by
      simp only [take]; rw [if_pos h]
    have hst : steal N p = (none, p) := by
      simp only [steal]; rw [if_pos h]
    simp [htk, hst, h]
  · have hb0 : (unpack p.state).2 ≠ 0 := by omega
    have htk : (take N p).1 = some (p.queue ((unpack p.state).1 % N)) := by
      simp only [take]; rw [if_neg h]
    have hst : (steal N p).1 =
        some (p.queue (((unpack p.state).2 - 1) % N)) := by
      simp only [steal]; rw [if_neg h, if_neg hb0]
    simp [htk, hst, h]

/-- C8: sequential deque error semantics.  For any machine-representable
capacity (`N < 2^32`, under which the source's `N as u32` cast in the
capacity check is the identity), `insert` returns `IsFull` exactly when the
loaded `bot - top` equals `N`, leaving the state unchanged; `take` and
`steal` return `none` exactly when `top = bot`, leaving the state
unchanged; a successful insert publishes `bot + 1` (as a `u32`).  (`take`
and `steal` return `Option T`, so no operation other than `insert` can
produce `IsFull` at the type level.) -/
theorem claim_C8 (T : Type) (N : Nat) (p : SizedWorkStealingPool T) (v : T)
    (hle : (unpack p.state).1 ≤ (unpack p.state).2) (hN : N < 2 ^ 32) :
    ((insert N p v).1 = .error .IsFull ↔
      (unpack p.state).2 - (unpack p.state).1 = N) ∧
    ((insert N p v).1 = .error .IsFull → (insert N p v).2 = p) ∧
    ((insert N p v).1 = .ok () →
      unpack (insert N p v).2.state =
        ((unpack p.state).1, ((unpack p.state).2 + 1) % 2 ^ 32)) ∧
    ((take N p).1 = none ↔ (unpack p.state).1 = (unpack p.state).2) ∧
    ((take N p).1 = none → (take N p).2 = p) ∧
    ((steal N p).1 = none ↔ (unpack p.state).1 = (unpack p.state).2) ∧
    ((steal N p).1 = none → (steal N p).2 = p) := by
  by_cases hfull : (unpack p.state).2 - (unpack p.state).1 = N
  case pos =>
    have hins : insert N p v = (.error .IsFull, p) := by
      simp only [insert]
      rw [Nat.mod_eq_of_lt hN, if_pos hfull]
    refine ⟨by simp [hins, hfull], by simp [hins], by simp [hins], ?_⟩
    exact takeStealPart N p hle
  case neg =>
    have hins : insert N p v =
        (.ok (), { queue := fun i => if i = (unpack p.state).2 % N then v
                     else p.queue i,
                   state := pack (unpack p.state).1 ((unpack p.state).2 + 1) }) := by
      simp only [insert]
      rw [Nat.mod_eq_of_lt hN, if_neg hfull]
    refine ⟨by simp [hins, hfull], by simp [hins], ?_, ?_⟩
    · intro _
      rw [hins]
      simp only
      rw [unpack_pack_trunc, Nat.mod_eq_of_lt (unpack_fst_lt _)]
    · exact takeStealPart N p hle

theorem claim_C8_witness :
    (unpack (new fun _ => (0 : Nat)).state).1 ≤
        (unpack (new fun _ => (0 : Nat)).state).2 ∧
      2 < 2 ^ 32 ∧
      (((insert 2 (new fun _ => (0 : Nat)) 7).1 = .error .IsFull ↔
          (unpack (new fun _ => (0 : Nat)).state).2 -
              (unpack (new fun _ => (0 : Nat)).state).1 = 2) ∧
        ((insert 2 (new fun _ => (0 : Nat)) 7).1 = .error .IsFull →
          (insert 2 (new fun _ => (0 : Nat)) 7).2 = new fun _ => (0 : Nat)) ∧
        ((insert 2 (new fun _ => (0 : Nat)) 7).1 = .ok () →
          unpack (insert 2 (new fun _ => (0 : Nat)) 7).2.state =
            ((unpack (new fun _ => (0 : Nat)).state).1,
              ((unpack (new fun _ => (0 : Nat)).state).2 + 1) % 2 ^ 32)) ∧
        ((take 2 (new fun _ => (0 : Nat))).1 = none ↔
          (unpack (new fun _ => (0 : Nat)).state).1 =
            (unpack (new fun _ => (0 : Nat)).state).2) ∧
        ((take 2 (new fun _ => (0 : Nat))).1 = none →
          (take 2 (new fun _ => (0 : Nat))).2 = new fun _ => (0 : Nat)) ∧
        ((steal 2 (new fun _ => (0 : Nat))).1 = none ↔
          (unpack (new fun _ => (0 : Nat)).state).1 =
            (unpack (new fun _ => (0 : Nat)).state).2) ∧
        ((steal 2 (new fun _ => (0 : Nat))).1 = none →
          (steal 2 (new fun _ => (0 : Nat))).2 = new fun _ => (0 : Nat))) :=
  ⟨by decide, by norm_num,
    claim_C8 Nat 2 (new fun _ => (0 : Nat)) 7 (by decide) (by norm_num)⟩

end SizedWorkStealingPool

/-! ## Sorted-merge helper: `src/array/core.rs` -/

/-- `cmp a b ≠ Greater` — the "a may go before b" relation induced by a
comparator, as used by the merge loops (`!= Ordering::Greater`). -/
def leC {α : Type} (cmp : α → α → Ordering) (a b : α) : Prop :=
  cmp a b ≠ .gt

instance {α : Type} (cmp : α → α → Ordering) (a b : α) :
    Decidable (leC cmp a b) := by
  unfold leC; infer_instance

/-- Left-biased linear merge of two lists: takes from the left list whenever
the comparison is not `Greater`.  This is the merge kernel shared by
`keep_lowest_by` (`Less`/`Equal` take from `s1`, `Greater` from `s2`) and by
the chunk merges of the no-std `sort_by` (`!= Ordering::Greater` takes the
left run). -/
def lmerge {α : Type} (cmp : α → α → Ordering) : List α → List α → List α
  | [], r => r
  | a :: ls, [] => a :: ls
  | a :: ls, b :: rs =>
    if cmp a b ≠ .gt then a :: lmerge cmp ls (b :: rs)
    else b :: lmerge cmp (a :: ls) rs
termination_by l r => l.length + r.length

/-- The contents of a fixed-size array of length `N` modelled as a total
function, viewed as a list. -/
def arrList {α : Type} (N : Nat) (s : Nat → α) : List α :=
  (List.range N).map s

/-- Source: the `while k < N` merge loop of `keep_lowest_by`
(`src/array/core.rs`): state `(i1, i2)`, one output element per iteration;
`fuel` is the remaining iteration count `N - k`.  Reads go to the copy
`s1_copy` (`s1c`) and to `s2` only, so the writes to `s1` never feed back. -/
def klbGo {T : Type} (N : Nat) (cmp : T → T → Ordering) (s1c s2 : Nat → T) :
    Nat → Nat → Nat → List T
  | _, _, 0 => []
  | i1, i2, fuel + 1 =>
    if N ≤ i1 then
      s2 i2 :: klbGo N cmp s1c s2 i1 (i2 + 1) fuel
    else if N ≤ i2 then
      s1c i1 :: klbGo N cmp s1c s2 (i1 + 1) i2 fuel
    else
      match cmp (s1c i1) (s2 i2) with
      | .lt => s1c i1 :: klbGo N cmp s1c s2 (i1 + 1) i2 fuel
      | .gt => s2 i2 :: klbGo N cmp s1c s2 i1 (i2 + 1) fuel
      | .eq => s1c i1 :: klbGo N cmp s1c s2 (i1 + 1) i2 fuel

/-- Source: `keep_lowest_by(s1, s2, compare)` — runs the merge loop for `N`
iterations starting from `i1 = i2 = k = 0` and overwrites `s1[k]` with the
`k`-th produced value; positions outside the array are untouched. -/
def keep_lowest_by {T : Type} (N : Nat) (cmp : T → T → Ordering)
    (s1 s2 : Nat → T) : Nat → T :=
  fun k =>
    if k < N then (klbGo N cmp s1 s2 0 0 N).getD k (s1 k) else s1 k

theorem lmerge_nil_left {α : Type} (cmp : α → α → Ordering) (r : List α) :
    lmerge cmp [] r = r := by
  unfold lmerge; rfl

theorem lmerge_nil_right {α : Type} (cmp : α → α → Ordering) (a : α)
    (ls : List α) : lmerge cmp (a :: ls) [] = a :: ls := by
  unfold lmerge; rfl

theorem lmerge_nil {α : Type} (cmp : α → α → Ordering) (l : List α) :
    lmerge cmp l [] = l := by
  cases l with
  | nil => rw [lmerge_nil_left]
  | cons a ls => rw [lmerge_nil_right]

theorem lmerge_cons_cons {α : Type} (cmp : α → α → Ordering) (a b : α)
    (ls rs : List α) :
    lmerge cmp (a :: ls) (b :: rs) =
      if cmp a b ≠ .gt then a :: lmerge cmp ls (b :: rs)
      else b :: lmerge cmp (a :: ls) rs := by
  rw [lmerge]

theorem lmerge_perm {α : Type} (cmp : α → α → Ordering) :
    ∀ l r : List α, List.Perm (lmerge cmp l r) (l ++ r)
  | [], r => by simp [lmerge_nil_left]
  | a :: ls, [] => by simp [lmerge_nil_right]
  | a :: ls, b :: rs => by
    rw [lmerge_cons_cons]
    by_cases h : cmp a b ≠ .gt
    · rw [if_pos h]
      exact (lmerge_perm cmp ls (b :: rs)).cons a
    · rw [if_neg h]
      exact List.Perm.trans ((lmerge_perm cmp (a :: ls) rs).cons b)
        List.perm_middle.symm
termination_by l r => l.length + r.length

theorem lmerge_length {α : Type} (cmp : α → α → Ordering) (l r : List α) :
    (lmerge cmp l r).length = l.length + r.length := by
  have := (lmerge_perm cmp l r).length_eq
  simpa using this

theorem lmerge_chain {α : Type} {cmp : α → α → Ordering}
    (hlaw : ∀ a b, cmp a b = .gt → cmp b a ≠ .gt) :
    ∀ l r : List α, List.Chain' (leC cmp) l → List.Chain' (leC cmp) r →
      List.Chain' (leC cmp) (lmerge cmp l r) ∧
      (∀ x, (lmerge cmp l r).head? = some x →
        l.head? = some x ∨ r.head? = some x)
  | [], r => by
    intro _ hr
    rw [lmerge_nil_left]
    exact ⟨hr, fun x hx => Or.inr hx⟩
  | a :: ls, [] => by
    intro hl _
    rw [lmerge_nil_right]
    exact ⟨hl, fun x hx => Or.inl hx⟩
  | a :: ls, b :: rs => by
    intro hl hr
    rw [lmerge_cons_cons]
    by_cases h : cmp a b ≠ .gt
    · rw [if_pos h]
      obtain ⟨hc, hh⟩ := lmerge_chain hlaw ls (b :: rs)
        (List.Chain'.tail hl) hr
      refine ⟨List.chain'_cons'.2 ⟨?_, hc⟩, fun x hx => ?_⟩
      · intro y hy
        rcases hh y hy with h1 | h2
        · exact (List.chain'_cons'.1 hl).1 y h1
        · simp at h2
          subst h2
          exact h
      · simp at hx
        simp [hx]
    · rw [if_neg h]
      push_neg at h
      obtain ⟨hc, hh⟩ := lmerge_chain hlaw (a :: ls) rs hl
        (List.Chain'.tail hr)
      refine ⟨List.chain'_cons'.2 ⟨?_, hc⟩, fun x hx => ?_⟩
      · intro y hy
        rcases hh y hy with h1 | h2
        · simp at h1
          subst h1
          exact hlaw _ _ h
        · exact (List.chain'_cons'.1 hr).1 y h2
      · simp at hx
        simp [hx]
termination_by l r => l.length + r.length

/-- Elements of the prefix of a `leC`-sorted list dominate nothing in the
corresponding suffix (needs transitivity of `leC cmp`). -/
theorem chain_take_drop {α : Type} {cmp : α → α → Ordering}
    (htrans : ∀ a b c, cmp a b ≠ .gt → cmp b c ≠ .gt → cmp a c ≠ .gt)
    {L : List α} (hL : List.Chain' (leC cmp) L) (n : Nat) :
    ∀ x ∈ L.take n, ∀ y ∈ L.drop n, cmp x y ≠ .gt := by
  haveI : IsTrans α (leC cmp) := ⟨fun a b c => htrans a b c⟩
  have hpw : List.Pairwise (leC cmp) L := List.chain'_iff_pairwise.1 hL
  have := List.pairwise_append.1 (by rw [List.take_append_drop n L]; exact hpw)
  exact this.2.2

theorem arrList_length {α : Type} (N : Nat) (s : Nat → α) :
    (arrList N s).length = N := by
  simp [arrList]

theorem arrList_drop_cons {α : Type} {N i : Nat} (s : Nat → α) (h : i < N) :
    (arrList N s).drop i = s i :: (arrList N s).drop (i + 1) := by
  rw [List.drop_eq_getElem_cons (by simpa [arrList_length] using h)]
  simp [arrList]

theorem klbGo_eq {T : Type} (N : Nat) (cmp : T → T → Ordering)
    (s1 s2 : Nat → T) :
    ∀ fuel i1 i2, fuel + i1 + i2 ≤ 2 * N →
      klbGo N cmp s1 s2 i1 i2 fuel =
        List.take fuel
          (lmerge cmp ((arrList N s1).drop i1) ((arrList N s2).drop i2)) := by
  intro fuel
  induction fuel with
  | zero => intro i1 i2 _; simp [klbGo]
  | succ fuel ih =>
    intro i1 i2 hbound
    by_cases h1 : N ≤ i1
    · have hd1 : (arrList N s1).drop i1 = [] := by
        apply List.drop_eq_nil_of_le
        simpa [arrList_length] using h1
      have h2 : i2 < N := by omega
      rw [show klbGo N cmp s1 s2 i1 i2 (fuel + 1) =
            s2 i2 :: klbGo N cmp s1 s2 i1 (i2 + 1) fuel by
          rw [klbGo]; rw [if_pos h1]]
      rw [hd1, lmerge_nil_left, arrList_drop_cons s2 h2, List.take_succ_cons]
      rw [ih i1 (i2 + 1) (by omega), hd1, lmerge_nil_left]
    · push_neg at h1
      have hd1 : (arrList N s1).drop i1 = s1 i1 :: (arrList N s1).drop (i1 + 1) :=
        arrList_drop_cons s1 h1
      by_cases h2 : N ≤ i2
      · have hd2 : (arrList N s2).drop i2 = [] := by
          apply List.drop_eq_nil_of_le
          simpa [arrList_length] using h2
        rw [show klbGo N cmp s1 s2 i1 i2 (fuel + 1) =
              s1 i1 :: klbGo N cmp s1 s2 (i1 + 1) i2 fuel by
            rw [klbGo]; rw [if_neg (by omega), if_pos h2]]
        rw [hd1, hd2, lmerge_nil_right, List.take_succ_cons]
        rw [ih (i1 + 1) i2 (by omega), hd2, lmerge_nil]
      · push_neg at h2
        have hd2 : (arrList N s2).drop i2 = s2 i2 :: (arrList N s2).drop (i2 + 1) :=
          arrList_drop_cons s2 h2
        rw [hd1, hd2, lmerge_cons_cons]
        rcases hc : cmp (s1 i1) (s2 i2) with hl | he | hg
        · rw [if_pos (by simp [hc])]
          rw [show klbGo N cmp s1 s2 i1 i2 (fuel + 1) =
                s1 i1 :: klbGo N cmp s1 s2 (i1 + 1) i2 fuel by
              rw [klbGo]; rw [if_neg (by omega), if_neg (by omega)]; rw [hc]]
          rw [List.take_succ_cons, ih (i1 + 1) i2 (by omega), hd2]
        · rw [if_pos (by simp [hc])]
          rw [show klbGo N cmp s1 s2 i1 i2 (fuel + 1) =
                s1 i1 :: klbGo N cmp s1 s2 (i1 + 1) i2 fuel by
              rw [klbGo]; rw [if_neg (by omega), if_neg (by omega)]; rw [hc]]
          rw [List.take_succ_cons, ih (i1 + 1) i2 (by omega), hd2]
        · rw [if_neg (by simp [hc])]
          rw [show klbGo N cmp s1 s2 i1 i2 (fuel + 1) =
                s2 i2 :: klbGo N cmp s1 s2 i1 (i2 + 1) fuel by
              rw [klbGo]; rw [if_neg (by omega), if_neg (by omega)]; rw [hc]]
          rw [List.take_succ_cons, ih i1 (i2 + 1) (by omega), hd1]

theorem keep_lowest_by_eq {T : Type} (N : Nat) (cmp : T → T → Ordering)
    (s1 s2 : Nat → T) :
    arrList N (keep_lowest_by N cmp s1 s2) =
      List.take N (lmerge cmp (arrList N s1) (arrList N s2)) := by
  have hgo := klbGo_eq N cmp s1 s2 N 0 0 (by omega)
  simp only [List.drop_zero] at hgo
  have hlen : (List.take N (lmerge cmp (arrList N s1) (arrList N s2))).length
      = N := by
    rw [List.length_take, lmerge_length, arrList_length, arrList_length]
    omega
  apply List.ext_getElem
  · rw [arrList_length, hlen]
  · intro k hk hk2
    rw [arrList_length] at hk
    have : (arrList N (keep_lowest_by N cmp s1 s2))[k] =
        keep_lowest_by N cmp s1 s2 k := by
      simp [arrList]
    rw [this]
    unfold keep_lowest_by
    rw [if_pos hk, hgo, List.getD_eq_getElem]

/-- C9: for sorted inputs (with a lawful comparator), `keep_lowest_by`
overwrites `s1` with the left-biased merge prefix of length `N` — the `N`
smallest elements of the combined `2N`-element multiset, in ascending order,
duplicates preserved, `Equal` ties drawn from the original `s1` first. -/
theorem claim_C9 (T : Type) (N : Nat) (cmp : T → T → Ordering)
    (s1 s2 : Nat → T)
    (hlaw : ∀ a b, cmp a b = .gt → cmp b a ≠ .gt)
    (htrans : ∀ a b c, cmp a b ≠ .gt → cmp b c ≠ .gt → cmp a c ≠ .gt)
    (hs1 : List.Chain' (leC cmp) (arrList N s1))
    (hs2 : List.Chain' (leC cmp) (arrList N s2)) :
    arrList N (keep_lowest_by N cmp s1 s2) =
      List.take N (lmerge cmp (arrList N s1) (arrList N s2)) ∧
    List.Chain' (leC cmp) (arrList N (keep_lowest_by N cmp s1 s2)) ∧
    ∃ rest,
      List.Perm (arrList N s1 ++ arrList N s2)
        (arrList N (keep_lowest_by N cmp s1 s2) ++ rest) ∧
      ∀ x ∈ arrList N (keep_lowest_by N cmp s1 s2), ∀ y ∈ rest,
        cmp x y ≠ .gt := by
  have heq := keep_lowest_by_eq N cmp s1 s2
  have hchain := (lmerge_chain hlaw (arrList N s1) (arrList N s2) hs1 hs2).1
  refine ⟨heq, ?_, ?_⟩
  · rw [heq]
    exact hchain.take N
  · refine ⟨(lmerge cmp (arrList N s1) (arrList N s2)).drop N, ?_, ?_⟩
    · rw [heq, List.take_append_drop]
      exact (lmerge_perm cmp _ _).symm
    · rw [heq]
      exact chain_take_drop htrans hchain N

theorem claim_C9_witness :
    (∀ a b : Nat, compare a b = .gt → compare b a ≠ .gt) ∧
    (∀ a b c : Nat, compare a b ≠ .gt → compare b c ≠ .gt →
      compare a c ≠ .gt) ∧
    List.Chain' (leC compare) (arrList 2 fun i => 2 * i + 1) ∧
    List.Chain' (leC compare) (arrList 2 fun i => 2 * i) ∧
    (arrList 2 (keep_lowest_by 2 compare (fun i => 2 * i + 1) fun i => 2 * i) =
      List.take 2 (lmerge compare (arrList 2 fun i => 2 * i + 1)
        (arrList 2 fun i => 2 * i)) ∧
    List.Chain' (leC compare)
      (arrList 2 (keep_lowest_by 2 compare (fun i => 2 * i + 1)
        fun i => 2 * i)) ∧
    ∃ rest,
      List.Perm ((arrList 2 fun i => 2 * i + 1) ++ (arrList 2 fun i => 2 * i))
        (arrList 2 (keep_lowest_by 2 compare (fun i => 2 * i + 1)
          fun i => 2 * i) ++ rest) ∧
      ∀ x ∈ arrList 2 (keep_lowest_by 2 compare (fun i => 2 * i + 1)
          fun i => 2 * i), ∀ y ∈ rest, compare x y ≠ .gt) := by
  have hlaw : ∀ a b : Nat, compare a b = .gt → compare b a ≠ .gt := by
    intro a b
    simp only [ne_eq, Nat.compare_eq_gt]
    omega
  have htrans : ∀ a b c : Nat, compare a b ≠ .gt → compare b c ≠ .gt →
      compare a c ≠ .gt := by
    intro a b c
    simp only [ne_eq, Nat.compare_eq_gt]
    omega
  have hc1 : List.Chain' (leC compare) (arrList 2 fun i => 2 * i + 1) := by
    show List.Chain' (leC compare) [1, 3]
    exact List.chain'_pair.2 (by decide)
  have hc2 : List.Chain' (leC compare) (arrList 2 fun i => 2 * i) := by
    show List.Chain' (leC compare) [0, 2]
    exact List.chain'_pair.2 (by decide)
  exact ⟨hlaw, htrans, hc1, hc2,
    claim_C9 Nat 2 compare (fun i => 2 * i + 1) (fun i => 2 * i)
      hlaw htrans hc1 hc2⟩

/-! ## Arena list: `src/double_linked_list/sized.rs` -/

/-- Source: enum `LinkedListError` in `src/lib.rs`. -/
inductive LinkedListError where
  | IndexOutOfRange
  | ListIsFull
deriving DecidableEq, Repr

/-- Source: struct `Node<T> { value, index, prev, next }`; the neighbour
pointers are slot indices. -/
structure Node (T : Type) where
  value : T
  index : Nat
  prev : Option Nat
  next : Option Nat
deriving DecidableEq, Repr

/-- Source: struct `SizedDoubleLinkedList<T, K>`.  The slot array
`[MaybeUninit<Node<T>>; K]` is a length-`K` list of `Option (Node T)`
(`none` = uninitialised slot); `used` is the `u64` bitmask.  The capacity `K`
is passed to the operations that consult it, mirroring the const generic. -/
structure SizedDoubleLinkedList (T : Type) where
  nodes : List (Option (Node T))
  used : Nat
  len : Nat
  tail : Option Nat
  head : Option Nat
deriving DecidableEq, Repr

namespace SizedDoubleLinkedList

variable {T : Type}

/-- Source: `Default::default()` — `K` uninitialised slots, `used = 0`,
empty list. -/
def empty (K : Nat) : SizedDoubleLinkedList T :=
  { nodes := List.replicate K none, used := 0, len := 0, tail := none,
    head := none }

/-- Reads slot `j` (`assume_init_ref`); a read outside the array or of an
uninitialised slot yields `none` (in Rust: a panic / undefined behaviour,
never exercised under the structural invariant). -/
def nread (l : SizedDoubleLinkedList T) (j : Nat) : Option (Node T) :=
  l.nodes.getD j none

/-- Overwrites slot `j` (`self.nodes[j] = ...`). -/
def nwrite (l : SizedDoubleLinkedList T) (j : Nat) (n : Option (Node T)) :
    SizedDoubleLinkedList T :=
  { l with nodes := l.nodes.set j n }

/-- In-place mutation of the node in slot `j` (`assume_init_mut`); a no-op on
an uninitialised slot (in Rust: undefined behaviour, never exercised under
the structural invariant). -/
def nmodify (l : SizedDoubleLinkedList T) (j : Nat) (f : Node T → Node T) :
    SizedDoubleLinkedList T :=
  { l with nodes := l.nodes.set j ((l.nodes.getD j none).map f) }

/-- Source: `is_full` — `self.len == K`. -/
def is_full (K : Nat) (l : SizedDoubleLinkedList T) : Bool :=
  l.len == K

/-- Source: `remove_used` — `self.used &= !(1 << index)`; the `u64`
complement of `1 << index` is `(2^64 - 1) XOR (1 << index)`. -/
def remove_used (l : SizedDoubleLinkedList T) (index : Nat) :
    SizedDoubleLinkedList T :=
  { l with used := l.used &&& ((2 ^ 64 - 1) ^^^ (1 <<< index)) }

/-- Source: `add_used` — `self.used |= 1 << index`. -/
def add_used (l : SizedDoubleLinkedList T) (index : Nat) :
    SizedDoubleLinkedList T :=
  { l with used := l.used ||| (1 <<< index) }

/-- Source: `first_free` — `(!self.used).trailing_zeros()`: the least of the
64 bit positions whose `used` bit is clear, or 64 when none is. -/
def first_free (l : SizedDoubleLinkedList T) : Nat :=
  (((List.range 64).find? fun i => ! l.used.testBit i)).getD 64

/-- One step of the shared traversal loop: `current = node.next.unwrap()`
(forward) or `node.prev.unwrap()` (backward).  The `unwrap` of a missing
node or pointer is modelled by `0` (in Rust: a panic, never exercised under
the structural invariant). -/
def step (l : SizedDoubleLinkedList T) (forward : Bool) (cur : Nat) : Nat :=
  match l.nodes.getD cur none with
  | some n => (if forward then n.next else n.prev).getD 0
  | none => 0

/-- `steps` iterations of the traversal loop (`for _ in 0..steps`). -/
def walk (l : SizedDoubleLinkedList T) (forward : Bool) :
    Nat → Nat → Nat
  | cur, 0 => cur
  | cur, s + 1 => walk l forward (step l forward cur) s

/-- The shared positional-traversal block: start from the closer end
(`index < len / 2` → forward from `head`, else backward from `tail`, with
`len - 1 - index` steps) and walk to the slot holding position `index`. -/
def locate (l : SizedDoubleLinkedList T) (index : Nat) : Nat :=
  if index < l.len / 2 then walk l true (l.head.getD 0) index
  else walk l false (l.tail.getD 0) (l.len - 1 - index)

/-- Source: `insert_after(index, value)`.  Mutation steps in source order:
read `after_next`, relink `after_next.prev`/`tail`, set `after.next`, mark
the fresh slot used, write the new node, bump `len`. -/
def insert_after (K : Nat) (l : SizedDoubleLinkedList T) (index : Nat)
    (value : T) : Except LinkedListError Unit × SizedDoubleLinkedList T :=
  if l.len ≤ index then
    (.error .IndexOutOfRange, l)
  else if is_full K l then
    (.error .ListIsFull, l)
  else
    let after := locate l index
    let new := first_free l
    let after_next :=
      match l.nodes.getD after none with
      | some n => n.next
      | none => none
    let l1 :=
      match after_next with
      | some n => nmodify l n fun nd => { nd with prev := some new }
      | none => { l with tail := some new }
    let new_node : Node T :=
      { value := value, index := new, prev := some after, next := after_next }
    let l2 := nmodify l1 after fun nd => { nd with next := some new }
    let l3 := add_used l2 new
    let l4 := nwrite l3 new (some new_node)
    (.ok (), { l4 with len := l4.len + 1 })

/-- Source: `insert_before(index, value)`.  The result is `none` when the
call panics: for `1 ≤ len ≤ index ≤ len` (i.e. `index = len`) the traversal
setup computes `self.len - 1 - index`, a `usize` underflow.  All other paths
mirror the source mutation order. -/
def insert_before (K : Nat) (l : SizedDoubleLinkedList T) (index : Nat)
    (value : T) :
    Option (Except LinkedListError Unit × SizedDoubleLinkedList T) :=
  if l.len < index then
    some (.error .IndexOutOfRange, l)
  else if is_full K l then
    some (.error .ListIsFull, l)
  else if index = 0 then
    if l.len = 0 then
      let new := first_free l
      let node : Node T :=
        { value := value, index := new, prev := none, next := none }
      let l1 := nwrite (add_used l new) new (some node)
      some (.ok (), { l1 with head := some new, tail := some new, len := 1 })
    else
      let old := l.head.getD 0
      let new := first_free l
      let l1 := nmodify l old fun nd => { nd with prev := some new }
      let node : Node T :=
        { value := value, index := new, prev := none, next := some old }
      let l2 := nwrite (add_used l1 new) new (some node)
      some (.ok (), { l2 with head := some new, len := l2.len + 1 })
  else
    if l.len ≤ index then
      none
    else
      let before := locate l index
      let old_prev :=
        match l.nodes.getD before none with
        | some n => n.prev
        | none => none
      let new := first_free l
      let l1 :=
        match old_prev with
        | some p => nmodify l p fun nd => { nd with next := some new }
        | none => { l with head := some new }
      let node : Node T :=
        { value := value, index := new, prev := old_prev, next := some before }
      let l2 := nmodify l1 before fun nd => { nd with prev := some new }
      let l3 := nwrite (add_used l2 new) new (some node)
      some (.ok (), { l3 with len := l3.len + 1 })

/-- Source: `insert_head(value) = insert_before(0, value)`. -/
def insert_head (K : Nat) (l : SizedDoubleLinkedList T) (value : T) :
    Option (Except LinkedListError Unit × SizedDoubleLinkedList T) :=
  insert_before K l 0 value

/-- Source: `insert_tail(value)` — `insert_before(0, ·)` on an empty list,
otherwise `insert_after(len - 1, ·)` (which never panics, hence the plain
`some`). -/
def insert_tail (K : Nat) (l : SizedDoubleLinkedList T) (value : T) :
    Option (Except LinkedListError Unit × SizedDoubleLinkedList T) :=
  if l.len = 0 then insert_before K l 0 value
  else some (insert_after K l (l.len - 1) value)

/-- Source: `get(index)` — positional lookup via the shared traversal; the
`none` fallback models the uninitialised-slot read (unreachable under the
structural invariant). -/
def get (l : SizedDoubleLinkedList T) (index : Nat) :
    Except LinkedListError T :=
  if l.len ≤ index then
    .error .IndexOutOfRange
  else
    match l.nodes.getD (locate l index) none with
    | some n => .ok n.value
    | none => .error .IndexOutOfRange

/-- Source: `remove(index)`, with the source's four cases: sole element,
head, tail, middle. -/
def remove (l : SizedDoubleLinkedList T) (index : Nat) :
    Except LinkedListError Unit × SizedDoubleLinkedList T :=
  if l.len ≤ index then
    (.error .IndexOutOfRange, l)
  else if l.len = 1 then
    let only := l.head.getD 0
    let idx :=
      match l.nodes.getD only none with
      | some n => n.index
      | none => 0
    let l1 := nwrite (remove_used l idx) only none
    (.ok (), { l1 with head := none, tail := none, used := 0, len := 0 })
  else if index = 0 then
    let old := l.head.getD 0
    let pr :=
      match l.nodes.getD old none with
      | some n => (n.index, n.next.getD 0)
      | none => (0, 0)
    let l1 := nmodify l pr.2 fun nd => { nd with prev := none }
    let l2 := nwrite (remove_used l1 pr.1) old none
    (.ok (), { l2 with head := some pr.2, len := l2.len - 1 })
  else if index = l.len - 1 then
    let old := l.tail.getD 0
    let pr :=
      match l.nodes.getD old none with
      | some n => (n.index, n.prev.getD 0)
      | none => (0, 0)
    let l1 := nmodify l pr.2 fun nd => { nd with next := none }
    let l2 := nwrite (remove_used l1 pr.1) old none
    (.ok (), { l2 with tail := some pr.2, len := l2.len - 1 })
  else
    let current := locate l index
    let info :=
      match l.nodes.getD current none with
      | some n => (n.index, n.prev, n.next)
      | none => (0, none, none)
    let l1 :=
      match info.2.1 with
      | some p => nmodify l p fun nd => { nd with next := info.2.2 }
      | none => { l with head := info.2.2 }
    let l2 :=
      match info.2.2 with
      | some n => nmodify l1 n fun nd => { nd with prev := info.2.1 }
      | none => { l1 with tail := info.2.1 }
    let l3 := nwrite (remove_used l2 info.1) current none
    (.ok (), { l3 with len := l3.len - 1 })

/-- Source: the search loop of `get_where` — start at `head`, test each
value, follow `next`, stop after the chain ends; `fuel` bounds the walk by
`len` (the loop body runs at most `len` times on a well-formed chain). -/
def find_from (l : SizedDoubleLinkedList T) (f : T → Bool) :
    Option Nat → Nat → Option (Node T)
  | none, _ => none
  | some _, 0 => none
  | some c, fuel + 1 =>
    match l.nodes.getD c none with
    | none => none
    | some n => if f n.value then some n else find_from l f n.next fuel

/-- Source: `get_where(f)` — first node (head→tail) whose value satisfies
`f`. -/
def get_where (l : SizedDoubleLinkedList T) (f : T → Bool) :
    Option (Node T) :=
  find_from l f l.head l.len

/-- Source: `get_index_where(f) = get_where(f).map(|n| n.index)` — note this
is the node's arena slot index, not its list position. -/
def get_index_where (l : SizedDoubleLinkedList T) (f : T → Bool) :
    Option Nat :=
  (get_where l f).map Node.index

/-- Source: `get_value_where(f) = get_where(f).map(|n| &n.value)`. -/
def get_value_where (l : SizedDoubleLinkedList T) (f : T → Bool) :
    Option T :=
  (get_where l f).map Node.value

/-- Source: the index comparator of `sort_by` / `select_n_first_by` —
delegates to `compare` on the node values of the two slots; the `eq`
fallback models the undefined-behaviour read of an uninitialised slot
(unreachable under the invariant). -/
def cmpIdx (l : SizedDoubleLinkedList T) (cmp : T → T → Ordering)
    (a b : Nat) : Ordering :=
  match l.nodes.getD a none, l.nodes.getD b none with
  | some na, some nb => cmp na.value nb.value
  | _, _ => Ordering.eq

/-- Source: the index-gathering loop of `sort_by` / `select_n_first_by` —
record `current`, follow `next`, stop after `fuel` records (`take(len)`)
or at the end of the chain. -/
def chainIdx (l : SizedDoubleLinkedList T) : Option Nat → Nat → List Nat
  | _, 0 => []
  | none, _ => []
  | some c, fuel + 1 =>
    c ::
      (match l.nodes.getD c none with
       | some n =>
         match n.next with
         | some nx => chainIdx l (some nx) fuel
         | none => []
       | none => [])

end SizedDoubleLinkedList

/-- Source: one pass of the bottom-up merge in the no-std `sort_by` — for
each chunk start `i = 0, 2w, 4w, …`, merge the runs `[i, min(i+w, len))`
and `[min(i+w, len), min(i+2w, len))` with the left-biased comparison
(`!= Ordering::Greater` takes the left element). -/
def mergeChunks (cmp : Nat → Nat → Ordering) (w : Nat) (l : List Nat) :
    List Nat :=
  if h : 0 < w ∧ w < l.length then
    lmerge cmp (l.take w) ((l.drop w).take w) ++
      mergeChunks cmp w (l.drop (w + w))
  else l
termination_by l.length
decreasing_by simp only [List.length_drop]; omega

theorem mergeChunks_length (cmp : Nat → Nat → Ordering) :
    ∀ (w : Nat) (l : List Nat), (mergeChunks cmp w l).length = l.length := by
  intro w l
  have H : ∀ (n : Nat) (l : List Nat), l.length = n →
      (mergeChunks cmp w l).length = l.length := by
    intro n
    induction n using Nat.strong_induction_on with
    | _ n ih =>
      intro l hl
      rw [mergeChunks]
      by_cases h : 0 < w ∧ w < l.length
      · rw [dif_pos h, List.length_append, lmerge_length,
          ih (l.drop (w + w)).length (by simp; omega) _ rfl]
        simp
        omega
      · rw [dif_neg h]
  exact H l.length l rfl

/-- Source: the `while width < len` loop of the no-std `sort_by` — run merge
passes of doubling width, ping-ponging between the two index buffers; the
result is the buffer holding the final pass. -/
def sortLoop (cmp : Nat → Nat → Ordering) (w : Nat) (l : List Nat) :
    List Nat :=
  if h : 0 < w ∧ w < l.length then
    sortLoop cmp (w + w) (mergeChunks cmp w l)
  else l
termination_by l.length - w
decreasing_by rw [mergeChunks_length]; omega

namespace SizedDoubleLinkedList

/-- Source: the relink loop of `sort_by` — node at sorted position `p` gets
`prev = src[p-1]` (`None` at the front) and `next = src[p+1]` (`None` at the
back). -/
def relinkNode (σ : List Nat) (p : Nat) (n : Node T) : Node T :=
  { n with prev := if p = 0 then none else σ[p - 1]?,
           next := if p + 1 = σ.length then none else σ[p + 1]? }

/-- Source: the epilogue of `sort_by` — `head = src[0]`, `tail = last`,
then relink every listed node in order. -/
def relink (l : SizedDoubleLinkedList T) (σ : List Nat) :
    SizedDoubleLinkedList T :=
  let l1 := { l with head := σ.head?, tail := σ.getLast? }
  σ.enum.foldl (fun acc pi => nmodify acc pi.2 (relinkNode σ pi.1)) l1

/-- Source: no-std `sort_by(compare)` — gather the slot indices in list
order, bottom-up merge sort them by node value, then relink. -/
def sort_by (cmp : T → T → Ordering) (l : SizedDoubleLinkedList T) :
    SizedDoubleLinkedList T :=
  if l.len ≤ 1 then l
  else
    let src := chainIdx l l.head l.len
    relink l (sortLoop (cmpIdx l cmp) 1 src)

/-- The structural invariant of the arena list, as an abstraction relation:
`xs` lists the live `(slot, value)` pairs in list order (head → tail).
It packages exactly the spec's invariant clauses: `used` bit `i` set iff
slot `i` live, `head`/`tail` none iff empty and otherwise the first/last
live slot, each listed node stores its own slot in `index` and links to its
positional neighbours (`prev` mirror of `next`), non-listed slots are
uninitialised, and all slots are within the capacity `K ≤ 63`. -/
def ListInv (K : Nat) (xs : List (Nat × T)) (l : SizedDoubleLinkedList T) :
    Prop :=
  K ≤ 63 ∧
  l.nodes.length = K ∧
  l.len = xs.length ∧
  xs.length ≤ K ∧
  (xs.map Prod.fst).Nodup ∧
  (∀ pr ∈ xs, pr.1 < K) ∧
  l.head = (xs[0]?).map Prod.fst ∧
  l.tail = (xs[xs.length - 1]?).map Prod.fst ∧
  l.used < 2 ^ 64 ∧
  (∀ i, i < 64 → l.used.testBit i = decide (i ∈ xs.map Prod.fst)) ∧
  (∀ j, j < K → j ∉ xs.map Prod.fst → l.nodes.getD j none = none) ∧
  (∀ p, (hp : p < xs.length) → l.nodes.getD (xs[p].1) none =
    some { value := xs[p].2, index := xs[p].1,
           prev := if p = 0 then none else (xs[p - 1]?).map Prod.fst,
           next := (xs[p + 1]?).map Prod.fst })

end SizedDoubleLinkedList

/-! ### Generic list/bit auxiliary lemmas -/

theorem map_insertIdx {α β : Type} (f : α → β) (x : α) :
    ∀ (n : Nat) (xs : List α),
      (xs.insertIdx n x).map f = (xs.map f).insertIdx n (f x)
  | 0, xs => by simp [List.insertIdx_zero]
  | n + 1, [] => by simp [List.insertIdx_succ_nil]
  | n + 1, y :: ys => by
    rw [List.insertIdx_succ_cons, List.map_cons, List.map_cons,
      List.insertIdx_succ_cons, map_insertIdx f x n ys]

theorem getElem?_insertIdx {α : Type} (xs : List α) (x : α) (n : Nat)
    (hn : n ≤ xs.length) (k : Nat) :
    (xs.insertIdx n x)[k]? =
      if k < n then xs[k]? else if k = n then some x else xs[k - 1]? := by
  have hlen := @List.length_insertIdx _ x n xs hn
  by_cases h1 : k < n
  · rw [if_pos h1]
    have hk : k < xs.length := lt_of_lt_of_le h1 hn
    rw [List.getElem?_eq_getElem (by omega), List.getElem?_eq_getElem hk]
    exact congrArg some (List.getElem_insertIdx_of_lt xs x n k h1 hk)
  · rw [if_neg h1]
    by_cases h2 : k = n
    · subst h2
      rw [if_pos rfl, List.getElem?_eq_getElem (by omega)]
      exact congrArg some (List.getElem_insertIdx_self xs x k hn)
    · rw [if_neg h2]
      obtain ⟨m, rfl⟩ : ∃ m, k = n + m + 1 := ⟨k - n - 1, by omega⟩
      by_cases h4 : n + m < xs.length
      · rw [List.getElem?_eq_getElem (by omega),
          List.getElem?_eq_getElem (show n + m + 1 - 1 < xs.length by
            simpa using h4)]
        have := List.getElem_insertIdx_add_succ xs x n m (by omega)
        rw [this]
        rfl
      · rw [List.getElem?_eq_none (by omega), List.getElem?_eq_none (by omega)]

theorem nodup_insertIdx {α : Type} [DecidableEq α] {xs : List α} {x : α}
    {n : Nat} (hn : n ≤ xs.length) (hx : x ∉ xs) (hnd : xs.Nodup) :
    (xs.insertIdx n x).Nodup :=
  (List.perm_insertIdx x xs hn).nodup_iff.2 (List.nodup_cons.2 ⟨hx, hnd⟩)

theorem mem_map_fst_insertIdx {α β : Type} {xs : List (α × β)} {pr : α × β}
    {n : Nat} (hn : n ≤ xs.length) (i : α) :
    i ∈ (xs.insertIdx n pr).map Prod.fst ↔
      i = pr.1 ∨ i ∈ xs.map Prod.fst := by
  rw [map_insertIdx]
  exact List.mem_insertIdx (by simpa using hn)

theorem find_range'_least (p : Nat → Bool) :
    ∀ (n s j : Nat), (List.range' s n).find? p = some j →
      p j = true ∧ (∀ i, s ≤ i → i < j → p i = false) ∧ s ≤ j ∧ j < s + n
  | 0, s, j => by simp
  | n + 1, s, j => by
    intro h
    rw [List.range'_succ, List.find?_cons] at h
    rcases hps : p s with hf | ht
    · rw [hps] at h
      simp only at h
      obtain ⟨h1, h2, h3, h4⟩ := find_range'_least p n (s + 1) j h
      refine ⟨h1, ?_, by omega, by omega⟩
      intro i hsi hij
      by_cases hi : i = s
      · subst hi; exact hps
      · exact h2 i (by omega) hij
    · rw [hps] at h
      simp only [Option.some.injEq] at h
      subst h
      exact ⟨hps, fun i h1 h2 => absurd h2 (by omega), Nat.le_refl _, by omega⟩

namespace SizedDoubleLinkedList

variable {T : Type}

/-- The arena slot of the entry at list position `p` (0 outside `xs`). -/
def idxAt (xs : List (Nat × T)) (p : Nat) : Nat :=
  ((xs[p]?).map Prod.fst).getD 0

theorem idxAt_eq {xs : List (Nat × T)} {p : Nat} (hp : p < xs.length) :
    idxAt xs p = xs[p].1 := by
  rw [idxAt, List.getElem?_eq_getElem hp]
  rfl

theorem used_add_testBit (l : SizedDoubleLinkedList T) (i j : Nat) :
    (add_used l i).used.testBit j = (l.used.testBit j || decide (i = j)) := by
  simp [add_used, Nat.testBit_lor, Nat.shiftLeft_eq, Nat.testBit_two_pow]

theorem used_add_lt {l : SizedDoubleLinkedList T} {i : Nat} (hi : i < 64)
    (hu : l.used < 2 ^ 64) : (add_used l i).used < 2 ^ 64 := by
  have h2 : (1 <<< i) < 2 ^ 64 := by
    rw [Nat.shiftLeft_eq, one_mul]
    exact Nat.pow_lt_pow_right (by omega) hi
  exact Nat.or_lt_two_pow hu h2

theorem used_remove_testBit (l : SizedDoubleLinkedList T) (i j : Nat)
    (hj : j < 64) :
    (remove_used l i).used.testBit j =
      (l.used.testBit j && ! decide (i = j)) := by
  have hmask : Nat.testBit (2 ^ 64 - 1) j = true := by
    rw [Nat.testBit_two_pow_sub_one]
    simp [hj]
  simp only [remove_used, Nat.testBit_land, Nat.testBit_xor,
    Nat.shiftLeft_eq, one_mul, Nat.testBit_two_pow, hmask]
  cases l.used.testBit j <;> cases hd : decide (i = j) <;> simp

theorem used_remove_lt {l : SizedDoubleLinkedList T} {i : Nat}
    (hu : l.used < 2 ^ 64) : (remove_used l i).used < 2 ^ 64 :=
  lt_of_le_of_lt Nat.and_le_left hu

theorem first_free_spec {K : Nat} {xs : List (Nat × T)}
    {l : SizedDoubleLinkedList T} (hinv : ListInv K xs l)
    (hroom : xs.length < K) :
    first_free l < K ∧ first_free l ∉ xs.map Prod.fst := by
  obtain ⟨hK, hnlen, hlen, hxK, hnd, hbound, hhead, htail, hu64, hbits,
    hdead, hnode⟩ := hinv
  have hex : ∃ i, i < K ∧ i ∉ xs.map Prod.fst := by
    by_contra hc
    push_neg at hc
    have hsub : List.range K ⊆ xs.map Prod.fst := fun i hi =>
      hc i (List.mem_range.1 hi)
    have := (List.subperm_of_subset (List.nodup_range K) hsub).length_le
    simp at this
    omega
  obtain ⟨i0, hi0K, hi0⟩ := hex
  have hp : (! l.used.testBit i0) = true := by
    rw [hbits i0 (by omega)]
    simp [hi0]
  have hsome : (((List.range 64).find? fun i => ! l.used.testBit i)).isSome := by
    rw [List.find?_isSome]
    exact ⟨i0, List.mem_range.2 (by omega), hp⟩
  obtain ⟨j, hj⟩ := Option.isSome_iff_exists.1 hsome
  rw [List.range_eq_range'] at hj
  obtain ⟨hpj, hleast, hjs, hjlt⟩ := find_range'_least _ 64 0 j hj
  have hff : first_free l = j := by
    rw [first_free, List.range_eq_range', hj]
    rfl
  have hjnot : j ∉ xs.map Prod.fst := by
    have hb := hbits j (by omega)
    simp only [Bool.not_eq_true'] at hpj
    rw [hpj] at hb
    simpa using hb.symm
  have hjK : j < K := by
    by_contra hge
    have := hleast i0 (by omega) (by omega)
    rw [this] at hp
    simp at hp
  rw [hff]
  exact ⟨hjK, hjnot⟩

theorem walk_forward {K : Nat} {xs : List (Nat × T)}
    {l : SizedDoubleLinkedList T} (hinv : ListInv K xs l) :
    ∀ (k p : Nat), p + k < xs.length →
      walk l true (idxAt xs p) k = idxAt xs (p + k) := by
  obtain ⟨hK, hnlen, hlen, hxK, hnd, hbound, hhead, htail, hu64, hbits,
    hdead, hnode⟩ := hinv
  intro k
  induction k with
  | zero => intro p _; rfl
  | succ k ih =>
    intro p hpk
    have hp : p < xs.length := by omega
    have hstep : step l true (idxAt xs p) = idxAt xs (p + 1) := by
      rw [step, idxAt_eq hp, hnode p hp]
      simp only [Option.getD]
      rw [idxAt]
      rw [List.getElem?_eq_getElem (show p + 1 < xs.length by omega)]
      rfl
    rw [walk, hstep]
    have := ih (p + 1) (by omega)
    rw [this]
    congr 1
    omega

theorem walk_backward {K : Nat} {xs : List (Nat × T)}
    {l : SizedDoubleLinkedList T} (hinv : ListInv K xs l) :
    ∀ (k p : Nat), k ≤ p → p < xs.length →
      walk l false (idxAt xs p) k = idxAt xs (p - k) := by
  obtain ⟨hK, hnlen, hlen, hxK, hnd, hbound, hhead, htail, hu64, hbits,
    hdead, hnode⟩ := hinv
  intro k
  induction k with
  | zero => intro p _ _; rfl
  | succ k ih =>
    intro p hkp hp
    have hstep : step l false (idxAt xs p) = idxAt xs (p - 1) := by
      rw [step, idxAt_eq hp, hnode p hp]
      simp only [Option.getD]
      rw [if_neg (show ¬ p = 0 by omega)]
      rw [idxAt]
      rw [List.getElem?_eq_getElem (show p - 1 < xs.length by omega)]
      rfl
    rw [walk, hstep]
    have := ih (p - 1) (by omega) (by omega)
    rw [this]
    congr 1
    omega

theorem locate_spec {K : Nat} {xs : List (Nat × T)}
    {l : SizedDoubleLinkedList T} (hinv : ListInv K xs l) {index : Nat}
    (hidx : index < xs.length) : locate l index = idxAt xs index := by
  have hinv' := hinv
  obtain ⟨hK, hnlen, hlen, hxK, hnd, hbound, hhead, htail, hu64, hbits,
    hdead, hnode⟩ := hinv'
  rw [locate, hlen]
  by_cases h : index < xs.length / 2
  · rw [if_pos h]
    have hh : l.head.getD 0 = idxAt xs 0 := by
      rw [hhead, idxAt]
    rw [hh]
    have := walk_forward hinv index 0 (by omega)
    simpa using this
  · rw [if_neg h]
    have ht : l.tail.getD 0 = idxAt xs (xs.length - 1) := by
      rw [htail, idxAt]
    rw [ht]
    have := walk_backward hinv (xs.length - 1 - index) (xs.length - 1)
      (by omega) (by omega)
    rw [this]
    congr 1
    omega

theorem get_spec {K : Nat} {xs : List (Nat × T)}
    {l : SizedDoubleLinkedList T} (hinv : ListInv K xs l) {p : Nat}
    (hp : p < xs.length) : get l p = .ok (xs[p].2) := by
  have hinv' := hinv
  obtain ⟨hK, hnlen, hlen, hxK, hnd, hbound, hhead, htail, hu64, hbits,
    hdead, hnode⟩ := hinv'
  rw [get, if_neg (by omega), locate_spec hinv hp, idxAt_eq hp, hnode p hp]

theorem fst_ne_of_nodup {xs : List (Nat × T)}
    (hnd : (xs.map Prod.fst).Nodup) {a b : Nat} (ha : a < xs.length)
    (hb : b < xs.length) (hne : a ≠ b) : xs[a].1 ≠ xs[b].1 := by
  intro heq
  have ha2 : a < (xs.map Prod.fst).length := by simpa using ha
  have hb2 : b < (xs.map Prod.fst).length := by simpa using hb
  have h1 : (xs.map Prod.fst)[a] = (xs.map Prod.fst)[b] := by
    simpa using heq
  exact hne (List.Nodup.getElem_inj_iff hnd |>.1 h1)

theorem getD_set_ne {α : Type} (ns : List α) {a b : Nat} (x : α) (d : α)
    (h : a ≠ b) : (ns.set a x).getD b d = ns.getD b d := by
  rw [List.getD_eq_getElem?_getD, List.getElem?_set_ne h,
    ← List.getD_eq_getElem?_getD]

theorem insert_before_empty {K : Nat} {l : SizedDoubleLinkedList T}
    (hinv : ListInv K ([] : List (Nat × T)) l) (hK : 0 < K) (v : T) :
    insert_before K l 0 v =
      some (.ok (), { nodes := l.nodes.set (first_free l)
                        (some { value := v, index := first_free l,
                                prev := none, next := none }),
                      used := l.used ||| (1 <<< first_free l),
                      len := 1, tail := some (first_free l),
                      head := some (first_free l) }) ∧
    ListInv K [(first_free l, v)]
      { nodes := l.nodes.set (first_free l)
          (some { value := v, index := first_free l, prev := none,
                  next := none }),
        used := l.used ||| (1 <<< first_free l),
        len := 1, tail := some (first_free l), head := some (first_free l) } := by
  obtain ⟨hff, -⟩ := first_free_spec hinv (by simpa using hK)
  obtain ⟨hKle, hnlen, hlen, hxK, hnd, hbound, hhead, htail, hu64, hbits,
    hdead, hnode⟩ := hinv
  simp only [List.length_nil] at hlen
  constructor
  · rw [insert_before, if_neg (by omega),
      if_neg (by simp [is_full]; omega), if_pos rfl, if_pos hlen]
    rfl
  · refine ⟨hKle, by simpa using hnlen, rfl, by simpa using hK, by simp,
      ?_, by simp, by simp, ?_, ?_, ?_, ?_⟩
    · intro pr hpr
      simp at hpr
      subst hpr
      exact hff
    · exact @used_add_lt T l (first_free l) (by omega) hu64
    · intro i hi
      rw [show l.used ||| (1 <<< first_free l) = (add_used l (first_free l)).used
          from rfl, used_add_testBit, hbits i hi]
      simp [eq_comm]
    · intro j hj hjmem
      simp at hjmem
      rw [List.getD_eq_getElem?_getD, List.getElem?_set_ne (by omega),
        ← List.getD_eq_getElem?_getD]
      exact hdead j hj (by simp)
    · intro p hp
      simp only [List.length_cons, List.length_nil] at hp
      have hp0 : p = 0 := by omega
      subst hp0
      simp only [List.getElem_cons_zero]
      rw [List.getD_eq_getElem?_getD,
        List.getElem?_set_self (by omega)]
      rfl

theorem insert_before_head {K : Nat} {xs : List (Nat × T)}
    {l : SizedDoubleLinkedList T} (hinv : ListInv K xs l)
    (hlen0 : 0 < xs.length) (hroom : xs.length < K) (v : T) :
    insert_before K l 0 v =
      some (.ok (),
        { nodes := (l.nodes.set (xs[0].1)
              (some { value := xs[0].2, index := xs[0].1,
                      prev := some (first_free l),
                      next := (xs[1]?).map Prod.fst })).set (first_free l)
            (some { value := v, index := first_free l, prev := none,
                    next := some (xs[0].1) }),
          used := l.used ||| (1 <<< first_free l),
          len := l.len + 1, tail := l.tail, head := some (first_free l) }) ∧
    ListInv K ((first_free l, v) :: xs)
      { nodes := (l.nodes.set (xs[0].1)
            (some { value := xs[0].2, index := xs[0].1,
                    prev := some (first_free l),
                    next := (xs[1]?).map Prod.fst })).set (first_free l)
          (some { value := v, index := first_free l, prev := none,
                  next := some (xs[0].1) }),
        used := l.used ||| (1 <<< first_free l),
        len := l.len + 1, tail := l.tail, head := some (first_free l) } := by
  obtain ⟨hff, hffmem⟩ := first_free_spec hinv hroom
  have hinv' := hinv
  obtain ⟨hKle, hnlen, hlen, hxK, hnd, hbound, hhead, htail, hu64, hbits,
    hdead, hnode⟩ := hinv'
  have hold : l.head.getD 0 = xs[0].1 := by
    rw [hhead, List.getElem?_eq_getElem hlen0]
    rfl
  have hmem0 : xs[0].1 ∈ xs.map Prod.fst :=
    List.mem_map.2 ⟨xs[0], List.getElem_mem _, rfl⟩
  have hne0 : xs[0].1 ≠ first_free l := fun h => hffmem (h ▸ hmem0)
  have hn0 := hnode 0 hlen0
  constructor
  · rw [insert_before, if_neg (by omega), if_neg (by simp [is_full]; omega),
      if_pos rfl, if_neg (by omega)]
    simp only [nmodify, nwrite, add_used, hold, hn0]
    simp
  · refine ⟨hKle, by simpa using hnlen, by simp [hlen], by simp; omega,
      ?_, ?_, by simp, ?_, ?_, ?_, ?_, ?_⟩
    · simp only [List.map_cons, List.nodup_cons]
      exact ⟨hffmem, hnd⟩
    · intro pr hpr
      rcases List.mem_cons.1 hpr with h | h
      · subst h; exact hff
      · exact hbound pr h
    · simp only [List.length_cons, Nat.add_sub_cancel]
      rw [htail]
      have h1 : xs.length = (xs.length - 1) + 1 := by omega
      have h2 : ((first_free l, v) :: xs)[xs.length]? = xs[xs.length - 1]? := by
        conv_lhs => rw [h1]
        rw [List.getElem?_cons_succ]
      rw [h2]
    · exact @used_add_lt T l (first_free l) (by omega) hu64
    · intro i hi
      rw [show l.used ||| (1 <<< first_free l) =
          (add_used l (first_free l)).used from rfl, used_add_testBit,
        hbits i hi]
      by_cases hmem : i ∈ xs.map Prod.fst
      · simp [hmem]
      · by_cases hie : first_free l = i
        · simp [hmem, hie]
        · simp [hmem, hie, show ¬ i = first_free l from fun h => hie h.symm]
    · intro j hj hjmem
      simp only [List.map_cons, List.mem_cons, not_or] at hjmem
      rw [List.getD_eq_getElem?_getD,
        List.getElem?_set_ne (fun h => hjmem.1 h.symm),
        List.getElem?_set_ne (by intro h; exact hjmem.2 (h ▸ hmem0)),
        ← List.getD_eq_getElem?_getD]
      exact hdead j hj (by simpa using hjmem.2)
    · intro p hp
      simp only [List.length_cons] at hp
      have hb0len : xs[0].1 < l.nodes.length := by
        rw [hnlen]
        exact hbound _ (List.getElem_mem _)
      match p, hp with
      | 0, _ =>
        simp only [List.getElem_cons_zero]
        rw [List.getD_eq_getElem?_getD, List.getElem?_set_self
          (by simp [hnlen]; omega)]
        simp only [Option.getD_some, List.getElem?_cons_succ,
          Option.some.injEq]
        rw [List.getElem?_eq_getElem hlen0]
        rfl
      | 1, _ =>
        simp only [List.getElem_cons_succ]
        rw [List.getD_eq_getElem?_getD,
          List.getElem?_set_ne (Ne.symm hne0),
          List.getElem?_set_self hb0len]
        simp
      | (q + 2), hq =>
        have hq1 : q + 1 < xs.length := by omega
        have hmemq : xs[q + 1].1 ∈ xs.map Prod.fst :=
          List.mem_map.2 ⟨xs[q + 1], List.getElem_mem _, rfl⟩
        have hneq : xs[q + 1].1 ≠ first_free l := fun h => hffmem (h ▸ hmemq)
        have hne0q : xs[q + 1].1 ≠ xs[0].1 :=
          fst_ne_of_nodup hnd hq1 hlen0 (by omega)
        simp only [List.getElem_cons_succ]
        rw [List.getD_eq_getElem?_getD, List.getElem?_set_ne (Ne.symm hneq),
          List.getElem?_set_ne (Ne.symm hne0q), ← List.getD_eq_getElem?_getD]
        rw [hnode (q + 1) hq1]
        simp only [show q + 2 - 1 = q + 1 from rfl, show q + 1 - 1 = q from
          rfl, List.getElem?_cons_succ, Option.some.injEq]
        rw [if_neg (by omega), if_neg (by omega)]

theorem insert_before_mid {K : Nat} {xs : List (Nat × T)}
    {l : SizedDoubleLinkedList T} (hinv : ListInv K xs l) {index : Nat}
    (h1 : 1 ≤ index) (h2 : index < xs.length) (hroom : xs.length < K)
    (v : T) :
    insert_before K l index v =
      some (.ok (),
        { nodes := ((l.nodes.set (xs[index - 1].1)
              (some { value := xs[index - 1].2, index := xs[index - 1].1,
                      prev := if index - 1 = 0 then none
                        else Option.map Prod.fst xs[index - 1 - 1]?,
                      next := some (first_free l) })).set (xs[index].1)
              (some { value := xs[index].2, index := xs[index].1,
                      prev := some (first_free l),
                      next := Option.map Prod.fst xs[index + 1]? })).set
            (first_free l)
            (some { value := v, index := first_free l,
                    prev := some (xs[index - 1].1),
                    next := some (xs[index].1) }),
          used := l.used ||| (1 <<< first_free l),
          len := l.len + 1, tail := l.tail, head := l.head }) ∧
    ListInv K (xs.insertIdx index (first_free l, v))
      { nodes := ((l.nodes.set (xs[index - 1].1)
            (some { value := xs[index - 1].2, index := xs[index - 1].1,
                    prev := if index - 1 = 0 then none
                      else Option.map Prod.fst xs[index - 1 - 1]?,
                    next := some (first_free l) })).set (xs[index].1)
            (some { value := xs[index].2, index := xs[index].1,
                    prev := some (first_free l),
                    next := Option.map Prod.fst xs[index + 1]? })).set
          (first_free l)
          (some { value := v, index := first_free l,
                  prev := some (xs[index - 1].1),
                  next := some (xs[index].1) }),
        used := l.used ||| (1 <<< first_free l),
        len := l.len + 1, tail := l.tail, head := l.head } := by
  obtain ⟨hff, hffmem⟩ := first_free_spec hinv hroom
  have hinv' := hinv
  obtain ⟨hKle, hnlen, hlen, hxK, hnd, hbound, hhead, htail, hu64, hbits,
    hdead, hnode⟩ := hinv'
  have hx1 : index - 1 < xs.length := by omega
  have hloc : locate l index = xs[index].1 := by
    rw [locate_spec hinv h2, idxAt_eq h2]
  have hni := hnode index h2
  have hn1 := hnode (index - 1) hx1
  have hpm : xs[index - 1].1 ∈ xs.map Prod.fst :=
    List.mem_map.2 ⟨xs[index - 1], List.getElem_mem _, rfl⟩
  have hbm : xs[index].1 ∈ xs.map Prod.fst :=
    List.mem_map.2 ⟨xs[index], List.getElem_mem _, rfl⟩
  have hpf : xs[index - 1].1 ≠ first_free l := fun h => hffmem (h ▸ hpm)
  have hbf : xs[index].1 ≠ first_free l := fun h => hffmem (h ▸ hbm)
  have hpb : xs[index - 1].1 ≠ xs[index].1 :=
    fst_ne_of_nodup hnd hx1 h2 (by omega)
  have hplen : xs[index - 1].1 < l.nodes.length := by
    rw [hnlen]; exact hbound _ (List.getElem_mem _)
  have hblen : xs[index].1 < l.nodes.length := by
    rw [hnlen]; exact hbound _ (List.getElem_mem _)
  have hflen : first_free l < l.nodes.length := by rw [hnlen]; exact hff
  have hprev : (xs[index - 1]?).map Prod.fst = some (xs[index - 1].1) := by
    rw [List.getElem?_eq_getElem hx1]; rfl
  have hgi := getElem?_insertIdx xs (first_free l, v) index (le_of_lt h2)
  have hilen : (xs.insertIdx index (first_free l, v)).length =
      xs.length + 1 := List.length_insertIdx index xs (le_of_lt h2)
  constructor
  · rw [insert_before, if_neg (by omega), if_neg (by simp [is_full]; omega),
      if_neg (by omega), if_neg (by omega)]
    simp only [hloc, hni, if_neg (show ¬ index = 0 by omega), hprev,
      nmodify, nwrite, add_used, hn1]
    rw [List.getD_eq_getElem?_getD, List.getElem?_set_ne hpb,
      ← List.getD_eq_getElem?_getD, hni]
    rfl
  · refine ⟨hKle, by simp [hnlen], ?_, by rw [hilen]; omega, ?_, ?_, ?_, ?_,
      ?_, ?_, ?_, ?_⟩
    · show l.len + 1 = _
      rw [hilen, hlen]
    · rw [map_insertIdx]
      exact nodup_insertIdx (by simpa using le_of_lt h2) hffmem hnd
    · intro pr hpr
      rcases (List.mem_insertIdx (le_of_lt h2)).1 hpr with h | h
      · subst h; exact hff
      · exact hbound pr h
    · show l.head = _
      rw [hhead, hgi 0, if_pos (by omega)]
    · show l.tail = _
      rw [htail, hilen, Nat.add_sub_cancel, hgi xs.length,
        if_neg (by omega), if_neg (by omega)]
    · exact @used_add_lt T l (first_free l) (by omega) hu64
    · intro i hi
      rw [show l.used ||| (1 <<< first_free l) =
          (add_used l (first_free l)).used from rfl, used_add_testBit,
        hbits i hi]
      rw [map_insertIdx]
      by_cases hmem : i ∈ xs.map Prod.fst
      · simp [hmem, List.mem_insertIdx (show index ≤ (xs.map Prod.fst).length
          by simpa using le_of_lt h2)]
      · by_cases hie : first_free l = i
        · simp [hmem, hie, List.mem_insertIdx
            (show index ≤ (xs.map Prod.fst).length by
              simpa using le_of_lt h2)]
        · simp [hmem, hie, List.mem_insertIdx
            (show index ≤ (xs.map Prod.fst).length by
              simpa using le_of_lt h2),
            show ¬ i = first_free l from fun h => hie h.symm]
    · intro j hj hjmem
      rw [mem_map_fst_insertIdx (le_of_lt h2)] at hjmem
      push_neg at hjmem
      obtain ⟨hjf, hjxs⟩ := hjmem
      have hjb : j ≠ xs[index].1 := fun h => hjxs (h ▸ hbm)
      have hjp : j ≠ xs[index - 1].1 := fun h => hjxs (h ▸ hpm)
      rw [List.getD_eq_getElem?_getD,
        List.getElem?_set_ne (fun h => hjf h.symm),
        List.getElem?_set_ne (Ne.symm hjb), List.getElem?_set_ne (Ne.symm hjp),
        ← List.getD_eq_getElem?_getD]
      exact hdead j hj hjxs
    · intro q hq
      rw [hilen] at hq
      rcases lt_trichotomy q index with hqlt | hqeq | hqgt
      · -- q < index : positions strictly before the insertion point
        have hqx : q < xs.length := by omega
        have hE : (xs.insertIdx index (first_free l, v))[q] = xs[q] :=
          List.getElem_insertIdx_of_lt xs _ index q hqlt hqx
        rw [hE]
        have hqf : xs[q].1 ≠ first_free l := fun h =>
          hffmem (h ▸ List.mem_map.2 ⟨xs[q], List.getElem_mem _, rfl⟩)
        have hqb : xs[q].1 ≠ xs[index].1 :=
          fst_ne_of_nodup hnd hqx h2 (by omega)
        rcases Nat.lt_or_ge q (index - 1) with hq1 | hq1
        · -- untouched node
          have hqp : xs[q].1 ≠ xs[index - 1].1 :=
            fst_ne_of_nodup hnd hqx hx1 (by omega)
          rw [List.getD_eq_getElem?_getD,
            List.getElem?_set_ne (Ne.symm hqf),
            List.getElem?_set_ne (Ne.symm hqb),
            List.getElem?_set_ne (Ne.symm hqp),
            ← List.getD_eq_getElem?_getD, hnode q hqx,
            hgi (q - 1), if_pos (show q - 1 < index by omega),
            hgi (q + 1), if_pos (show q + 1 < index by omega)]
        · -- q = index - 1 : the left neighbour, next repointed to the slot
          have hqe : q = index - 1 := by omega
          subst hqe
          rw [List.getD_eq_getElem?_getD,
            List.getElem?_set_ne (Ne.symm hqf),
            List.getElem?_set_ne (Ne.symm hqb),
            List.getElem?_set_self hplen]
          simp only [Option.getD_some, Option.some.injEq]
          rw [hgi (index - 1 - 1),
            if_pos (show index - 1 - 1 < index by omega),
            show index - 1 + 1 = index by omega, hgi index,
            if_neg (show ¬ index < index by omega),
            if_pos (show index = index from rfl)]
          rfl
      · -- q = index : the fresh node
        subst hqeq
        have hE : (xs.insertIdx q (first_free l, v))[q] = (first_free l, v) :=
          List.getElem_insertIdx_self xs _ q (le_of_lt h2)
        rw [hE]
        rw [List.getD_eq_getElem?_getD,
          List.getElem?_set_self (by simp only [List.length_set]; exact hflen)]
        simp only [Option.getD_some, Option.some.injEq]
        rw [hgi (q - 1), if_pos (show q - 1 < q by omega), hprev,
          hgi (q + 1), if_neg (show ¬ q + 1 < q by omega),
          if_neg (show ¬ q + 1 = q by omega),
          show q + 1 - 1 = q from rfl, List.getElem?_eq_getElem h2]
        rw [if_neg (show ¬ q = 0 by omega)]
        rfl
      · -- q > index : positions after the insertion point
        have hq1x : q - 1 < xs.length := by omega
        obtain ⟨m, rfl⟩ : ∃ m, q = index + m + 1 := ⟨q - index - 1, by omega⟩
        have hE : (xs.insertIdx index (first_free l, v))[index + m + 1] =
            xs[index + m] := List.getElem_insertIdx_add_succ xs _ index m
          (by omega)
        rw [hE]
        have hmx : index + m < xs.length := by omega
        have hmf : xs[index + m].1 ≠ first_free l := fun h =>
          hffmem (h ▸ List.mem_map.2 ⟨xs[index + m], List.getElem_mem _, rfl⟩)
        rcases Nat.eq_zero_or_pos m with hm0 | hm0
        · -- q = index + 1 : the right neighbour, prev repointed to the slot
          subst hm0
          simp only [Nat.add_zero] at hmf ⊢
          rw [List.getD_eq_getElem?_getD,
            List.getElem?_set_ne (Ne.symm hmf),
            List.getElem?_set_self
              (by simp only [List.length_set]; exact hblen)]
          simp only [Option.getD_some, Option.some.injEq]
          rw [show index + 1 - 1 = index from rfl, hgi index,
            if_neg (show ¬ index < index by omega),
            if_pos (show index = index from rfl),
            hgi (index + 1 + 1),
            if_neg (show ¬ index + 1 + 1 < index by omega),
            if_neg (show ¬ index + 1 + 1 = index by omega),
            show index + 1 + 1 - 1 = index + 1 from rfl]
          rw [if_neg (show ¬ index + 1 = 0 by omega)]
          rfl
        · -- untouched nodes strictly after the right neighbour
          have hmb : xs[index + m].1 ≠ xs[index].1 :=
            fst_ne_of_nodup hnd hmx h2 (by omega)
          have hmp : xs[index + m].1 ≠ xs[index - 1].1 :=
            fst_ne_of_nodup hnd hmx hx1 (by omega)
          rw [List.getD_eq_getElem?_getD,
            List.getElem?_set_ne (Ne.symm hmf),
            List.getElem?_set_ne (Ne.symm hmb),
            List.getElem?_set_ne (Ne.symm hmp),
            ← List.getD_eq_getElem?_getD, hnode (index + m) hmx]
          simp only [Option.some.injEq]
          rw [show index + m + 1 - 1 = index + m from rfl,
            hgi (index + m), if_neg (show ¬ index + m < index by omega),
            if_neg (show ¬ index + m = index by omega),
            hgi (index + m + 1 + 1),
            if_neg (show ¬ index + m + 1 + 1 < index by omega),
            if_neg (show ¬ index + m + 1 + 1 = index by omega),
            show index + m + 1 + 1 - 1 = index + m + 1 from rfl]
          rw [if_neg (show ¬ index + m = 0 by omega),
            if_neg (show ¬ index + m + 1 = 0 by omega)]

theorem insert_after_last {K : Nat} {xs : List (Nat × T)}
    {l : SizedDoubleLinkedList T} (hinv : ListInv K xs l) {index : Nat}
    (h2 : index < xs.length) (hlast : index + 1 = xs.length)
    (hroom : xs.length < K) (v : T) :
    insert_after K l index v =
      (.ok (),
        { nodes := (l.nodes.set (xs[index].1)
              (some { value := xs[index].2, index := xs[index].1,
                      prev := if index = 0 then none
                        else Option.map Prod.fst xs[index - 1]?,
                      next := some (first_free l) })).set (first_free l)
            (some { value := v, index := first_free l,
                    prev := some (xs[index].1), next := none }),
          used := l.used ||| (1 <<< first_free l),
          len := l.len + 1, tail := some (first_free l), head := l.head }) ∧
    ListInv K (xs.insertIdx (index + 1) (first_free l, v))
      { nodes := (l.nodes.set (xs[index].1)
            (some { value := xs[index].2, index := xs[index].1,
                    prev := if index = 0 then none
                      else Option.map Prod.fst xs[index - 1]?,
                    next := some (first_free l) })).set (first_free l)
          (some { value := v, index := first_free l,
                  prev := some (xs[index].1), next := none }),
        used := l.used ||| (1 <<< first_free l),
        len := l.len + 1, tail := some (first_free l), head := l.head } := by
  obtain ⟨hff, hffmem⟩ := first_free_spec hinv hroom
  have hinv' := hinv
  obtain ⟨hKle, hnlen, hlen, hxK, hnd, hbound, hhead, htail, hu64, hbits,
    hdead, hnode⟩ := hinv'
  have hloc : locate l index = xs[index].1 := by
    rw [locate_spec hinv h2, idxAt_eq h2]
  have hni := hnode index h2
  have ham : xs[index].1 ∈ xs.map Prod.fst :=
    List.mem_map.2 ⟨xs[index], List.getElem_mem _, rfl⟩
  have haf : xs[index].1 ≠ first_free l := fun h => hffmem (h ▸ ham)
  have halen : xs[index].1 < l.nodes.length := by
    rw [hnlen]; exact hbound _ (List.getElem_mem _)
  have hflen : first_free l < l.nodes.length := by rw [hnlen]; exact hff
  have hgi := getElem?_insertIdx xs (first_free l, v) (index + 1) (by omega)
  have hilen : (xs.insertIdx (index + 1) (first_free l, v)).length =
      xs.length + 1 := List.length_insertIdx _ xs (by omega)
  have hmemins : (index + 1 : Nat) ≤ (xs.map Prod.fst).length := by
    simpa using (show index + 1 ≤ xs.length by omega)
  have hnone : xs[index + 1]? = none := List.getElem?_eq_none (by omega)
  constructor
  · rw [insert_after, if_neg (by omega), if_neg (by simp [is_full]; omega)]
    simp only [hloc, hni, hnone, Option.map_none, nmodify, nwrite, add_used]
    rw [List.getD_eq_getElem?_getD] at hni
    simp [hni]
  · refine ⟨hKle, by simp [hnlen], ?_, by rw [hilen]; omega, ?_, ?_, ?_,
      ?_, ?_, ?_, ?_, ?_⟩
    · show l.len + 1 = _
      rw [hilen, hlen]
    · rw [map_insertIdx]
      exact nodup_insertIdx hmemins hffmem hnd
    · intro pr hpr
      rcases (List.mem_insertIdx (by omega)).1 hpr with h | h
      · subst h; exact hff
      · exact hbound pr h
    · show l.head = _
      rw [hhead, hgi 0, if_pos (by omega)]
    · show some (first_free l) = _
      rw [hilen, Nat.add_sub_cancel, hgi xs.length,
        if_neg (by omega), if_pos (by omega)]
      rfl
    · exact @used_add_lt T l (first_free l) (by omega) hu64
    · intro i hi
      rw [show l.used ||| (1 <<< first_free l) =
          (add_used l (first_free l)).used from rfl, used_add_testBit,
        hbits i hi, map_insertIdx]
      by_cases hmem : i ∈ xs.map Prod.fst
      · simp [hmem, List.mem_insertIdx hmemins]
      · by_cases hie : first_free l = i
        · simp [hmem, hie, List.mem_insertIdx hmemins]
        · simp [hmem, hie, List.mem_insertIdx hmemins,
            show ¬ i = first_free l from fun h => hie h.symm]
    · intro j hj hjmem
      rw [mem_map_fst_insertIdx (by omega)] at hjmem
      push_neg at hjmem
      obtain ⟨hjf, hjxs⟩ := hjmem
      have hja : j ≠ xs[index].1 := fun h => hjxs (h ▸ ham)
      rw [List.getD_eq_getElem?_getD,
        List.getElem?_set_ne (fun h => hjf h.symm),
        List.getElem?_set_ne (Ne.symm hja), ← List.getD_eq_getElem?_getD]
      exact hdead j hj hjxs
    · intro q hq
      rw [hilen] at hq
      rcases lt_trichotomy q index with hqlt | hqeq | hqgt
      · have hqx : q < xs.length := by omega
        have hE : (xs.insertIdx (index + 1) (first_free l, v))[q] = xs[q] :=
          List.getElem_insertIdx_of_lt xs _ _ q (by omega) hqx
        rw [hE]
        have hqf : xs[q].1 ≠ first_free l := fun h =>
          hffmem (h ▸ List.mem_map.2 ⟨xs[q], List.getElem_mem _, rfl⟩)
        have hqa : xs[q].1 ≠ xs[index].1 :=
          fst_ne_of_nodup hnd hqx h2 (by omega)
        rw [List.getD_eq_getElem?_getD,
          List.getElem?_set_ne (Ne.symm hqf),
          List.getElem?_set_ne (Ne.symm hqa),
          ← List.getD_eq_getElem?_getD, hnode q hqx,
          hgi (q - 1), if_pos (show q - 1 < index + 1 by omega),
          hgi (q + 1), if_pos (show q + 1 < index + 1 by omega)]
      · subst hqeq
        have hE : (xs.insertIdx (q + 1) (first_free l, v))[q] = xs[q] :=
          List.getElem_insertIdx_of_lt xs _ _ q (by omega) h2
        rw [hE]
        rw [List.getD_eq_getElem?_getD, List.getElem?_set_ne (Ne.symm haf),
          List.getElem?_set_self halen]
        simp only [Option.getD_some, Option.some.injEq]
        rw [hgi (q - 1), if_pos (show q - 1 < q + 1 by omega),
          hgi (q + 1), if_neg (show ¬ q + 1 < q + 1 by omega),
          if_pos (show q + 1 = q + 1 from rfl)]
        rfl
      · have hqe : q = index + 1 := by omega
        subst hqe
        have hE : (xs.insertIdx (index + 1) (first_free l, v))[index + 1] =
            (first_free l, v) :=
          List.getElem_insertIdx_self xs _ _ (by omega)
        rw [hE]
        rw [List.getD_eq_getElem?_getD, List.getElem?_set_self
          (by simp only [List.length_set]; exact hflen)]
        simp only [Option.getD_some, Option.some.injEq]
        rw [show index + 1 - 1 = index from rfl,
          hgi index, if_pos (show index < index + 1 by omega),
          List.getElem?_eq_getElem h2,
          hgi (index + 1 + 1),
          if_neg (show ¬ index + 1 + 1 < index + 1 by omega),
          if_neg (show ¬ index + 1 + 1 = index + 1 by omega),
          show index + 1 + 1 - 1 = index + 1 from rfl, hnone]
        rw [if_neg (show ¬ index + 1 = 0 by omega)]
        rfl

theorem insert_after_mid {K : Nat} {xs : List (Nat × T)}
    {l : SizedDoubleLinkedList T} (hinv : ListInv K xs l) {index : Nat}
    (h2 : index < xs.length) (hlast : index + 1 < xs.length)
    (hroom : xs.length < K) (v : T) :
    insert_after K l index v =
      (.ok (),
        { nodes := ((l.nodes.set (xs[index + 1].1)
              (some { value := xs[index + 1].2, index := xs[index + 1].1,
                      prev := some (first_free l),
                      next := Option.map Prod.fst xs[index + 1 + 1]? })).set
              (xs[index].1)
              (some { value := xs[index].2, index := xs[index].1,
                      prev := if index = 0 then none
                        else Option.map Prod.fst xs[index - 1]?,
                      next := some (first_free l) })).set (first_free l)
            (some { value := v, index := first_free l,
                    prev := some (xs[index].1),
                    next := some (xs[index + 1].1) }),
          used := l.used ||| (1 <<< first_free l),
          len := l.len + 1, tail := l.tail, head := l.head }) ∧
    ListInv K (xs.insertIdx (index + 1) (first_free l, v))
      { nodes := ((l.nodes.set (xs[index + 1].1)
            (some { value := xs[index + 1].2, index := xs[index + 1].1,
                    prev := some (first_free l),
                    next := Option.map Prod.fst xs[index + 1 + 1]? })).set
            (xs[index].1)
            (some { value := xs[index].2, index := xs[index].1,
                    prev := if index = 0 then none
                      else Option.map Prod.fst xs[index - 1]?,
                    next := some (first_free l) })).set (first_free l)
          (some { value := v, index := first_free l,
                  prev := some (xs[index].1),
                  next := some (xs[index + 1].1) }),
        used := l.used ||| (1 <<< first_free l),
        len := l.len + 1, tail := l.tail, head := l.head } := by
  obtain ⟨hff, hffmem⟩ := first_free_spec hinv hroom
  have hinv' := hinv
  obtain ⟨hKle, hnlen, hlen, hxK, hnd, hbound, hhead, htail, hu64, hbits,
    hdead, hnode⟩ := hinv'
  have hloc : locate l index = xs[index].1 := by
    rw [locate_spec hinv h2, idxAt_eq h2]
  have hni := hnode index h2
  have ham : xs[index].1 ∈ xs.map Prod.fst :=
    List.mem_map.2 ⟨xs[index], List.getElem_mem _, rfl⟩
  have haf : xs[index].1 ≠ first_free l := fun h => hffmem (h ▸ ham)
  have halen : xs[index].1 < l.nodes.length := by
    rw [hnlen]; exact hbound _ (List.getElem_mem _)
  have hflen : first_free l < l.nodes.length := by rw [hnlen]; exact hff
  have hgi := getElem?_insertIdx xs (first_free l, v) (index + 1) (by omega)
  have hilen : (xs.insertIdx (index + 1) (first_free l, v)).length =
      xs.length + 1 := List.length_insertIdx _ xs (by omega)
  have hmemins : (index + 1 : Nat) ≤ (xs.map Prod.fst).length := by
    simpa using (show index + 1 ≤ xs.length by omega)
  have hn1x : index + 1 < xs.length := hlast
  have hsn := hnode (index + 1) hn1x
  have hsm : xs[index + 1].1 ∈ xs.map Prod.fst :=
    List.mem_map.2 ⟨xs[index + 1], List.getElem_mem _, rfl⟩
  have hsf : xs[index + 1].1 ≠ first_free l := fun h => hffmem (h ▸ hsm)
  have hsa : xs[index + 1].1 ≠ xs[index].1 :=
    fst_ne_of_nodup hnd hn1x h2 (by omega)
  have hslen : xs[index + 1].1 < l.nodes.length := by
    rw [hnlen]; exact hbound _ (List.getElem_mem _)
  have hsome : xs[index + 1]? = some xs[index + 1] :=
    List.getElem?_eq_getElem hn1x
  constructor
  · rw [insert_after, if_neg (by omega), if_neg (by simp [is_full]; omega)]
    simp only [hloc, hni, hsome, Option.map_some', nmodify, nwrite,
      add_used, hsn]
    rw [getD_set_ne _ _ _ hsa, hni]
    simp
  · refine ⟨hKle, by simp [hnlen], ?_, by rw [hilen]; omega, ?_, ?_, ?_,
      ?_, ?_, ?_, ?_, ?_⟩
    · show l.len + 1 = _
      rw [hilen, hlen]
    · rw [map_insertIdx]
      exact nodup_insertIdx hmemins hffmem hnd
    · intro pr hpr
      rcases (List.mem_insertIdx (by omega)).1 hpr with h | h
      · subst h; exact hff
      · exact hbound pr h
    · show l.head = _
      rw [hhead, hgi 0, if_pos (by omega)]
    · show l.tail = _
      rw [htail, hilen, Nat.add_sub_cancel, hgi xs.length,
        if_neg (by omega), if_neg (by omega)]
    · exact @used_add_lt T l (first_free l) (by omega) hu64
    · intro i hi
      rw [show l.used ||| (1 <<< first_free l) =
          (add_used l (first_free l)).used from rfl, used_add_testBit,
        hbits i hi, map_insertIdx]
      by_cases hmem : i ∈ xs.map Prod.fst
      · simp [hmem, List.mem_insertIdx hmemins]
      · by_cases hie : first_free l = i
        · simp [hmem, hie, List.mem_insertIdx hmemins]
        · simp [hmem, hie, List.mem_insertIdx hmemins,
            show ¬ i = first_free l from fun h => hie h.symm]
    · intro j hj hjmem
      rw [mem_map_fst_insertIdx (by omega)] at hjmem
      push_neg at hjmem
      obtain ⟨hjf, hjxs⟩ := hjmem
      have hja : j ≠ xs[index].1 := fun h => hjxs (h ▸ ham)
      have hjs : j ≠ xs[index + 1].1 := fun h => hjxs (h ▸ hsm)
      rw [List.getD_eq_getElem?_getD,
        List.getElem?_set_ne (fun h => hjf h.symm),
        List.getElem?_set_ne (Ne.symm hja),
        List.getElem?_set_ne (Ne.symm hjs), ← List.getD_eq_getElem?_getD]
      exact hdead j hj hjxs
    · intro q hq
      rw [hilen] at hq
      rcases lt_trichotomy q index with hqlt | hqeq | hqgt
      · have hqx : q < xs.length := by omega
        have hE : (xs.insertIdx (index + 1) (first_free l, v))[q] = xs[q] :=
          List.getElem_insertIdx_of_lt xs _ _ q (by omega) hqx
        rw [hE]
        have hqf : xs[q].1 ≠ first_free l := fun h =>
          hffmem (h ▸ List.mem_map.2 ⟨xs[q], List.getElem_mem _, rfl⟩)
        have hqa : xs[q].1 ≠ xs[index].1 :=
          fst_ne_of_nodup hnd hqx h2 (by omega)
        have hqs : xs[q].1 ≠ xs[index + 1].1 :=
          fst_ne_of_nodup hnd hqx hn1x (by omega)
        rw [List.getD_eq_getElem?_getD,
          List.getElem?_set_ne (Ne.symm hqf),
          List.getElem?_set_ne (Ne.symm hqa),
          List.getElem?_set_ne (Ne.symm hqs),
          ← List.getD_eq_getElem?_getD, hnode q hqx,
          hgi (q - 1), if_pos (show q - 1 < index + 1 by omega),
          hgi (q + 1), if_pos (show q + 1 < index + 1 by omega)]
      · subst hqeq
        have hE : (xs.insertIdx (q + 1) (first_free l, v))[q] = xs[q] :=
          List.getElem_insertIdx_of_lt xs _ _ q (by omega) h2
        rw [hE]
        rw [List.getD_eq_getElem?_getD, List.getElem?_set_ne (Ne.symm haf),
          List.getElem?_set_self
          (by simp only [List.length_set]; exact halen)]
        simp only [Option.getD_some, Option.some.injEq]
        rw [hgi (q - 1), if_pos (show q - 1 < q + 1 by omega),
          hgi (q + 1), if_neg (show ¬ q + 1 < q + 1 by omega),
          if_pos (show q + 1 = q + 1 from rfl)]
        rfl
      · by_cases hq1 : q = index + 1
        · -- the fresh node, at position index + 1
          subst hq1
          have hE : (xs.insertIdx (index + 1)
              (first_free l, v))[index + 1] = (first_free l, v) :=
            List.getElem_insertIdx_self xs _ _ (by omega)
          rw [hE]
          rw [List.getD_eq_getElem?_getD, List.getElem?_set_self
            (by simp only [List.length_set]; exact hflen)]
          simp only [Option.getD_some, Option.some.injEq]
          rw [show index + 1 - 1 = index from rfl,
            hgi index, if_pos (show index < index + 1 by omega),
            List.getElem?_eq_getElem h2,
            hgi (index + 1 + 1),
            if_neg (show ¬ index + 1 + 1 < index + 1 by omega),
            if_neg (show ¬ index + 1 + 1 = index + 1 by omega),
            show index + 1 + 1 - 1 = index + 1 from rfl, hsome]
          rw [if_neg (show ¬ index + 1 = 0 by omega)]
          rfl
        · obtain ⟨k, rfl⟩ : ∃ k, q = index + 1 + k + 1 :=
            ⟨q - index - 2, by omega⟩
          have hE : (xs.insertIdx (index + 1)
              (first_free l, v))[index + 1 + k + 1] = xs[index + 1 + k] :=
            List.getElem_insertIdx_add_succ xs (first_free l, v)
              (index + 1) k (by omega)
          rw [hE]
          have hqx : index + 1 + k < xs.length := by omega
          have hqf : xs[index + 1 + k].1 ≠ first_free l := fun h =>
            hffmem (h ▸ List.mem_map.2 ⟨xs[index + 1 + k],
              List.getElem_mem _, rfl⟩)
          have hqa : xs[index + 1 + k].1 ≠ xs[index].1 :=
            fst_ne_of_nodup hnd hqx h2 (by omega)
          rcases Nat.eq_zero_or_pos k with hk0 | hk0
          · -- the old right neighbour, now at position index + 2
            subst hk0
            simp only [Nat.add_zero] at hqf hqa hqx ⊢
            rw [List.getD_eq_getElem?_getD,
              List.getElem?_set_ne (Ne.symm hqf),
              List.getElem?_set_ne (Ne.symm hqa),
              List.getElem?_set_self hslen]
            simp only [Option.getD_some, Option.some.injEq]
            rw [show index + 1 + 1 - 1 = index + 1 from rfl,
              hgi (index + 1),
              if_neg (show ¬ index + 1 < index + 1 by omega),
              if_pos (show index + 1 = index + 1 from rfl),
              hgi (index + 1 + 1 + 1),
              if_neg (show ¬ index + 1 + 1 + 1 < index + 1 by omega),
              if_neg (show ¬ index + 1 + 1 + 1 = index + 1 by omega),
              show index + 1 + 1 + 1 - 1 = index + 1 + 1 from rfl]
            rw [if_neg (show ¬ index + 1 + 1 = 0 by omega)]
            rfl
          · -- untouched trailing nodes
            have hqs : xs[index + 1 + k].1 ≠ xs[index + 1].1 :=
              fst_ne_of_nodup hnd hqx hn1x (by omega)
            rw [List.getD_eq_getElem?_getD,
              List.getElem?_set_ne (Ne.symm hqf),
              List.getElem?_set_ne (Ne.symm hqa),
              List.getElem?_set_ne (Ne.symm hqs),
              ← List.getD_eq_getElem?_getD, hnode (index + 1 + k) hqx]
            simp only [Option.some.injEq]
            rw [show index + 1 + k + 1 - 1 = index + 1 + k from rfl,
              hgi (index + 1 + k),
              if_neg (show ¬ index + 1 + k < index + 1 by omega),
              if_neg (show ¬ index + 1 + k = index + 1 by omega),
              hgi (index + 1 + k + 1 + 1),
              if_neg (show ¬ index + 1 + k + 1 + 1 < index + 1 by omega),
              if_neg (show ¬ index + 1 + k + 1 + 1 = index + 1 by omega),
              show index + 1 + k + 1 + 1 - 1 = index + 1 + k + 1 from rfl]
            rw [if_neg (show ¬ index + 1 + k = 0 by omega),
              if_neg (show ¬ index + 1 + k + 1 = 0 by omega)]

theorem insert_after_ok {K : Nat} {xs : List (Nat × T)}
    {l : SizedDoubleLinkedList T} (hinv : ListInv K xs l) {index : Nat}
    (h2 : index < xs.length) (hroom : xs.length < K) (v : T) :
    ∃ l', insert_after K l index v = (.ok (), l') ∧
      ListInv K (xs.insertIdx (index + 1) (first_free l, v)) l' := by
  by_cases hlast : index + 1 = xs.length
  · obtain ⟨he, hi⟩ := insert_after_last hinv h2 hlast hroom v
    exact ⟨_, he, hi⟩
  · obtain ⟨he, hi⟩ := insert_after_mid hinv h2 (by omega) hroom v
    exact ⟨_, he, hi⟩

theorem map_eraseIdx' {α β : Type} (f : α → β) (l : List α) (p : Nat) :
    (l.eraseIdx p).map f = (l.map f).eraseIdx p := by
  rw [List.eraseIdx_eq_take_drop_succ, List.eraseIdx_eq_take_drop_succ,
    List.map_append, List.map_take, List.map_drop]

theorem mem_eraseIdx_nodup {α : Type} {l : List α} (hnd : l.Nodup) {p : Nat}
    (hp : p < l.length) (i : α) :
    i ∈ l.eraseIdx p ↔ (i ∈ l ∧ i ≠ l[p]) := by
  have hsplit : l = l.take p ++ l[p] :: l.drop (p + 1) := by
    conv_lhs => rw [← List.take_append_drop p l]
    rw [List.drop_eq_getElem_cons hp]
  have hnd2 : (l.take p ++ l[p] :: l.drop (p + 1)).Nodup := hsplit ▸ hnd
  obtain ⟨hndt, hndc, hdisj⟩ := List.nodup_append.1 hnd2
  rw [List.eraseIdx_eq_take_drop_succ]
  constructor
  · intro h
    rcases List.mem_append.1 h with ht | hd
    · refine ⟨List.mem_of_mem_take ht, ?_⟩
      intro he
      subst he
      exact hdisj ht (List.mem_cons_self _ _)
    · refine ⟨List.mem_of_mem_drop hd, ?_⟩
      intro he
      subst he
      exact (List.nodup_cons.1 hndc).1 hd
  · rintro ⟨hmem, hne⟩
    rw [hsplit] at hmem
    rcases List.mem_append.1 hmem with ht | hd
    · exact List.mem_append.2 (Or.inl ht)
    · rcases List.mem_cons.1 hd with he | hd2
      · exact absurd he hne
      · exact List.mem_append.2 (Or.inr hd2)

theorem mem_map_fst_eraseIdx {xs : List (Nat × T)}
    (hnd : (xs.map Prod.fst).Nodup) {p : Nat} (hp : p < xs.length) (i : Nat) :
    i ∈ (xs.eraseIdx p).map Prod.fst ↔
      (i ∈ xs.map Prod.fst ∧ i ≠ xs[p].1) := by
  rw [map_eraseIdx']
  have := mem_eraseIdx_nodup hnd (show p < (xs.map Prod.fst).length by
    simpa using hp) i
  rw [this]
  simp

theorem remove_sole {K : Nat} {xs : List (Nat × T)}
    {l : SizedDoubleLinkedList T} (hinv : ListInv K xs l)
    (hlen1 : xs.length = 1) :
    remove l 0 =
      (.ok (), { nodes := l.nodes.set (xs[0].1) none, used := 0, len := 0,
                 tail := none, head := none }) ∧
    ListInv K [] { nodes := l.nodes.set (xs[0].1) none, used := 0, len := 0,
                   tail := none, head := none } := by
  have hinv' := hinv
  obtain ⟨hKle, hnlen, hlen, hxK, hnd, hbound, hhead, htail, hu64, hbits,
    hdead, hnode⟩ := hinv'
  have h0 : 0 < xs.length := by omega
  have hn0 := hnode 0 h0
  have hold : l.head.getD 0 = xs[0].1 := by
    rw [hhead, List.getElem?_eq_getElem h0]
    rfl
  constructor
  · rw [remove, if_neg (by omega), if_pos (by omega)]
    simp only [hold, hn0, nwrite, remove_used]
  · refine ⟨hKle, by simp [hnlen], by simp, by simp, by simp, by simp,
      by simp, by simp, by positivity, ?_, ?_, ?_⟩
    · intro i _
      simp
    · intro j hj _
      by_cases hje : j = xs[0].1
      · subst hje
        rw [List.getD_eq_getElem?_getD, List.getElem?_set_self
          (by rw [hnlen]; exact hbound _ (List.getElem_mem _))]
        rfl
      · rw [getD_set_ne _ _ _ (fun h => hje h.symm)]
        refine hdead j hj ?_
        intro hmem
        obtain ⟨pr, hpr, hpr2⟩ := List.mem_map.1 hmem
        have : pr = xs[0] := by
          have := (List.mem_iff_getElem).1 hpr
          obtain ⟨q, hq, hqe⟩ := this
          have : q = 0 := by omega
          subst this
          exact hqe.symm
        subst this
        exact hje hpr2.symm
    · intro p hp
      simp at hp

theorem remove_head {K : Nat} {xs : List (Nat × T)}
    {l : SizedDoubleLinkedList T} (hinv : ListInv K xs l)
    (hlen2 : 2 ≤ xs.length) :
    remove l 0 =
      (.ok (),
        { nodes := (l.nodes.set (xs[1].1)
              (some { value := xs[1].2, index := xs[1].1, prev := none,
                      next := Option.map Prod.fst xs[1 + 1]? })).set
            (xs[0].1) none,
          used := l.used &&& ((2 ^ 64 - 1) ^^^ (1 <<< xs[0].1)),
          len := l.len - 1, tail := l.tail, head := some (xs[1].1) }) ∧
    ListInv K (xs.eraseIdx 0)
      { nodes := (l.nodes.set (xs[1].1)
            (some { value := xs[1].2, index := xs[1].1, prev := none,
                    next := Option.map Prod.fst xs[1 + 1]? })).set
          (xs[0].1) none,
        used := l.used &&& ((2 ^ 64 - 1) ^^^ (1 <<< xs[0].1)),
        len := l.len - 1, tail := l.tail, head := some (xs[1].1) } := by
  have hinv' := hinv
  obtain ⟨hKle, hnlen, hlen, hxK, hnd, hbound, hhead, htail, hu64, hbits,
    hdead, hnode⟩ := hinv'
  have h0 : 0 < xs.length := by omega
  have h1 : 1 < xs.length := by omega
  have hn0 := hnode 0 h0
  have hn1 := hnode 1 h1
  have hold : l.head.getD 0 = xs[0].1 := by
    rw [hhead, List.getElem?_eq_getElem h0]
    rfl
  have hs1 : xs[1]? = some xs[1] := List.getElem?_eq_getElem h1
  have h01 : xs[0].1 ≠ xs[1].1 := fst_ne_of_nodup hnd h0 h1 (by omega)
  have h0len : xs[0].1 < l.nodes.length := by
    rw [hnlen]; exact hbound _ (List.getElem_mem _)
  have h1len : xs[1].1 < l.nodes.length := by
    rw [hnlen]; exact hbound _ (List.getElem_mem _)
  have h0m : xs[0].1 ∈ xs.map Prod.fst :=
    List.mem_map.2 ⟨xs[0], List.getElem_mem _, rfl⟩
  have h1m : xs[1].1 ∈ xs.map Prod.fst :=
    List.mem_map.2 ⟨xs[1], List.getElem_mem _, rfl⟩
  have hge := List.getElem?_eraseIdx xs 0
  have helen : (xs.eraseIdx 0).length = xs.length - 1 :=
    List.length_eraseIdx_of_lt h0
  constructor
  · rw [remove, if_neg (by omega), if_neg (by omega), if_pos rfl]
    simp only [hold, hn0, hs1, Option.map_some', Option.getD_some,
      nmodify, nwrite, remove_used, hn1]
  · refine ⟨hKle, by simp [hnlen], ?_, by rw [helen]; omega, ?_, ?_, ?_, ?_,
      ?_, ?_, ?_, ?_⟩
    · show l.len - 1 = _
      rw [helen, hlen]
    · rw [map_eraseIdx']
      exact List.Nodup.eraseIdx 0 hnd
    · intro pr hpr
      exact hbound pr (List.eraseIdx_sublist xs 0 |>.mem hpr)
    · show some (xs[1].1) = _
      rw [hge 0, if_neg (by omega), hs1]
      rfl
    · show l.tail = _
      rw [htail, helen, hge (xs.length - 1 - 1), if_neg (by omega),
        show xs.length - 1 - 1 + 1 = xs.length - 1 by omega]
    · exact used_remove_lt hu64
    · intro i hi
      rw [show l.used &&& ((2 ^ 64 - 1) ^^^ (1 <<< xs[0].1)) =
          (remove_used l (xs[0].1)).used from rfl, used_remove_testBit _ _ _
          hi, hbits i hi]
      simp only [mem_map_fst_eraseIdx hnd h0]
      by_cases hmem : i ∈ xs.map Prod.fst
      · by_cases hie : xs[0].1 = i
        · simp [hmem, hie]
        · simp [hmem, hie, show ¬ i = xs[0].1 from fun h => hie h.symm]
      · simp [hmem]
    · intro j hj hjmem
      rw [mem_map_fst_eraseIdx hnd h0] at hjmem
      push_neg at hjmem
      by_cases hje : j = xs[0].1
      · subst hje
        rw [List.getD_eq_getElem?_getD, List.getElem?_set_self
          (by simp only [List.length_set]; exact h0len)]
        rfl
      · have hjxs : j ∉ xs.map Prod.fst := fun h => hje (hjmem h)
        have hj1 : j ≠ xs[1].1 := fun h => hjxs (h ▸ h1m)
        rw [getD_set_ne _ _ _ (fun h => hje h.symm),
          getD_set_ne _ _ _ (Ne.symm hj1)]
        exact hdead j hj hjxs
    · intro q hq
      rw [helen] at hq
      have hE : (xs.eraseIdx 0)[q] = xs[q + 1] :=
        List.getElem_eraseIdx_of_ge xs 0 q (by rw [helen]; omega) (by omega)
      rw [hE]
      have hq1 : q + 1 < xs.length := by omega
      rcases Nat.eq_zero_or_pos q with hq0 | hq0
      · subst hq0
        rw [List.getD_eq_getElem?_getD,
          List.getElem?_set_ne h01, List.getElem?_set_self h1len]
        simp only [Option.getD_some, Option.some.injEq]
        rw [hge (0 + 1)]
        simp
      · have hqm : xs[q + 1].1 ∈ xs.map Prod.fst :=
          List.mem_map.2 ⟨xs[q + 1], List.getElem_mem _, rfl⟩
        have hq0ne : xs[q + 1].1 ≠ xs[0].1 :=
          fst_ne_of_nodup hnd hq1 h0 (by omega)
        have hq1ne : xs[q + 1].1 ≠ xs[1].1 :=
          fst_ne_of_nodup hnd hq1 h1 (by omega)
        rw [getD_set_ne _ _ _ (Ne.symm hq0ne),
          getD_set_ne _ _ _ (Ne.symm hq1ne), hnode (q + 1) hq1]
        simp only [Option.some.injEq]
        rw [show q + 1 - 1 = q from rfl, hge (q - 1),
          if_neg (show ¬ q - 1 < 0 by omega),
          show q - 1 + 1 = q by omega, hge (q + 1),
          if_neg (show ¬ q + 1 < 0 by omega)]
        rw [if_neg (show ¬ q + 1 = 0 by omega), if_neg (show ¬ q = 0 by omega)]

theorem remove_tail {K : Nat} {xs : List (Nat × T)}
    {l : SizedDoubleLinkedList T} (hinv : ListInv K xs l)
    (hlen2 : 2 ≤ xs.length) :
    remove l (xs.length - 1) =
      (.ok (),
        { nodes := (l.nodes.set (xs[xs.length - 1 - 1].1)
              (some { value := xs[xs.length - 1 - 1].2,
                      index := xs[xs.length - 1 - 1].1,
                      prev := if xs.length - 1 - 1 = 0 then none
                        else Option.map Prod.fst xs[xs.length - 1 - 1 - 1]?,
                      next := none })).set (xs[xs.length - 1].1) none,
          used := l.used &&& ((2 ^ 64 - 1) ^^^ (1 <<< xs[xs.length - 1].1)),
          len := l.len - 1, tail := some (xs[xs.length - 1 - 1].1),
          head := l.head }) ∧
    ListInv K (xs.eraseIdx (xs.length - 1))
      { nodes := (l.nodes.set (xs[xs.length - 1 - 1].1)
            (some { value := xs[xs.length - 1 - 1].2,
                    index := xs[xs.length - 1 - 1].1,
                    prev := if xs.length - 1 - 1 = 0 then none
                      else Option.map Prod.fst xs[xs.length - 1 - 1 - 1]?,
                    next := none })).set (xs[xs.length - 1].1) none,
        used := l.used &&& ((2 ^ 64 - 1) ^^^ (1 <<< xs[xs.length - 1].1)),
        len := l.len - 1, tail := some (xs[xs.length - 1 - 1].1),
        head := l.head } := by
  have hinv' := hinv
  obtain ⟨hKle, hnlen, hlen, hxK, hnd, hbound, hhead, htail, hu64, hbits,
    hdead, hnode⟩ := hinv'
  have hL1 : xs.length - 1 < xs.length := by omega
  have hL2 : xs.length - 1 - 1 < xs.length := by omega
  have hnT := hnode (xs.length - 1) hL1
  have hnP := hnode (xs.length - 1 - 1) hL2
  have hold : l.tail.getD 0 = xs[xs.length - 1].1 := by
    rw [htail, List.getElem?_eq_getElem hL1]
    rfl
  have hsP : xs[xs.length - 1 - 1]? = some xs[xs.length - 1 - 1] :=
    List.getElem?_eq_getElem hL2
  have hTP : xs[xs.length - 1].1 ≠ xs[xs.length - 1 - 1].1 :=
    fst_ne_of_nodup hnd hL1 hL2 (by omega)
  have hTlen : xs[xs.length - 1].1 < l.nodes.length := by
    rw [hnlen]; exact hbound _ (List.getElem_mem _)
  have hPlen : xs[xs.length - 1 - 1].1 < l.nodes.length := by
    rw [hnlen]; exact hbound _ (List.getElem_mem _)
  have hPm : xs[xs.length - 1 - 1].1 ∈ xs.map Prod.fst :=
    List.mem_map.2 ⟨xs[xs.length - 1 - 1], List.getElem_mem _, rfl⟩
  have hge := List.getElem?_eraseIdx xs (xs.length - 1)
  have helen : (xs.eraseIdx (xs.length - 1)).length = xs.length - 1 :=
    List.length_eraseIdx_of_lt hL1
  constructor
  · rw [remove, if_neg (by omega), if_neg (by omega), if_neg (by omega),
      if_pos (by omega)]
    simp only [hold, hnT, if_neg (show ¬ xs.length - 1 = 0 by omega), hsP,
      Option.map_some', Option.getD_some, nmodify, nwrite, remove_used, hnP]
  · refine ⟨hKle, by simp [hnlen], ?_, by rw [helen]; omega, ?_, ?_, ?_, ?_,
      ?_, ?_, ?_, ?_⟩
    · show l.len - 1 = _
      rw [helen, hlen]
    · rw [map_eraseIdx']
      exact List.Nodup.eraseIdx _ hnd
    · intro pr hpr
      exact hbound pr (List.eraseIdx_sublist xs _ |>.mem hpr)
    · show l.head = _
      rw [hhead, hge 0, if_pos (by omega)]
    · show some (xs[xs.length - 1 - 1].1) = _
      rw [helen, hge (xs.length - 1 - 1), if_pos (by omega), hsP]
      rfl
    · exact used_remove_lt hu64
    · intro i hi
      rw [show l.used &&& ((2 ^ 64 - 1) ^^^ (1 <<< xs[xs.length - 1].1)) =
          (remove_used l (xs[xs.length - 1].1)).used from rfl,
        used_remove_testBit _ _ _ hi, hbits i hi]
      simp only [mem_map_fst_eraseIdx hnd hL1]
      by_cases hmem : i ∈ xs.map Prod.fst
      · by_cases hie : xs[xs.length - 1].1 = i
        · simp [hmem, hie]
        · simp [hmem, hie,
            show ¬ i = xs[xs.length - 1].1 from fun h => hie h.symm]
      · simp [hmem]
    · intro j hj hjmem
      rw [mem_map_fst_eraseIdx hnd hL1] at hjmem
      push_neg at hjmem
      by_cases hje : j = xs[xs.length - 1].1
      · subst hje
        rw [List.getD_eq_getElem?_getD, List.getElem?_set_self
          (by simp only [List.length_set]; exact hTlen)]
        rfl
      · have hjxs : j ∉ xs.map Prod.fst := fun h => hje (hjmem h)
        have hjP : j ≠ xs[xs.length - 1 - 1].1 := fun h => hjxs (h ▸ hPm)
        rw [getD_set_ne _ _ _ (fun h => hje h.symm),
          getD_set_ne _ _ _ (Ne.symm hjP)]
        exact hdead j hj hjxs
    · intro q hq
      rw [helen] at hq
      have hE : (xs.eraseIdx (xs.length - 1))[q] = xs[q] :=
        List.getElem_eraseIdx_of_lt xs (xs.length - 1) q
          (by rw [helen]; omega) hq
      rw [hE]
      by_cases hqP : q = xs.length - 1 - 1
      · simp only [hqP]
        rw [getD_set_ne _ _ _ hTP, List.getD_eq_getElem?_getD,
          List.getElem?_set_self hPlen]
        simp only [Option.getD_some, Option.some.injEq]
        rw [show xs.length - 1 - 1 + 1 = xs.length - 1 by omega,
          List.getElem?_eq_none (show (xs.eraseIdx (xs.length - 1)).length ≤
            xs.length - 1 by rw [helen]),
          hge (xs.length - 1 - 1 - 1),
          if_pos (show xs.length - 1 - 1 - 1 < xs.length - 1 by omega)]
        rfl
      · have hqT : xs[q].1 ≠ xs[xs.length - 1].1 :=
          fst_ne_of_nodup hnd (by omega) hL1 (by omega)
        have hqP2 : xs[q].1 ≠ xs[xs.length - 1 - 1].1 :=
          fst_ne_of_nodup hnd (by omega) hL2 (by omega)
        rw [getD_set_ne _ _ _ (Ne.symm hqT),
          getD_set_ne _ _ _ (Ne.symm hqP2), hnode q (by omega)]
        simp only [Option.some.injEq]
        rw [hge (q - 1), if_pos (show q - 1 < xs.length - 1 by omega),
          hge (q + 1), if_pos (show q + 1 < xs.length - 1 by omega)]

theorem remove_middle {K : Nat} {xs : List (Nat × T)}
    {l : SizedDoubleLinkedList T} (hinv : ListInv K xs l) {index : Nat}
    (h1 : 1 ≤ index) (h2 : index + 1 < xs.length) :
    remove l index =
      (.ok (),
        { nodes := ((l.nodes.set (xs[index - 1].1)
              (some { value := xs[index - 1].2, index := xs[index - 1].1,
                      prev := if index - 1 = 0 then none
                        else Option.map Prod.fst xs[index - 1 - 1]?,
                      next := some (xs[index + 1].1) })).set
              (xs[index + 1].1)
              (some { value := xs[index + 1].2, index := xs[index + 1].1,
                      prev := some (xs[index - 1].1),
                      next := Option.map Prod.fst xs[index + 1 + 1]? })).set
            (xs[index].1) none,
          used := l.used &&& ((2 ^ 64 - 1) ^^^ (1 <<< xs[index].1)),
          len := l.len - 1, tail := l.tail, head := l.head }) ∧
    ListInv K (xs.eraseIdx index)
      { nodes := ((l.nodes.set (xs[index - 1].1)
            (some { value := xs[index - 1].2, index := xs[index - 1].1,
                    prev := if index - 1 = 0 then none
                      else Option.map Prod.fst xs[index - 1 - 1]?,
                    next := some (xs[index + 1].1) })).set
            (xs[index + 1].1)
            (some { value := xs[index + 1].2, index := xs[index + 1].1,
                    prev := some (xs[index - 1].1),
                    next := Option.map Prod.fst xs[index + 1 + 1]? })).set
          (xs[index].1) none,
        used := l.used &&& ((2 ^ 64 - 1) ^^^ (1 <<< xs[index].1)),
        len := l.len - 1, tail := l.tail, head := l.head } := by
  have hinv' := hinv
  obtain ⟨hKle, hnlen, hlen, hxK, hnd, hbound, hhead, htail, hu64, hbits,
    hdead, hnode⟩ := hinv'
  have hIdx : index < xs.length := by omega
  have hPx : index - 1 < xs.length := by omega
  have hNx : index + 1 < xs.length := h2
  have hnI := hnode index hIdx
  have hnP := hnode (index - 1) hPx
  have hnN := hnode (index + 1) hNx
  have hloc : locate l index = xs[index].1 := by
    rw [locate_spec hinv hIdx, idxAt_eq hIdx]
  have hsP : xs[index - 1]? = some xs[index - 1] :=
    List.getElem?_eq_getElem hPx
  have hsN : xs[index + 1]? = some xs[index + 1] :=
    List.getElem?_eq_getElem hNx
  have hPN : xs[index - 1].1 ≠ xs[index + 1].1 :=
    fst_ne_of_nodup hnd hPx hNx (by omega)
  have hPC : xs[index - 1].1 ≠ xs[index].1 :=
    fst_ne_of_nodup hnd hPx hIdx (by omega)
  have hNC : xs[index + 1].1 ≠ xs[index].1 :=
    fst_ne_of_nodup hnd hNx hIdx (by omega)
  have hClen : xs[index].1 < l.nodes.length := by
    rw [hnlen]; exact hbound _ (List.getElem_mem _)
  have hPlen : xs[index - 1].1 < l.nodes.length := by
    rw [hnlen]; exact hbound _ (List.getElem_mem _)
  have hNlen : xs[index + 1].1 < l.nodes.length := by
    rw [hnlen]; exact hbound _ (List.getElem_mem _)
  have hPm : xs[index - 1].1 ∈ xs.map Prod.fst :=
    List.mem_map.2 ⟨xs[index - 1], List.getElem_mem _, rfl⟩
  have hNm : xs[index + 1].1 ∈ xs.map Prod.fst :=
    List.mem_map.2 ⟨xs[index + 1], List.getElem_mem _, rfl⟩
  have hge := List.getElem?_eraseIdx xs index
  have helen : (xs.eraseIdx index).length = xs.length - 1 :=
    List.length_eraseIdx_of_lt hIdx
  constructor
  · rw [remove, if_neg (by omega), if_neg (by omega), if_neg (by omega),
      if_neg (by omega)]
    simp only [hloc, hnI, if_neg (show ¬ index = 0 by omega), hsP, hsN,
      Option.map_some', nmodify, nwrite, remove_used, hnP]
    rw [getD_set_ne _ _ _ hPN, hnN]
    simp
  · refine ⟨hKle, by simp [hnlen], ?_, by rw [helen]; omega, ?_, ?_, ?_, ?_,
      ?_, ?_, ?_, ?_⟩
    · show l.len - 1 = _
      rw [helen, hlen]
    · rw [map_eraseIdx']
      exact List.Nodup.eraseIdx _ hnd
    · intro pr hpr
      exact hbound pr (List.eraseIdx_sublist xs _ |>.mem hpr)
    · show l.head = _
      rw [hhead, hge 0, if_pos (show 0 < index by omega)]
    · show l.tail = _
      rw [htail, helen, hge (xs.length - 1 - 1),
        if_neg (show ¬ xs.length - 1 - 1 < index by omega),
        show xs.length - 1 - 1 + 1 = xs.length - 1 by omega]
    · exact used_remove_lt hu64
    · intro i hi
      rw [show l.used &&& ((2 ^ 64 - 1) ^^^ (1 <<< xs[index].1)) =
          (remove_used l (xs[index].1)).used from rfl,
        used_remove_testBit _ _ _ hi, hbits i hi]
      simp only [mem_map_fst_eraseIdx hnd hIdx]
      by_cases hmem : i ∈ xs.map Prod.fst
      · by_cases hie : xs[index].1 = i
        · simp [hmem, hie]
        · simp [hmem, hie, show ¬ i = xs[index].1 from fun h => hie h.symm]
      · simp [hmem]
    · intro j hj hjmem
      rw [mem_map_fst_eraseIdx hnd hIdx] at hjmem
      push_neg at hjmem
      by_cases hje : j = xs[index].1
      · subst hje
        rw [List.getD_eq_getElem?_getD, List.getElem?_set_self
          (by simp only [List.length_set]; exact hClen)]
        rfl
      · have hjxs : j ∉ xs.map Prod.fst := fun h => hje (hjmem h)
        have hjN : j ≠ xs[index + 1].1 := fun h => hjxs (h ▸ hNm)
        have hjP : j ≠ xs[index - 1].1 := fun h => hjxs (h ▸ hPm)
        rw [getD_set_ne _ _ _ (fun h => hje h.symm),
          getD_set_ne _ _ _ (Ne.symm hjN), getD_set_ne _ _ _ (Ne.symm hjP)]
        exact hdead j hj hjxs
    · intro q hq
      rw [helen] at hq
      rcases lt_trichotomy q index with hqlt | hqeq | hqgt
      · have hE : (xs.eraseIdx index)[q] = xs[q] :=
          List.getElem_eraseIdx_of_lt xs index q (by rw [helen]; omega) hqlt
        rw [hE]
        by_cases hqP : q = index - 1
        · simp only [hqP]
          rw [getD_set_ne _ _ _ (Ne.symm hPC), getD_set_ne _ _ _ (Ne.symm hPN),
            List.getD_eq_getElem?_getD, List.getElem?_set_self hPlen]
          simp only [Option.getD_some, Option.some.injEq]
          rw [show index - 1 + 1 = index by omega, hge index,
            if_neg (show ¬ index < index by omega), hsN,
            hge (index - 1 - 1),
            if_pos (show index - 1 - 1 < index by omega)]
          simp
        · have hqx : q < xs.length := by omega
          have hqC : xs[q].1 ≠ xs[index].1 :=
            fst_ne_of_nodup hnd hqx hIdx (by omega)
          have hqN : xs[q].1 ≠ xs[index + 1].1 :=
            fst_ne_of_nodup hnd hqx hNx (by omega)
          have hqPn : xs[q].1 ≠ xs[index - 1].1 :=
            fst_ne_of_nodup hnd hqx hPx (by omega)
          rw [getD_set_ne _ _ _ (Ne.symm hqC),
            getD_set_ne _ _ _ (Ne.symm hqN),
            getD_set_ne _ _ _ (Ne.symm hqPn), hnode q hqx]
          simp only [Option.some.injEq]
          rw [hge (q - 1), if_pos (show q - 1 < index by omega),
            hge (q + 1), if_pos (show q + 1 < index by omega)]
      · subst hqeq
        have hE : (xs.eraseIdx q)[q] = xs[q + 1] :=
          List.getElem_eraseIdx_of_ge xs q q (by rw [helen]; omega)
            (le_refl q)
        rw [hE]
        rw [getD_set_ne _ _ _ (Ne.symm hNC), List.getD_eq_getElem?_getD,
          List.getElem?_set_self
          (by simp only [List.length_set]; exact hNlen)]
        simp only [Option.getD_some, Option.some.injEq]
        rw [hge (q - 1), if_pos (show q - 1 < q by omega), hsP,
          hge (q + 1), if_neg (show ¬ q + 1 < q by omega),
          if_neg (show ¬ q = 0 by omega)]
        simp
      · have hq1 : q + 1 < xs.length := by omega
        have hE : (xs.eraseIdx index)[q] = xs[q + 1] :=
          List.getElem_eraseIdx_of_ge xs index q (by rw [helen]; omega)
            (by omega)
        rw [hE]
        have hqC : xs[q + 1].1 ≠ xs[index].1 :=
          fst_ne_of_nodup hnd hq1 hIdx (by omega)
        have hqN : xs[q + 1].1 ≠ xs[index + 1].1 :=
          fst_ne_of_nodup hnd hq1 hNx (by omega)
        have hqPn : xs[q + 1].1 ≠ xs[index - 1].1 :=
          fst_ne_of_nodup hnd hq1 hPx (by omega)
        rw [getD_set_ne _ _ _ (Ne.symm hqC),
          getD_set_ne _ _ _ (Ne.symm hqN),
          getD_set_ne _ _ _ (Ne.symm hqPn), hnode (q + 1) hq1]
        simp only [Option.some.injEq]
        rw [show q + 1 - 1 = q from rfl, hge (q - 1),
          if_neg (show ¬ q - 1 < index by omega),
          show q - 1 + 1 = q by omega, hge (q + 1),
          if_neg (show ¬ q + 1 < index by omega)]
        rw [if_neg (show ¬ q + 1 = 0 by omega),
          if_neg (show ¬ q = 0 by omega)]

theorem remove_err {K : Nat} {xs : List (Nat × T)}
    {l : SizedDoubleLinkedList T} (hinv : ListInv K xs l) {index : Nat}
    (hp : xs.length ≤ index) :
    remove l index = (.error .IndexOutOfRange, l) := by
  obtain ⟨hK, hnlen, hlen, hxK, hnd, hbound, hhead, htail, hu64, hbits,
    hdead, hnode⟩ := hinv
  rw [remove, if_pos (by omega)]

theorem remove_ok {K : Nat} {xs : List (Nat × T)}
    {l : SizedDoubleLinkedList T} (hinv : ListInv K xs l) {index : Nat}
    (hp : index < xs.length) :
    ∃ l', remove l index = (.ok (), l') ∧
      ListInv K (xs.eraseIdx index) l' := by
  by_cases hs : xs.length = 1
  · obtain rfl : index = 0 := by omega
    obtain ⟨he, hi⟩ := remove_sole hinv hs
    have hER : xs.eraseIdx 0 = [] := by
      have : (xs.eraseIdx 0).length = 0 := by
        rw [List.length_eraseIdx_of_lt (by omega)]; omega
      exact List.eq_nil_of_length_eq_zero this
    rw [hER]
    exact ⟨_, he, hi⟩
  · by_cases hz : index = 0
    · subst hz
      obtain ⟨he, hi⟩ := remove_head hinv (by omega)
      exact ⟨_, he, hi⟩
    · by_cases ht : index = xs.length - 1
      · subst ht
        obtain ⟨he, hi⟩ := remove_tail hinv (by omega)
        exact ⟨_, he, hi⟩
      · obtain ⟨he, hi⟩ := @remove_middle T K xs l hinv index (by omega)
          (by omega)
        exact ⟨_, he, hi⟩

theorem insert_after_err_oor {K : Nat} {xs : List (Nat × T)}
    {l : SizedDoubleLinkedList T} (hinv : ListInv K xs l) {index : Nat}
    (hp : xs.length ≤ index) (v : T) :
    insert_after K l index v = (.error .IndexOutOfRange, l) := by
  obtain ⟨hK, hnlen, hlen, hrest⟩ := hinv
  rw [insert_after, if_pos (by omega)]

theorem insert_after_err_full {K : Nat} {xs : List (Nat × T)}
    {l : SizedDoubleLinkedList T} (hinv : ListInv K xs l) {index : Nat}
    (hidx : index < xs.length) (hfull : xs.length = K) (v : T) :
    insert_after K l index v = (.error .ListIsFull, l) := by
  obtain ⟨hK, hnlen, hlen, hrest⟩ := hinv
  rw [insert_after, if_neg (by omega),
    if_pos (show is_full K l = true by simp [is_full, hlen, hfull])]

theorem insert_before_err_oor {K : Nat} {xs : List (Nat × T)}
    {l : SizedDoubleLinkedList T} (hinv : ListInv K xs l) {index : Nat}
    (hp : xs.length < index) (v : T) :
    insert_before K l index v = some (.error .IndexOutOfRange, l) := by
  obtain ⟨hK, hnlen, hlen, hrest⟩ := hinv
  rw [insert_before, if_pos (by omega)]

theorem insert_before_err_full {K : Nat} {xs : List (Nat × T)}
    {l : SizedDoubleLinkedList T} (hinv : ListInv K xs l) {index : Nat}
    (hidx : index ≤ xs.length) (hfull : xs.length = K) (v : T) :
    insert_before K l index v = some (.error .ListIsFull, l) := by
  obtain ⟨hK, hnlen, hlen, hrest⟩ := hinv
  rw [insert_before, if_neg (by omega),
    if_pos (show is_full K l = true by simp [is_full, hlen, hfull])]

theorem insert_before_panic {K : Nat} {xs : List (Nat × T)}
    {l : SizedDoubleLinkedList T} (hinv : ListInv K xs l) {index : Nat}
    (h1 : 1 ≤ index) (hET : index = xs.length) (hnf : xs.length < K)
    (v : T) :
    insert_before K l index v = none := by
  obtain ⟨hK, hnlen, hlen, hrest⟩ := hinv
  rw [insert_before, if_neg (by omega),
    if_neg (show ¬ is_full K l = true by simp [is_full, hlen]; omega),
    if_neg (by omega), if_pos (by omega)]

theorem insert_before_ok {K : Nat} {xs : List (Nat × T)}
    {l : SizedDoubleLinkedList T} (hinv : ListInv K xs l) {index : Nat}
    (hroom : xs.length < K) (hidx : index = 0 ∨ index < xs.length) (v : T) :
    ∃ l', insert_before K l index v = some (.ok (), l') ∧
      ListInv K (xs.insertIdx index (first_free l, v)) l' := by
  by_cases hz : index = 0
  · subst hz
    by_cases hxs : xs = []
    · subst hxs
      obtain ⟨he, hi⟩ := insert_before_empty hinv (by omega) v
      exact ⟨_, he, hi⟩
    · obtain ⟨he, hi⟩ := insert_before_head hinv
        (List.length_pos_of_ne_nil hxs) hroom v
      refine ⟨_, he, ?_⟩
      simpa using hi
  · obtain ⟨he, hi⟩ := @insert_before_mid T K xs l hinv index (by omega)
      (hidx.resolve_left hz) hroom v
    exact ⟨_, he, hi⟩

theorem get_err {K : Nat} {xs : List (Nat × T)}
    {l : SizedDoubleLinkedList T} (hinv : ListInv K xs l) {p : Nat}
    (hp : xs.length ≤ p) : get l p = .error .IndexOutOfRange := by
  obtain ⟨hK, hnlen, hlen, hxK, hnd, hbound, hhead, htail, hu64, hbits,
    hdead, hnode⟩ := hinv
  rw [get, if_pos (by omega)]

/-- C6: on a well-formed non-empty arena list, `remove i` at any valid
position succeeds, shrinks `len` by one, keeps every position below `i`
reading its old value and shifts every later value one position left
(so exactly the element at position `i` is deleted and the relative order
of the survivors is preserved, for head, tail and middle positions alike);
removing the sole element of a one-element list leaves the list empty
(`len = 0`, `head = tail = none`). -/
theorem claim_C6 {K : Nat} {xs : List (Nat × T)}
    {l : SizedDoubleLinkedList T} (hinv : ListInv K xs l) {i : Nat}
    (hi : i < xs.length) :
    ∃ l', remove l i = (.ok (), l') ∧ l'.len = l.len - 1 ∧
      (∀ q, q < i → get l' q = get l q) ∧
      (∀ q, i ≤ q → q + 1 < xs.length → get l' q = get l (q + 1)) ∧
      (xs.length = 1 → l'.len = 0 ∧ l'.head = none ∧ l'.tail = none) := by
  obtain ⟨l', he, hinv'⟩ := remove_ok hinv hi
  have hlen : l.len = xs.length := hinv.2.2.1
  have helen : (xs.eraseIdx i).length = xs.length - 1 :=
    List.length_eraseIdx_of_lt hi
  refine ⟨l', he, ?_, ?_, ?_, ?_⟩
  · have h := hinv'.2.2.1
    rw [h, helen, hlen]
  · intro q hq
    have hq' : q < (xs.eraseIdx i).length := by rw [helen]; omega
    rw [get_spec hinv' hq', List.getElem_eraseIdx_of_lt xs i q hq' hq,
      get_spec hinv (by omega)]
  · intro q hq1 hq2
    have hq' : q < (xs.eraseIdx i).length := by rw [helen]; omega
    rw [get_spec hinv' hq', List.getElem_eraseIdx_of_ge xs i q hq' hq1,
      get_spec hinv hq2]
  · intro hone
    have hnil : xs.eraseIdx i = [] := by
      apply List.eq_nil_of_length_eq_zero
      rw [helen]; omega
    obtain ⟨a1, a2, a3, a4, a5, a6, a7, a8, a9⟩ := hinv'
    rw [hnil] at a3 a7 a8
    simp at a3 a7 a8
    exact ⟨a3, a7, a8⟩

/-- Closed witness for C6: a concrete one-element well-formed list with the
sole element removed. -/
theorem claim_C6_witness :
    ListInv 2 [(0, 5)]
      ({ nodes := [some { value := 5, index := 0, prev := none,
                          next := none }, none],
         used := 1, len := 1, tail := some 0,
         head := some 0 } : SizedDoubleLinkedList Nat) ∧
    (0 : Nat) < [(0, 5)].length ∧
    (∃ l', remove
        ({ nodes := [some { value := 5, index := 0, prev := none,
                            next := none }, none],
           used := 1, len := 1, tail := some 0,
           head := some 0 } : SizedDoubleLinkedList Nat) 0 = (.ok (), l') ∧
      l'.len = 1 - 1 ∧
      (∀ q, q < 0 → get l' q =
        get ({ nodes := [some { value := 5, index := 0, prev := none,
                                next := none }, none],
               used := 1, len := 1, tail := some 0,
               head := some 0 } : SizedDoubleLinkedList Nat) q) ∧
      (∀ q, 0 ≤ q → q + 1 < [(0, 5)].length → get l' q =
        get ({ nodes := [some { value := 5, index := 0, prev := none,
                                next := none }, none],
               used := 1, len := 1, tail := some 0,
               head := some 0 } : SizedDoubleLinkedList Nat) (q + 1)) ∧
      ([(0, 5)].length = 1 → l'.len = 0 ∧ l'.head = none ∧
        l'.tail = none)) :=
  ⟨by unfold ListInv; decide, by decide,
    @claim_C6 Nat 2 [(0, 5)]
      { nodes := [some { value := 5, index := 0, prev := none,
                         next := none }, none],
        used := 1, len := 1, tail := some 0, head := some 0 }
      (by unfold ListInv; decide) 0 (by decide)⟩

/-- A single client call of the sized arena list's mutating insert/remove
API, used to model "any sequence of insert and remove calls". -/
inductive Op (T : Type) where
  | insHead (v : T)
  | insTail (v : T)
  | insAfter (i : Nat) (v : T)
  | insBefore (i : Nat) (v : T)
  | rem (i : Nat)

/-- `1` for a call that returned `Ok(())`, `0` for an error. -/
def okCount (r : Except LinkedListError Unit) : Nat :=
  match r with
  | .ok _ => 1
  | .error _ => 0

/-- One client call against state `(list, #successful inserts, #successful
removes)`; `none` models the `insert_before` panic. -/
def runOp (K : Nat) (op : Op T) (s : SizedDoubleLinkedList T × Nat × Nat) :
    Option (SizedDoubleLinkedList T × Nat × Nat) :=
  match op with
  | .insHead v => (insert_head K s.1 v).map
      fun r => (r.2, s.2.1 + okCount r.1, s.2.2)
  | .insTail v => (insert_tail K s.1 v).map
      fun r => (r.2, s.2.1 + okCount r.1, s.2.2)
  | .insAfter i v =>
      some ((insert_after K s.1 i v).2,
        s.2.1 + okCount (insert_after K s.1 i v).1, s.2.2)
  | .insBefore i v => (insert_before K s.1 i v).map
      fun r => (r.2, s.2.1 + okCount r.1, s.2.2)
  | .rem i =>
      some ((remove s.1 i).2, s.2.1, s.2.2 + okCount (remove s.1 i).1)

/-- A sequence of client calls, stopping (with `none`) at a panic. -/
def runOps (K : Nat) : List (Op T) → SizedDoubleLinkedList T × Nat × Nat →
    Option (SizedDoubleLinkedList T × Nat × Nat)
  | [], s => some s
  | op :: ops, s => (runOp K op s).bind (runOps K ops)

theorem listInv_empty {K : Nat} (hK : K ≤ 63) :
    ListInv K ([] : List (Nat × T)) (empty K) := by
  refine ⟨hK, by simp [empty], by simp [empty], by simp, by simp, by simp,
    by simp [empty], by simp [empty], by norm_num [empty], ?_, ?_, ?_⟩
  · intro i _
    simp [empty]
  · intro j hj _
    show (List.replicate K (none : Option (Node T))).getD j none = none
    rw [List.getD_eq_getElem?_getD, List.getElem?_replicate]
    split <;> rfl
  · intro p hp
    simp at hp

theorem runOp_inv {K : Nat} {xs : List (Nat × T)}
    {l : SizedDoubleLinkedList T} (hinv : ListInv K xs l) (op : Op T)
    {l' : SizedDoubleLinkedList T} {ins rem ins' rem' : Nat}
    (h : runOp K op (l, ins, rem) = some (l', ins', rem')) :
    ∃ xs', ListInv K xs' l' ∧
      l'.len + rem' + ins = l.len + rem + ins' := by
  have hlen : l.len = xs.length := hinv.2.2.1
  have hxK : xs.length ≤ K := hinv.2.2.2.1
  cases op with
  | insHead v =>
    simp only [runOp, insert_head] at h
    by_cases hfull : xs.length = K
    · rw [insert_before_err_full hinv (by omega) hfull v] at h
      simp only [Option.map_some', Option.some.injEq, Prod.mk.injEq,
        okCount] at h
      obtain ⟨rfl, rfl, rfl⟩ := h
      exact ⟨xs, hinv, by omega⟩
    · obtain ⟨l2, he, hi⟩ := insert_before_ok hinv (by omega) (Or.inl rfl) v
      rw [he] at h
      simp only [Option.map_some', Option.some.injEq, Prod.mk.injEq,
        okCount] at h
      obtain ⟨rfl, rfl, rfl⟩ := h
      refine ⟨_, hi, ?_⟩
      have hl2 := hi.2.2.1
      rw [hl2, List.length_insertIdx _ xs (by omega)]
      omega
  | insTail v =>
    simp only [runOp, insert_tail] at h
    by_cases h0 : l.len = 0
    · rw [if_pos h0] at h
      by_cases hfull : xs.length = K
      · rw [insert_before_err_full hinv (by omega) hfull v] at h
        simp only [Option.map_some', Option.some.injEq, Prod.mk.injEq,
          okCount] at h
        obtain ⟨rfl, rfl, rfl⟩ := h
        exact ⟨xs, hinv, by omega⟩
      · obtain ⟨l2, he, hi⟩ :=
          insert_before_ok hinv (by omega) (Or.inl rfl) v
        rw [he] at h
        simp only [Option.map_some', Option.some.injEq, Prod.mk.injEq,
          okCount] at h
        obtain ⟨rfl, rfl, rfl⟩ := h
        refine ⟨_, hi, ?_⟩
        have hl2 := hi.2.2.1
        rw [hl2, List.length_insertIdx _ xs (by omega)]
        omega
    · rw [if_neg h0] at h
      by_cases hfull : xs.length = K
      · rw [insert_after_err_full hinv
          (show l.len - 1 < xs.length by omega) hfull v] at h
        simp only [Option.map_some', Option.some.injEq, Prod.mk.injEq,
          okCount] at h
        obtain ⟨rfl, rfl, rfl⟩ := h
        exact ⟨xs, hinv, by omega⟩
      · obtain ⟨l2, he, hi⟩ := @insert_after_ok T K xs l hinv (l.len - 1)
          (by omega) (by omega) v
        rw [he] at h
        simp only [Option.map_some', Option.some.injEq, Prod.mk.injEq,
          okCount] at h
        obtain ⟨rfl, rfl, rfl⟩ := h
        refine ⟨_, hi, ?_⟩
        have hl2 := hi.2.2.1
        rw [hl2, List.length_insertIdx _ xs (by omega)]
        omega
  | insAfter i v =>
    simp only [runOp] at h
    by_cases hoor : xs.length ≤ i
    · rw [insert_after_err_oor hinv hoor v] at h
      simp only [Option.some.injEq, Prod.mk.injEq, okCount] at h
      obtain ⟨rfl, rfl, rfl⟩ := h
      exact ⟨xs, hinv, by omega⟩
    · by_cases hfull : xs.length = K
      · rw [insert_after_err_full hinv (by omega) hfull v] at h
        simp only [Option.some.injEq, Prod.mk.injEq, okCount] at h
        obtain ⟨rfl, rfl, rfl⟩ := h
        exact ⟨xs, hinv, by omega⟩
      · obtain ⟨l2, he, hi⟩ := @insert_after_ok T K xs l hinv i
          (by omega) (by omega) v
        rw [he] at h
        simp only [Option.some.injEq, Prod.mk.injEq, okCount] at h
        obtain ⟨rfl, rfl, rfl⟩ := h
        refine ⟨_, hi, ?_⟩
        have hl2 := hi.2.2.1
        rw [hl2, List.length_insertIdx _ xs (by omega)]
        omega
  | insBefore i v =>
    simp only [runOp] at h
    by_cases hoor : xs.length < i
    · rw [insert_before_err_oor hinv hoor v] at h
      simp only [Option.map_some', Option.some.injEq, Prod.mk.injEq,
        okCount] at h
      obtain ⟨rfl, rfl, rfl⟩ := h
      exact ⟨xs, hinv, by omega⟩
    · by_cases hfull : xs.length = K
      · rw [insert_before_err_full hinv (by omega) hfull v] at h
        simp only [Option.map_some', Option.some.injEq, Prod.mk.injEq,
          okCount] at h
        obtain ⟨rfl, rfl, rfl⟩ := h
        exact ⟨xs, hinv, by omega⟩
      · by_cases hlt : i < xs.length
        · obtain ⟨l2, he, hi⟩ := @insert_before_ok T K xs l hinv i
            (by omega) (Or.inr hlt) v
          rw [he] at h
          simp only [Option.map_some', Option.some.injEq, Prod.mk.injEq,
            okCount] at h
          obtain ⟨rfl, rfl, rfl⟩ := h
          refine ⟨_, hi, ?_⟩
          have hl2 := hi.2.2.1
          rw [hl2, List.length_insertIdx _ xs (by omega)]
          omega
        · by_cases hz : i = 0
          · subst hz
            obtain ⟨l2, he, hi⟩ :=
              insert_before_ok hinv (by omega) (Or.inl rfl) v
            rw [he] at h
            simp only [Option.map_some', Option.some.injEq, Prod.mk.injEq,
              okCount] at h
            obtain ⟨rfl, rfl, rfl⟩ := h
            refine ⟨_, hi, ?_⟩
            have hl2 := hi.2.2.1
            rw [hl2, List.length_insertIdx _ xs (by omega)]
            omega
          · rw [insert_before_panic hinv (by omega) (by omega)
              (by omega) v] at h
            simp at h
  | rem i =>
    simp only [runOp] at h
    by_cases hi : i < xs.length
    · obtain ⟨l2, he, hi2⟩ := @remove_ok T K xs l hinv i hi
      rw [he] at h
      simp only [Option.some.injEq, Prod.mk.injEq, okCount] at h
      obtain ⟨rfl, rfl, rfl⟩ := h
      refine ⟨_, hi2, ?_⟩
      have hl2 := hi2.2.2.1
      rw [hl2, List.length_eraseIdx_of_lt hi]
      omega
    · rw [remove_err hinv (by omega)] at h
      simp only [Option.some.injEq, Prod.mk.injEq, okCount] at h
      obtain ⟨rfl, rfl, rfl⟩ := h
      exact ⟨xs, hinv, by omega⟩

theorem runOps_inv {K : Nat} (ops : List (Op T)) :
    ∀ {xs : List (Nat × T)} {l l' : SizedDoubleLinkedList T}
      {ins rem ins' rem' : Nat},
      ListInv K xs l →
      runOps K ops (l, ins, rem) = some (l', ins', rem') →
      ∃ xs', ListInv K xs' l' ∧
        l'.len + rem' + ins = l.len + rem + ins' := by
  induction ops with
  | nil =>
    intro xs l l' ins rem ins' rem' hinv h
    simp only [runOps, Option.some.injEq, Prod.mk.injEq] at h
    obtain ⟨rfl, rfl, rfl⟩ := h
    exact ⟨xs, hinv, by omega⟩
  | cons op ops ih =>
    intro xs l l' ins rem ins' rem' hinv h
    simp only [runOps] at h
    cases hstep : runOp K op (l, ins, rem) with
    | none =>
      rw [hstep] at h
      simp at h
    | some s1 =>
      obtain ⟨l1, ins1, rem1⟩ := s1
      rw [hstep, Option.some_bind] at h
      obtain ⟨xs1, hinv1, heq1⟩ := runOp_inv hinv op hstep
      obtain ⟨xs', hinv', heq'⟩ := ih hinv1 h
      exact ⟨xs', hinv', by omega⟩

theorem find_from_spec {K : Nat} {xs : List (Nat × T)}
    {l : SizedDoubleLinkedList T} (hinv : ListInv K xs l) (f : T → Bool) :
    ∀ (k p : Nat), p + k = xs.length →
      find_from l f (Option.map Prod.fst xs[p]?) k =
        ((xs.drop p).find? (fun pr => f pr.2)).bind
          (fun pr => l.nodes.getD pr.1 none) := by
  obtain ⟨hK, hnlen, hlen, hxK, hnd, hbound, hhead, htail, hu64, hbits,
    hdead, hnode⟩ := hinv
  intro k
  induction k with
  | zero =>
    intro p hp
    have hp' : xs[p]? = none := List.getElem?_eq_none (by omega)
    rw [hp', List.drop_eq_nil_of_le (by omega)]
    simp [find_from]
  | succ k ih =>
    intro p hp
    have hplt : p < xs.length := by omega
    rw [List.getElem?_eq_getElem hplt, List.drop_eq_getElem_cons hplt]
    simp only [Option.map_some', find_from, hnode p hplt]
    by_cases hf : f (xs[p].2) = true
    · rw [List.find?_cons_of_pos _ (by simpa using hf), if_pos hf,
        Option.some_bind, hnode p hplt]
    · rw [List.find?_cons_of_neg _ (by simpa using hf), if_neg hf]
      exact ih (p + 1) (by omega)

theorem get_where_spec {K : Nat} {xs : List (Nat × T)}
    {l : SizedDoubleLinkedList T} (hinv : ListInv K xs l) (f : T → Bool) :
    get_where l f =
      (xs.find? (fun pr => f pr.2)).bind
        (fun pr => l.nodes.getD pr.1 none) := by
  have h := find_from_spec hinv f xs.length 0 (by omega)
  have hhead : l.head = (xs[0]?).map Prod.fst := hinv.2.2.2.2.2.2.1
  have hlen : l.len = xs.length := hinv.2.2.1
  rw [get_where, hhead, hlen]
  simpa using h

theorem chainIdx_spec {K : Nat} {xs : List (Nat × T)}
    {l : SizedDoubleLinkedList T} (hinv : ListInv K xs l) :
    ∀ (k p : Nat), p + k = xs.length →
      chainIdx l (Option.map Prod.fst xs[p]?) k =
        (xs.drop p).map Prod.fst := by
  obtain ⟨hK, hnlen, hlen, hxK, hnd, hbound, hhead, htail, hu64, hbits,
    hdead, hnode⟩ := hinv
  intro k
  induction k with
  | zero =>
    intro p hp
    have hp' : xs[p]? = none := List.getElem?_eq_none (by omega)
    rw [hp', List.drop_eq_nil_of_le (by omega)]
    rfl
  | succ k ih =>
    intro p hp
    have hplt : p < xs.length := by omega
    rw [List.getElem?_eq_getElem hplt, List.drop_eq_getElem_cons hplt]
    simp only [Option.map_some', chainIdx, hnode p hplt, List.map_cons]
    by_cases hlast : p + 1 < xs.length
    · have ih2 := ih (p + 1) (by omega)
      rw [List.getElem?_eq_getElem hlast] at ih2
      simp only [Option.map_some'] at ih2
      simp only [List.getElem?_eq_getElem hlast, Option.map_some']
      rw [ih2]
    · have hnone : xs[p + 1]? = none := List.getElem?_eq_none (by omega)
      rw [hnone]
      have hk : k = 0 := by omega
      subst hk
      rw [List.drop_eq_nil_of_le (by omega)]
      rfl

/-- Reconstructs the `(slot, value)` spine that a slot order `σ` induces:
each slot is paired with its value looked up in the old spine. -/
def spineOf (xs : List (Nat × T)) (σ : List Nat) : List (Nat × T) :=
  σ.filterMap (fun s => xs.find? (fun pr => pr.1 == s))

theorem spineOf_map_fst {xs : List (Nat × T)} :
    ∀ {σ : List Nat}, (∀ s ∈ σ, s ∈ xs.map Prod.fst) →
      (spineOf xs σ).map Prod.fst = σ := by
  intro σ
  induction σ with
  | nil => intro _; rfl
  | cons s t ih =>
    intro hmem
    have hs : s ∈ xs.map Prod.fst := hmem s (List.mem_cons_self _ _)
    obtain ⟨pr, hpr, hpre⟩ := List.mem_map.1 hs
    have hex : (xs.find? (fun pr => pr.1 == s)).isSome := by
      rw [List.find?_isSome]
      exact ⟨pr, hpr, by simp [hpre]⟩
    obtain ⟨pr2, hpr2⟩ := Option.isSome_iff_exists.1 hex
    have hpr2e : pr2.1 = s := by
      have := List.find?_some hpr2
      simpa using this
    rw [spineOf, List.filterMap_cons, hpr2]
    show pr2.1 :: (spineOf xs t).map Prod.fst = s :: t
    rw [hpr2e, ih (fun u hu => hmem u (List.mem_cons_of_mem _ hu))]

theorem spineOf_subset {xs : List (Nat × T)} {σ : List Nat} {pr : Nat × T}
    (h : pr ∈ spineOf xs σ) : pr ∈ xs := by
  obtain ⟨s, _, hfind⟩ := List.mem_filterMap.1 h
  exact List.mem_of_find?_eq_some hfind

theorem spineOf_perm {xs : List (Nat × T)}
    (hnd : (xs.map Prod.fst).Nodup) {σ : List Nat}
    (hperm : σ.Perm (xs.map Prod.fst)) :
    (spineOf xs σ).Perm xs := by
  have hmem : ∀ s ∈ σ, s ∈ xs.map Prod.fst := fun s hs => hperm.subset hs
  have hfst := spineOf_map_fst hmem
  have hndσ : σ.Nodup := (hperm.nodup_iff).2 hnd
  have hndsp : (spineOf xs σ).Nodup := by
    apply List.Nodup.of_map Prod.fst
    rw [hfst]
    exact hndσ
  have hsub : spineOf xs σ ⊆ xs := fun pr hpr => spineOf_subset hpr
  have hsp : (spineOf xs σ).Subperm xs := List.subperm_of_subset hndsp hsub
  apply hsp.perm_of_length_le
  have h1 : (spineOf xs σ).length = σ.length := by
    conv_rhs => rw [← hfst]
    rw [List.length_map]
  have h2 : σ.length = xs.length := by
    have := hperm.length_eq
    simpa using this
  omega

theorem nmodify_getD_self (l : SizedDoubleLinkedList T) (s : Nat)
    (g : Node T → Node T) :
    (nmodify l s g).nodes.getD s none = (l.nodes.getD s none).map g := by
  by_cases h : s < l.nodes.length
  · show (l.nodes.set s ((l.nodes.getD s none).map g)).getD s none = _
    rw [List.getD_eq_getElem?_getD, List.getElem?_set_self h]
    rfl
  · push_neg at h
    show (l.nodes.set s ((l.nodes.getD s none).map g)).getD s none = _
    rw [List.set_eq_of_length_le h, List.getD_eq_getElem?_getD,
      List.getElem?_eq_none h]
    rfl

theorem nmodify_getD_ne (l : SizedDoubleLinkedList T) {s j : Nat}
    (hne : s ≠ j) (g : Node T → Node T) :
    (nmodify l s g).nodes.getD j none = l.nodes.getD j none :=
  getD_set_ne _ _ _ hne

theorem foldl_nmodify_misc (f : Nat → Node T → Node T) :
    ∀ (ps : List (Nat × Nat)) (l0 : SizedDoubleLinkedList T),
      (ps.foldl (fun acc pi => nmodify acc pi.2 (f pi.1)) l0).len = l0.len ∧
      (ps.foldl (fun acc pi => nmodify acc pi.2 (f pi.1)) l0).head =
        l0.head ∧
      (ps.foldl (fun acc pi => nmodify acc pi.2 (f pi.1)) l0).tail =
        l0.tail ∧
      (ps.foldl (fun acc pi => nmodify acc pi.2 (f pi.1)) l0).used =
        l0.used ∧
      (ps.foldl (fun acc pi => nmodify acc pi.2 (f pi.1)) l0).nodes.length =
        l0.nodes.length := by
  intro ps
  induction ps with
  | nil => intro l0; exact ⟨rfl, rfl, rfl, rfl, rfl⟩
  | cons hd tl ih =>
    intro l0
    rw [List.foldl_cons]
    obtain ⟨h1, h2, h3, h4, h5⟩ := ih (nmodify l0 hd.2 (f hd.1))
    refine ⟨h1, h2, h3, h4, ?_⟩
    rw [h5]
    simp [nmodify]

theorem foldl_nmodify_getD (f : Nat → Node T → Node T) :
    ∀ (ps : List (Nat × Nat)) (l0 : SizedDoubleLinkedList T) (j : Nat),
      (ps.map Prod.snd).Nodup →
      (ps.foldl (fun acc pi => nmodify acc pi.2 (f pi.1)) l0).nodes.getD j
          none =
        (ps.find? (fun pi => pi.2 == j)).elim (l0.nodes.getD j none)
          (fun pi => (l0.nodes.getD j none).map (f pi.1)) := by
  intro ps
  induction ps with
  | nil => intro l0 j _; rfl
  | cons hd tl ih =>
    intro l0 j hnd
    have hndt : (tl.map Prod.snd).Nodup := (List.nodup_cons.1 hnd).2
    have hhd : hd.2 ∉ tl.map Prod.snd := (List.nodup_cons.1 hnd).1
    rw [List.foldl_cons]
    by_cases hj : hd.2 = j
    · subst hj
      rw [List.find?_cons_of_pos _ (by simp), Option.elim_some,
        ih (nmodify l0 hd.2 (f hd.1)) hd.2 hndt]
      have hnone : tl.find? (fun pi => pi.2 == hd.2) = none := by
        rw [List.find?_eq_none]
        intro pi hpi
        simp only [beq_iff_eq]
        intro he
        exact hhd (he ▸ List.mem_map.2 ⟨pi, hpi, rfl⟩)
      rw [hnone, Option.elim_none, nmodify_getD_self]
    · rw [List.find?_cons_of_neg _ (by simp [hj]),
        ih (nmodify l0 hd.2 (f hd.1)) j hndt]
      cases hf : tl.find? (fun pi => pi.2 == j) with
      | none => rw [Option.elim_none, Option.elim_none, nmodify_getD_ne _ hj]
      | some pi =>
        rw [Option.elim_some, Option.elim_some, nmodify_getD_ne _ hj]

theorem enumFrom_find?_self {σ : List Nat} :
    σ.Nodup →
    ∀ (q off : Nat), (hq : q < σ.length) →
      (σ.enumFrom off).find? (fun pi => pi.2 == σ[q]) =
        some (off + q, σ[q]) := by
  induction σ with
  | nil =>
    intro _ q off hq
    simp at hq
  | cons s t ih =>
    intro hnd q off hq
    obtain ⟨hs, hndt⟩ := List.nodup_cons.1 hnd
    cases q with
    | zero =>
      rw [List.enumFrom_cons, List.find?_cons_of_pos _ (by simp)]
      simp
    | succ q =>
      have hqt : q < t.length := by simpa using hq
      have hgt : (s :: t)[q + 1] = t[q] := rfl
      rw [hgt, List.enumFrom_cons, List.find?_cons_of_neg _ (by
        simp only [beq_iff_eq]
        intro he
        exact hs (he ▸ List.getElem_mem hqt)), ih hndt q (off + 1) hqt]
      simp only [Option.some.injEq, Prod.mk.injEq]
      refine ⟨by omega, ?_⟩
      trivial

theorem node_of_mem {K : Nat} {xs : List (Nat × T)}
    {l : SizedDoubleLinkedList T} (hinv : ListInv K xs l) {pr : Nat × T}
    (hpr : pr ∈ xs) :
    l.nodes.getD pr.1 none =
      some { value := pr.2, index := pr.1,
             prev := ((l.nodes.getD pr.1 none).map Node.prev).getD none,
             next := ((l.nodes.getD pr.1 none).map Node.next).getD none }
    := by
  have hnode := hinv.2.2.2.2.2.2.2.2.2.2.2
  obtain ⟨q, hq, hqe⟩ := List.mem_iff_getElem.1 hpr
  subst hqe
  rw [hnode q hq]
  rfl

theorem relink_inv {K : Nat} {xs xs' : List (Nat × T)}
    {l : SizedDoubleLinkedList T} (hinv : ListInv K xs l)
    (hperm : xs'.Perm xs) :
    ListInv K xs' (relink l (xs'.map Prod.fst)) := by
  have hinv2 := hinv
  obtain ⟨hK, hnlen, hlen, hxK, hnd, hbound, hhead, htail, hu64, hbits,
    hdead, hnode⟩ := hinv2
  have hlen' : xs'.length = xs.length := hperm.length_eq
  have hndσ : (xs'.map Prod.fst).Nodup :=
    ((hperm.map Prod.fst).nodup_iff).2 hnd
  obtain ⟨hm1, hm2, hm3, hm4, hm5⟩ :=
    foldl_nmodify_misc (relinkNode (xs'.map Prod.fst))
      ((xs'.map Prod.fst).enum)
      { l with head := (xs'.map Prod.fst).head?,
               tail := (xs'.map Prod.fst).getLast? }
  have hens : ((xs'.map Prod.fst).enum.map Prod.snd).Nodup := by
    rw [List.enum_map_snd]
    exact hndσ
  refine ⟨hK, ?_, ?_, by omega, hndσ, ?_, ?_, ?_, ?_, ?_, ?_, ?_⟩
  · simp only [relink]
    exact hm5.trans hnlen
  · simp only [relink]
    exact hm1.trans (hlen.trans hlen'.symm)
  · intro pr hpr
    exact hbound pr (hperm.subset hpr)
  · simp only [relink]
    rw [hm2]
    show (xs'.map Prod.fst).head? = _
    rw [List.head?_eq_getElem?, List.getElem?_map]
  · simp only [relink]
    rw [hm3]
    show (xs'.map Prod.fst).getLast? = _
    rw [List.getLast?_eq_getElem?]
    simp only [List.length_map]
    rw [List.getElem?_map]
  · simp only [relink]
    rw [hm4]
    exact hu64
  · intro i hi
    simp only [relink]
    rw [hm4]
    show l.used.testBit i = _
    rw [hbits i hi]
    simp only [decide_eq_decide]
    exact ((hperm.map Prod.fst).mem_iff).symm
  · intro j hj hjmem
    simp only [relink]
    rw [foldl_nmodify_getD _ _ _ _ hens]
    have hfind : ((xs'.map Prod.fst).enum.find?
        (fun pi => pi.2 == j)) = none := by
      rw [List.find?_eq_none]
      intro pi hpi
      simp only [beq_iff_eq]
      intro he
      apply hjmem
      rw [← he, ← List.enum_map_snd (xs'.map Prod.fst)]
      exact List.mem_map.2 ⟨pi, hpi, rfl⟩
    rw [hfind, Option.elim_none]
    show l.nodes.getD j none = none
    exact hdead j hj (fun hmem => hjmem (((hperm.map Prod.fst).mem_iff).2
      hmem))
  · intro q hq
    have hqσ : q < (xs'.map Prod.fst).length := by
      simpa using hq
    simp only [relink]
    rw [foldl_nmodify_getD _ _ _ _ hens]
    have hfd := enumFrom_find?_self hndσ q 0 hqσ
    simp only [List.getElem_map] at hfd
    have henum : (xs'.map Prod.fst).enum =
        (xs'.map Prod.fst).enumFrom 0 := rfl
    rw [henum, hfd, Option.elim_some]
    simp only [Nat.zero_add]
    obtain ⟨p, hp, hpe⟩ :=
      List.mem_iff_getElem.1 (hperm.subset (List.getElem_mem hq))
    have hgd := hnode p hp
    rw [hpe] at hgd
    show (l.nodes.getD (xs'[q].1) none).map _ = _
    rw [hgd]
    simp only [Option.map_some', relinkNode, List.getElem?_map,
      List.length_map, Option.some.injEq]
    by_cases hql : q + 1 = xs'.length
    · rw [if_pos hql, show xs'[q + 1]? = none from
        List.getElem?_eq_none (by omega)]
      rfl
    · rw [if_neg hql]

theorem mergeChunks_perm (c : Nat → Nat → Ordering) (w : Nat) :
    ∀ (l : List Nat), (mergeChunks c w l).Perm l := by
  have H : ∀ (n : Nat) (l : List Nat), l.length = n →
      (mergeChunks c w l).Perm l := by
    intro n
    induction n using Nat.strong_induction_on with
    | _ n ih =>
      intro l hl
      rw [mergeChunks]
      by_cases h : 0 < w ∧ w < l.length
      · rw [dif_pos h]
        have h1 := lmerge_perm c (l.take w) ((l.drop w).take w)
        have h2 := ih (l.drop (w + w)).length (by simp; omega)
          (l.drop (w + w)) rfl
        have h3 := h1.append h2
        refine h3.trans ?_
        have h4 : l.take w ++ (l.drop w).take w = l.take (w + w) :=
          (List.take_add l w w).symm
        rw [h4, List.take_append_drop]
      · rw [dif_neg h]
  intro l
  exact H l.length l rfl

theorem sortLoop_perm (c : Nat → Nat → Ordering) :
    ∀ (w : Nat) (l : List Nat), (sortLoop c w l).Perm l := by
  have H : ∀ (n w : Nat) (l : List Nat), l.length - w = n →
      (sortLoop c w l).Perm l := by
    intro n
    induction n using Nat.strong_induction_on with
    | _ n ih =>
      intro w l hl
      rw [sortLoop]
      by_cases h : 0 < w ∧ w < l.length
      · rw [dif_pos h]
        have h1 := ih ((mergeChunks c w l).length - (w + w))
          (by rw [mergeChunks_length]; omega) (w + w) (mergeChunks c w l)
          rfl
        exact h1.trans (mergeChunks_perm c w l)
      · rw [dif_neg h]
  intro w l
  exact H (l.length - w) w l rfl

theorem sort_by_spine {K : Nat} {xs : List (Nat × T)}
    {l : SizedDoubleLinkedList T} (hinv : ListInv K xs l)
    (cmp : T → T → Ordering) (h2 : 1 < l.len) :
    ∃ xs', ListInv K xs' (sort_by cmp l) ∧ xs'.Perm xs ∧
      xs'.map Prod.fst =
        sortLoop (cmpIdx l cmp) 1 (xs.map Prod.fst) := by
  have hlen : l.len = xs.length := hinv.2.2.1
  have hhead : l.head = (xs[0]?).map Prod.fst := hinv.2.2.2.2.2.2.1
  have hnd : (xs.map Prod.fst).Nodup := hinv.2.2.2.2.1
  have hσ0 : chainIdx l l.head l.len = xs.map Prod.fst := by
    rw [hhead, hlen]
    have := chainIdx_spec hinv xs.length 0 (by omega)
    simpa using this
  have hperm0 : (sortLoop (cmpIdx l cmp) 1 (xs.map Prod.fst)).Perm
      (xs.map Prod.fst) := sortLoop_perm _ _ _
  have hfst := @spineOf_map_fst T xs
    (sortLoop (cmpIdx l cmp) 1 (xs.map Prod.fst))
    (fun s hs => hperm0.subset hs)
  have hperm : (spineOf xs
      (sortLoop (cmpIdx l cmp) 1 (xs.map Prod.fst))).Perm xs :=
    spineOf_perm hnd hperm0
  refine ⟨spineOf xs (sortLoop (cmpIdx l cmp) 1 (xs.map Prod.fst)), ?_,
    hperm, hfst⟩
  rw [sort_by, if_neg (by omega), hσ0]
  have hri := relink_inv hinv hperm
  rw [hfst] at hri
  exact hri

/-- C5: every public mutating operation of the sized arena list
(`insert_head`, `insert_tail`, `insert_after`, `insert_before`, `remove`,
`sort_by`) preserves the structural invariant, stated as the abstraction
relation `ListInv`: some spine `xs'` of live `(slot, value)` pairs in list
order abstracts the new state (its clauses are exactly the spec's: `used`
bit per live slot, `head`/`tail` none iff empty and otherwise the
first/last live slot, `next` from `head` visits each live slot once ending
at `tail` then `none`, `prev` the exact mirror). -/
theorem claim_C5 {K : Nat} {xs : List (Nat × T)}
    {l : SizedDoubleLinkedList T} (hinv : ListInv K xs l) :
    (∀ (v : T) (r : Except LinkedListError Unit)
      (l' : SizedDoubleLinkedList T), insert_head K l v = some (r, l') →
      ∃ xs', ListInv K xs' l') ∧
    (∀ (v : T) (r : Except LinkedListError Unit)
      (l' : SizedDoubleLinkedList T), insert_tail K l v = some (r, l') →
      ∃ xs', ListInv K xs' l') ∧
    (∀ (i : Nat) (v : T),
      ∃ xs', ListInv K xs' (insert_after K l i v).2) ∧
    (∀ (i : Nat) (v : T) (r : Except LinkedListError Unit)
      (l' : SizedDoubleLinkedList T),
      insert_before K l i v = some (r, l') → ∃ xs', ListInv K xs' l') ∧
    (∀ i : Nat, ∃ xs', ListInv K xs' (remove l i).2) ∧
    (∀ cmp : T → T → Ordering, ∃ xs', ListInv K xs' (sort_by cmp l)) := by
  have hlen : l.len = xs.length := hinv.2.2.1
  have hxK : xs.length ≤ K := hinv.2.2.2.1
  have hA : ∀ (i : Nat) (v : T),
      ∃ xs', ListInv K xs' (insert_after K l i v).2 := by
    intro i v
    by_cases hoor : xs.length ≤ i
    · rw [insert_after_err_oor hinv hoor v]
      exact ⟨xs, hinv⟩
    · by_cases hfull : xs.length = K
      · rw [insert_after_err_full hinv (by omega) hfull v]
        exact ⟨xs, hinv⟩
      · obtain ⟨l2, he, hi⟩ := @insert_after_ok T K xs l hinv i
          (by omega) (by omega) v
        rw [he]
        exact ⟨_, hi⟩
  have hB : ∀ (i : Nat) (v : T) (r : Except LinkedListError Unit)
      (l' : SizedDoubleLinkedList T),
      insert_before K l i v = some (r, l') → ∃ xs', ListInv K xs' l' := by
    intro i v r l' h
    by_cases hoor : xs.length < i
    · rw [insert_before_err_oor hinv hoor v] at h
      simp only [Option.some.injEq, Prod.mk.injEq] at h
      exact ⟨xs, h.2 ▸ hinv⟩
    · by_cases hfull : xs.length = K
      · rw [insert_before_err_full hinv (by omega) hfull v] at h
        simp only [Option.some.injEq, Prod.mk.injEq] at h
        exact ⟨xs, h.2 ▸ hinv⟩
      · by_cases hlt : i < xs.length
        · obtain ⟨l2, he, hi⟩ := @insert_before_ok T K xs l hinv i
            (by omega) (Or.inr hlt) v
          rw [he] at h
          simp only [Option.some.injEq, Prod.mk.injEq] at h
          exact ⟨_, h.2 ▸ hi⟩
        · by_cases hz : i = 0
          · subst hz
            obtain ⟨l2, he, hi⟩ :=
              insert_before_ok hinv (by omega) (Or.inl rfl) v
            rw [he] at h
            simp only [Option.some.injEq, Prod.mk.injEq] at h
            exact ⟨_, h.2 ▸ hi⟩
          · rw [insert_before_panic hinv (by omega) (by omega)
              (by omega) v] at h
            simp at h
  refine ⟨?_, ?_, hA, hB, ?_, ?_⟩
  · intro v r l' h
    rw [insert_head] at h
    exact hB 0 v r l' h
  · intro v r l' h
    rw [insert_tail] at h
    by_cases h0 : l.len = 0
    · rw [if_pos h0] at h
      exact hB 0 v r l' h
    · rw [if_neg h0] at h
      simp only [Option.some.injEq] at h
      obtain ⟨xs', hi⟩ := hA (l.len - 1) v
      have h2 : (insert_after K l (l.len - 1) v).2 = l' := by rw [h]
      exact ⟨xs', h2 ▸ hi⟩
  · intro i
    by_cases hi : i < xs.length
    · obtain ⟨l2, he, hi2⟩ := @remove_ok T K xs l hinv i hi
      rw [he]
      exact ⟨_, hi2⟩
    · rw [remove_err hinv (by omega)]
      exact ⟨xs, hinv⟩
  · intro cmp
    by_cases h1 : l.len ≤ 1
    · rw [sort_by, if_pos h1]
      exact ⟨xs, hinv⟩
    · obtain ⟨xs', hi, _, _⟩ := sort_by_spine hinv cmp (by omega)
      exact ⟨xs', hi⟩

/-- Closed witness for C5: all six mutating entry points applied to a
concrete well-formed one-element capacity-3 list. -/
theorem claim_C5_witness :
    ListInv 3 [(0, 5)]
      ({ nodes := [some { value := 5, index := 0, prev := none,
                          next := none }, none, none],
         used := 1, len := 1, tail := some 0,
         head := some 0 } : SizedDoubleLinkedList Nat) ∧
    ((∃ xs', ListInv 3 xs'
        ({ nodes := [some { value := 5, index := 0, prev := some 1,
                            next := none },
                     some { value := 9, index := 1, prev := none,
                            next := some 0 }, none],
           used := 3, len := 2, tail := some 0,
           head := some 1 } : SizedDoubleLinkedList Nat)) ∧
     (∃ xs', ListInv 3 xs'
        ({ nodes := [some { value := 5, index := 0, prev := none,
                            next := some 1 },
                     some { value := 9, index := 1, prev := some 0,
                            next := none }, none],
           used := 3, len := 2, tail := some 1,
           head := some 0 } : SizedDoubleLinkedList Nat)) ∧
     (∃ xs', ListInv 3 xs'
        (insert_after 3
          ({ nodes := [some { value := 5, index := 0, prev := none,
                              next := none }, none, none],
             used := 1, len := 1, tail := some 0,
             head := some 0 } : SizedDoubleLinkedList Nat) 0 9).2) ∧
     (∃ xs', ListInv 3 xs'
        ({ nodes := [some { value := 5, index := 0, prev := some 1,
                            next := none },
                     some { value := 9, index := 1, prev := none,
                            next := some 0 }, none],
           used := 3, len := 2, tail := some 0,
           head := some 1 } : SizedDoubleLinkedList Nat)) ∧
     (∃ xs', ListInv 3 xs'
        (remove
          ({ nodes := [some { value := 5, index := 0, prev := none,
                              next := none }, none, none],
             used := 1, len := 1, tail := some 0,
             head := some 0 } : SizedDoubleLinkedList Nat) 0).2) ∧
     (∃ xs', ListInv 3 xs'
        (sort_by compare
          ({ nodes := [some { value := 5, index := 0, prev := none,
                              next := none }, none, none],
             used := 1, len := 1, tail := some 0,
             head := some 0 } : SizedDoubleLinkedList Nat)))) :=
  ⟨by unfold ListInv; decide,
   (@claim_C5 Nat 3 [(0, 5)]
     { nodes := [some { value := 5, index := 0, prev := none,
                        next := none }, none, none],
       used := 1, len := 1, tail := some 0, head := some 0 }
     (by unfold ListInv; decide)).1 9 (.ok ())
     { nodes := [some { value := 5, index := 0, prev := some 1,
                        next := none },
                 some { value := 9, index := 1, prev := none,
                        next := some 0 }, none],
       used := 3, len := 2, tail := some 0, head := some 1 } (by rfl),
   (@claim_C5 Nat 3 [(0, 5)]
     { nodes := [some { value := 5, index := 0, prev := none,
                        next := none }, none, none],
       used := 1, len := 1, tail := some 0, head := some 0 }
     (by unfold ListInv; decide)).2.1 9 (.ok ())
     { nodes := [some { value := 5, index := 0, prev := none,
                        next := some 1 },
                 some { value := 9, index := 1, prev := some 0,
                        next := none }, none],
       used := 3, len := 2, tail := some 1, head := some 0 } (by rfl),
   (@claim_C5 Nat 3 [(0, 5)]
     { nodes := [some { value := 5, index := 0, prev := none,
                        next := none }, none, none],
       used := 1, len := 1, tail := some 0, head := some 0 }
     (by unfold ListInv; decide)).2.2.1 0 9,
   (@claim_C5 Nat 3 [(0, 5)]
     { nodes := [some { value := 5, index := 0, prev := none,
                        next := none }, none, none],
       used := 1, len := 1, tail := some 0, head := some 0 }
     (by unfold ListInv; decide)).2.2.2.1 0 9 (.ok ())
     { nodes := [some { value := 5, index := 0, prev := some 1,
                        next := none },
                 some { value := 9, index := 1, prev := none,
                        next := some 0 }, none],
       used := 3, len := 2, tail := some 0, head := some 1 } (by rfl),
   (@claim_C5 Nat 3 [(0, 5)]
     { nodes := [some { value := 5, index := 0, prev := none,
                        next := none }, none, none],
       used := 1, len := 1, tail := some 0, head := some 0 }
     (by unfold ListInv; decide)).2.2.2.2.1 0,
   (@claim_C5 Nat 3 [(0, 5)]
     { nodes := [some { value := 5, index := 0, prev := none,
                        next := none }, none, none],
       used := 1, len := 1, tail := some 0, head := some 0 }
     (by unfold ListInv; decide)).2.2.2.2.2 compare⟩

/-- A comparator strengthened lexicographically with a rank function —
used to express stability: ties of `c` are broken by original position. -/
def lexC {α : Type} (c : α → α → Ordering) (rank : α → Nat) (a b : α) :
    Ordering :=
  (c a b).then (compare (rank a) (rank b))

theorem lexC_law {α : Type} {c : α → α → Ordering}
    (hsw : ∀ a b, c a b = (c b a).swap) (rank : α → Nat) :
    ∀ a b, lexC c rank a b = .gt → lexC c rank b a ≠ .gt := by
  intro a b h
  rcases hc : c a b with h1 | h1 | h1
  · rw [lexC, hc] at h
    simp [Ordering.then] at h
  · have hba : c b a = .eq := by
      have := hsw b a
      rw [hc] at this
      simpa [Ordering.swap] using this
    rw [lexC, hc] at h
    simp only [Ordering.then] at h
    rw [lexC, hba]
    simp only [Ordering.then]
    rw [Nat.compare_eq_gt] at h
    simp only [ne_eq, Nat.compare_eq_gt]
    omega
  · have hba : c b a = .lt := by
      have := hsw b a
      rw [hc] at this
      rcases hba : c b a with h2 | h2 | h2 <;> rw [hba] at this <;>
        simp [Ordering.swap] at this
    rw [lexC, hba]
    simp [Ordering.then]

theorem lexC_agree {α : Type} (c : α → α → Ordering) (rank : α → Nat)
    {a b : α} (h : rank a < rank b) :
    (c a b = .gt ↔ lexC c rank a b = .gt) := by
  rcases hc : c a b with h1 | h1 | h1 <;> rw [lexC, hc] <;>
    simp [Ordering.then]
  rw [Nat.compare_eq_gt]
  omega

theorem lmerge_congr {α : Type} (c cx : α → α → Ordering) :
    ∀ (A B : List α), (∀ a ∈ A, ∀ b ∈ B, (c a b = .gt ↔ cx a b = .gt)) →
      lmerge c A B = lmerge cx A B
  | [], B => by
    intro h
    rw [lmerge_nil_left, lmerge_nil_left]
  | a :: As, [] => by
    intro h
    rw [lmerge_nil_right, lmerge_nil_right]
  | a :: As, b :: Bs => by
    intro h
    rw [lmerge_cons_cons, lmerge_cons_cons]
    have hab := h a (List.mem_cons_self _ _) b (List.mem_cons_self _ _)
    by_cases hc : c a b = .gt
    · rw [if_neg (not_not_intro hc), if_neg (not_not_intro (hab.1 hc))]
      rw [lmerge_congr c cx (a :: As) Bs
        (fun x hx y hy => h x hx y (List.mem_cons_of_mem _ hy))]
    · rw [if_pos hc, if_pos (fun hh => hc (hab.2 hh))]
      rw [lmerge_congr c cx As (b :: Bs)
        (fun x hx y hy => h x (List.mem_cons_of_mem _ hx) y hy)]
termination_by A B => A.length + B.length

theorem chain'_rel_head {α : Type} {R : α → α → Prop} :
    ∀ {t : List α} {x : α},
      (∀ a ∈ x :: t, ∀ b ∈ x :: t, ∀ d ∈ x :: t, R a b → R b d → R a d) →
      List.Chain' R (x :: t) → ∀ y ∈ t, R x y := by
  intro t
  induction t with
  | nil =>
    intro x _ _ y hy
    simp at hy
  | cons z t ih =>
    intro x htr hch y hy
    have hxz : R x z := (List.chain'_cons.1 hch).1
    rcases List.mem_cons.1 hy with rfl | hyt
    · exact hxz
    · have htr2 : ∀ a ∈ z :: t, ∀ b ∈ z :: t, ∀ d ∈ z :: t,
          R a b → R b d → R a d := fun a ha b hb d hd =>
        htr a (List.mem_cons_of_mem _ ha) b (List.mem_cons_of_mem _ hb)
          d (List.mem_cons_of_mem _ hd)
      have hzy : R z y := ih htr2 hch.tail y hyt
      exact htr x (List.mem_cons_self _ _)
        z (List.mem_cons_of_mem _ (List.mem_cons_self _ _))
        y (List.mem_cons_of_mem _ (List.mem_cons_of_mem _ hyt)) hxz hzy

theorem chain'_pairwise_on {α : Type} {R : α → α → Prop} :
    ∀ {L : List α},
      (∀ a ∈ L, ∀ b ∈ L, ∀ d ∈ L, R a b → R b d → R a d) →
      List.Chain' R L → List.Pairwise R L := by
  intro L
  induction L with
  | nil =>
    intro _ _
    exact List.Pairwise.nil
  | cons x t ih =>
    intro htr hch
    have htr2 : ∀ a ∈ t, ∀ b ∈ t, ∀ d ∈ t, R a b → R b d → R a d :=
      fun a ha b hb d hd =>
        htr a (List.mem_cons_of_mem _ ha) b (List.mem_cons_of_mem _ hb)
          d (List.mem_cons_of_mem _ hd)
    refine List.pairwise_cons.2 ⟨chain'_rel_head htr hch, ih htr2 hch.tail⟩

theorem mergeChunks_nil (c : Nat → Nat → Ordering) (w : Nat) :
    mergeChunks c w [] = [] := by
  rw [mergeChunks]
  simp

/-- One bottom-up merge pass: if every aligned `w`-chunk of `buf` is a
permutation of the matching `w`-segment of the reference order `ref` and is
sorted under the tie-broken comparator `cx`, then after `mergeChunks` the
same holds for `2w`-chunks.  `c` is the comparator the code uses; on pairs
whose ranks increase it decides exactly like `cx`. -/
theorem mergeChunks_chunks (c cx : Nat → Nat → Ordering)
    (hlaw : ∀ a b, cx a b = .gt → cx b a ≠ .gt)
    (rank : Nat → Nat)
    (hagree : ∀ a b, rank a < rank b → (c a b = .gt ↔ cx a b = .gt))
    (w : Nat) (hw : 0 < w) :
    ∀ (buf ref : List Nat),
      buf.length = ref.length →
      (∀ p q, (hp : p < ref.length) → (hq : q < ref.length) → p < q →
        rank ref[p] < rank ref[q]) →
      (∀ k, ((buf.drop (k * w)).take w).Perm ((ref.drop (k * w)).take w) ∧
        List.Chain' (leC cx) ((buf.drop (k * w)).take w)) →
      ∀ k, (((mergeChunks c w buf).drop (k * (w + w))).take (w + w)).Perm
          ((ref.drop (k * (w + w))).take (w + w)) ∧
        List.Chain' (leC cx)
          (((mergeChunks c w buf).drop (k * (w + w))).take (w + w)) := by
  have MAIN : ∀ (n : Nat) (buf ref : List Nat), buf.length = n →
      buf.length = ref.length →
      (∀ p q, (hp : p < ref.length) → (hq : q < ref.length) → p < q →
        rank ref[p] < rank ref[q]) →
      (∀ k, ((buf.drop (k * w)).take w).Perm ((ref.drop (k * w)).take w) ∧
        List.Chain' (leC cx) ((buf.drop (k * w)).take w)) →
      ∀ k, (((mergeChunks c w buf).drop (k * (w + w))).take (w + w)).Perm
          ((ref.drop (k * (w + w))).take (w + w)) ∧
        List.Chain' (leC cx)
          (((mergeChunks c w buf).drop (k * (w + w))).take (w + w)) := by
    intro n
    induction n using Nat.strong_induction_on with
    | _ n ih =>
      intro buf ref hbn hlen hmono hch k
      rw [mergeChunks]
      by_cases h : 0 < w ∧ w < buf.length
      · rw [dif_pos h]
        have h0 := hch 0
        simp only [Nat.zero_mul, List.drop_zero] at h0
        obtain ⟨hp0, hc0⟩ := h0
        have h1 := hch 1
        simp only [Nat.one_mul] at h1
        obtain ⟨hp1, hc1⟩ := h1
        have hcross : ∀ a ∈ buf.take w, ∀ b ∈ (buf.drop w).take w,
            (c a b = .gt ↔ cx a b = .gt) := by
          intro a ha b hb
          have ha2 : a ∈ ref.take w := hp0.subset ha
          have hb2 : b ∈ (ref.drop w).take w := hp1.subset hb
          obtain ⟨p, hp, hpe⟩ := List.mem_iff_getElem.1 ha2
          obtain ⟨q, hq, hqe⟩ := List.mem_iff_getElem.1 hb2
          have hpw : p < w := by
            have := hp
            simp [List.length_take] at this
            omega
          have hqw : q < w := by
            have := hq
            simp [List.length_take, List.length_drop] at this
            omega
          have hpr : p < ref.length := by
            have := hp
            simp [List.length_take] at this
            omega
          have hqr : w + q < ref.length := by
            have := hq
            simp [List.length_take, List.length_drop] at this
            omega
          subst hpe
          subst hqe
          rw [List.getElem_take, List.getElem_take, List.getElem_drop]
          exact hagree _ _ (hmono p (w + q) hpr hqr (by omega))
        have hMeq : lmerge c (buf.take w) ((buf.drop w).take w) =
            lmerge cx (buf.take w) ((buf.drop w).take w) :=
          lmerge_congr _ _ _ _ hcross
        have hMchain : List.Chain' (leC cx)
            (lmerge c (buf.take w) ((buf.drop w).take w)) := by
          rw [hMeq]
          exact (lmerge_chain hlaw _ _ hc0 hc1).1
        have hMperm : (lmerge c (buf.take w)
            ((buf.drop w).take w)).Perm (ref.take (w + w)) := by
          refine (lmerge_perm _ _ _).trans ?_
          rw [List.take_add]
          exact hp0.append hp1
        have hrec := ih (buf.drop (w + w)).length
          (by simp [List.length_drop]; omega) (buf.drop (w + w))
          (ref.drop (w + w)) rfl (by simp [List.length_drop]; omega)
          (by
            intro p q hp hq hpq
            rw [List.getElem_drop, List.getElem_drop]
            have hp2 : w + w + p < ref.length := by
              simp [List.length_drop] at hp
              omega
            have hq2 : w + w + q < ref.length := by
              simp [List.length_drop] at hq
              omega
            exact hmono _ _ hp2 hq2 (by omega))
          (by
            intro k2
            have := hch (k2 + 2)
            rw [List.drop_drop, List.drop_drop,
              show w + w + k2 * w = (k2 + 2) * w by ring]
            exact this)
        by_cases hlen2 : buf.length ≤ w + w
        · have hdrop : buf.drop (w + w) = [] :=
            List.drop_eq_nil_of_le hlen2
          rw [hdrop, mergeChunks_nil, List.append_nil]
          cases k with
          | zero =>
            simp only [Nat.zero_mul, List.drop_zero]
            have hM : (lmerge c (buf.take w)
                ((buf.drop w).take w)).take (w + w) =
                lmerge c (buf.take w) ((buf.drop w).take w) := by
              apply List.take_of_length_le
              rw [lmerge_length]
              simp [List.length_take, List.length_drop]
              omega
            rw [hM]
            exact ⟨hMperm, hMchain⟩
          | succ k =>
            have hMl : (lmerge c (buf.take w)
                ((buf.drop w).take w)).length = buf.length := by
              rw [lmerge_length]
              simp [List.length_take, List.length_drop]
              omega
            have h2 : w + w ≤ (k + 1) * (w + w) :=
              Nat.le_mul_of_pos_left (w + w) (by omega)
            rw [List.drop_eq_nil_of_le (by omega),
              List.drop_eq_nil_of_le (by omega)]
            simp
        · have hMlen : (lmerge c (buf.take w)
              ((buf.drop w).take w)).length = w + w := by
            rw [lmerge_length]
            simp [List.length_take, List.length_drop]
            omega
          cases k with
          | zero =>
            simp only [Nat.zero_mul, List.drop_zero]
            rw [List.take_left' hMlen]
            exact ⟨hMperm, hMchain⟩
          | succ k =>
            have hstep : ((lmerge c (buf.take w) ((buf.drop w).take w)) ++
                mergeChunks c w (buf.drop (w + w))).drop
                  ((k + 1) * (w + w)) =
                (mergeChunks c w (buf.drop (w + w))).drop (k * (w + w)) :=
              by
              rw [show (k + 1) * (w + w) = w + w + k * (w + w) by ring,
                ← List.drop_drop, List.drop_left' hMlen]
            have hstepr : ref.drop ((k + 1) * (w + w)) =
                (ref.drop (w + w)).drop (k * (w + w)) := by
              rw [List.drop_drop,
                show w + w + k * (w + w) = (k + 1) * (w + w) by ring]
            rw [hstep, hstepr]
            exact hrec k
      · rw [dif_neg h]
        have hble : buf.length ≤ w := by omega
        cases k with
        | zero =>
          simp only [Nat.zero_mul, List.drop_zero]
          have hb : buf.take (w + w) = buf :=
            List.take_of_length_le (by omega)
          have hr : ref.take (w + w) = ref :=
            List.take_of_length_le (by omega)
          have h0 := hch 0
          simp only [Nat.zero_mul, List.drop_zero] at h0
          have hb1 : buf.take w = buf := List.take_of_length_le hble
          have hr1 : ref.take w = ref := List.take_of_length_le (by omega)
          rw [hb, hr]
          rw [hb1, hr1] at h0
          exact h0
        | succ k =>
          have h2 : w + w ≤ (k + 1) * (w + w) :=
            Nat.le_mul_of_pos_left (w + w) (by omega)
          rw [List.drop_eq_nil_of_le (by omega),
            List.drop_eq_nil_of_le (by omega)]
          simp
  intro buf ref h1 h2 h3
  exact MAIN buf.length buf ref rfl h1 h2 h3

theorem ordSwap_eq {o : Ordering} : o.swap = .eq ↔ o = .eq := by
  cases o <;> simp [Ordering.swap]

theorem ordSwap_gt {o : Ordering} : o.swap = .gt ↔ o = .lt := by
  cases o <;> simp [Ordering.swap]

theorem ordSwap_lt {o : Ordering} : o.swap = .lt ↔ o = .gt := by
  cases o <;> simp [Ordering.swap]

theorem lexC_ne_gt {α : Type} (c : α → α → Ordering) (rank : α → Nat)
    (a b : α) :
    (lexC c rank a b ≠ .gt) ↔
      (c a b = .lt ∨ (c a b = .eq ∧ rank a ≤ rank b)) := by
  rcases hc : c a b with h1 | h1 | h1 <;>
    simp [lexC, Ordering.then, hc, Nat.compare_eq_gt] <;> omega

theorem lexC_trans_on {α : Type} {c : α → α → Ordering} {rank : α → Nat}
    {P : α → Prop}
    (hsw : ∀ x y, P x → P y → c x y = (c y x).swap)
    (htr : ∀ x y z, P x → P y → P z →
      c x y ≠ .gt → c y z ≠ .gt → c x z ≠ .gt)
    {a b d : α} (ha : P a) (hb : P b) (hd : P d) :
    leC (lexC c rank) a b → leC (lexC c rank) b d →
      leC (lexC c rank) a d := by
  intro h1 h2
  rw [show leC (lexC c rank) a b = (lexC c rank a b ≠ .gt) from rfl,
    lexC_ne_gt] at h1
  rw [show leC (lexC c rank) b d = (lexC c rank b d ≠ .gt) from rfl,
    lexC_ne_gt] at h2
  rw [show leC (lexC c rank) a d = (lexC c rank a d ≠ .gt) from rfl,
    lexC_ne_gt]
  have hab : c a b ≠ .gt := by
    rcases h1 with h | ⟨h, _⟩ <;> simp [h]
  have hbd : c b d ≠ .gt := by
    rcases h2 with h | ⟨h, _⟩ <;> simp [h]
  have hadne : c a d ≠ .gt := htr a b d ha hb hd hab hbd
  rcases hcad : c a d with h3 | h3 | h3
  · exact Or.inl rfl
  · right
    refine ⟨rfl, ?_⟩
    have hda : c d a = .eq := by
      have := hsw a d ha hd
      rw [hcad] at this
      exact ordSwap_eq.1 this.symm
    rcases h1 with h1l | ⟨h1e, h1r⟩
    · exfalso
      have hba : c b a = .gt := by
        have := hsw a b ha hb
        rw [h1l] at this
        exact ordSwap_lt.1 this.symm
      have : c b a ≠ .gt := htr b d a hb hd ha hbd (by simp [hda])
      exact this hba
    · rcases h2 with h2l | ⟨h2e, h2r⟩
      · exfalso
        have hdb : c d b = .gt := by
          have := hsw b d hb hd
          rw [h2l] at this
          exact ordSwap_lt.1 this.symm
        have : c d b ≠ .gt := htr d a b hd ha hb (by simp [hda])
          (by simp [h1e])
        exact this hdb
      · omega
  · exact absurd hcad hadne

/-- The `while width < len` invariant: starting from sorted aligned
`w`-chunks that chunkwise permute the reference order, the loop ends with a
single sorted permutation of the whole reference. -/
theorem sortLoop_chunks (c cx : Nat → Nat → Ordering)
    (hlaw : ∀ a b, cx a b = .gt → cx b a ≠ .gt)
    (rank : Nat → Nat)
    (hagree : ∀ a b, rank a < rank b → (c a b = .gt ↔ cx a b = .gt)) :
    ∀ (n w : Nat) (buf ref : List Nat), buf.length - w = n → 0 < w →
      buf.length = ref.length →
      (∀ p q, (hp : p < ref.length) → (hq : q < ref.length) → p < q →
        rank ref[p] < rank ref[q]) →
      (∀ k, ((buf.drop (k * w)).take w).Perm ((ref.drop (k * w)).take w) ∧
        List.Chain' (leC cx) ((buf.drop (k * w)).take w)) →
      (sortLoop c w buf).Perm ref ∧
        List.Chain' (leC cx) (sortLoop c w buf) := by
  intro n
  induction n using Nat.strong_induction_on with
  | _ n ih =>
    intro w buf ref hn hw hlen hmono hch
    rw [sortLoop]
    by_cases h : 0 < w ∧ w < buf.length
    · rw [dif_pos h]
      have hmc := mergeChunks_chunks c cx hlaw rank hagree w hw buf ref
        hlen hmono hch
      exact ih ((mergeChunks c w buf).length - (w + w))
        (by rw [mergeChunks_length]; omega) (w + w) (mergeChunks c w buf)
        ref rfl (by omega) (by rw [mergeChunks_length]; omega) hmono hmc
    · rw [dif_neg h]
      have hble : buf.length ≤ w := by omega
      have h0 := hch 0
      simp only [Nat.zero_mul, List.drop_zero] at h0
      rw [List.take_of_length_le hble,
        List.take_of_length_le (by omega)] at h0
      exact h0

theorem cmpIdx_symm {l : SizedDoubleLinkedList T} {cmp : T → T → Ordering}
    (hsw : ∀ x y, cmp x y = (cmp y x).swap) (a b : Nat) :
    cmpIdx l cmp a b = (cmpIdx l cmp b a).swap := by
  rw [cmpIdx, cmpIdx]
  cases ha : l.nodes.getD a none <;> cases hb : l.nodes.getD b none <;>
    simp [Ordering.swap]
  exact hsw _ _

theorem cmpIdx_eval {K : Nat} {xs : List (Nat × T)}
    {l : SizedDoubleLinkedList T} (hinv : ListInv K xs l)
    {pr qr : Nat × T} (hpr : pr ∈ xs) (hqr : qr ∈ xs)
    (cmp : T → T → Ordering) :
    cmpIdx l cmp pr.1 qr.1 = cmp pr.2 qr.2 := by
  have h1 := node_of_mem hinv hpr
  have h2 := node_of_mem hinv hqr
  rw [cmpIdx, h1, h2]

theorem natCompare_symm (x y : Nat) : compare x y = (compare y x).swap := by
  rcases lt_trichotomy x y with h | h | h
  · rw [Nat.compare_eq_lt.2 h, show compare y x = .gt from
      Nat.compare_eq_gt.2 h]
    rfl
  · subst h
    rw [Nat.compare_eq_eq.2 rfl]
    rfl
  · rw [Nat.compare_eq_gt.2 h, show compare y x = .lt from
      Nat.compare_eq_lt.2 h]
    rfl

theorem natCompare_le_trans (x y z : Nat) (h1 : compare x y ≠ .gt)
    (h2 : compare y z ≠ .gt) : compare x z ≠ .gt := by
  rw [ne_eq, Nat.compare_eq_gt] at h1 h2 ⊢
  omega

/-- C3: on a well-formed arena list, `sort_by cmp` (for a lawful comparator:
antisymmetric via `swap`, transitive on `≤` = not-`gt`) leaves the list
abstracted by a spine `xs'` that is a permutation of the old spine `xs`,
is sorted ascending under `cmp` on the values, and is stable: two
elements whose values compare `Equal` keep their original relative order
(positions in the sorted slot order respect original positions). -/
theorem claim_C3 {K : Nat} {xs : List (Nat × T)}
    {l : SizedDoubleLinkedList T} (hinv : ListInv K xs l)
    (cmp : T → T → Ordering)
    (hsw : ∀ x y, cmp x y = (cmp y x).swap)
    (htr : ∀ x y z, cmp x y ≠ .gt → cmp y z ≠ .gt → cmp x z ≠ .gt) :
    ∃ xs', ListInv K xs' (sort_by cmp l) ∧ xs'.Perm xs ∧
      List.Chain' (fun a b : Nat × T => cmp a.2 b.2 ≠ .gt) xs' ∧
      ∀ p q, (hp : p < xs.length) → (hq : q < xs.length) → p < q →
        cmp (xs[p].2) (xs[q].2) = .eq →
        (xs'.map Prod.fst).indexOf (xs[p].1) <
          (xs'.map Prod.fst).indexOf (xs[q].1) := by
  have hlen : l.len = xs.length := hinv.2.2.1
  have hnd : (xs.map Prod.fst).Nodup := hinv.2.2.2.2.1
  by_cases h1 : l.len ≤ 1
  · refine ⟨xs, by rw [sort_by, if_pos h1]; exact hinv, List.Perm.refl xs,
      ?_, ?_⟩
    · have hx1 : xs.length ≤ 1 := by omega
      rcases hxs : xs with _ | ⟨a, _ | ⟨b, t⟩⟩
      · simp
      · simp
      · rw [hxs] at hx1
        simp at hx1
    · intro p q hp hq hpq heq
      omega
  · obtain ⟨xs', hinv', hperm, hfst⟩ := sort_by_spine hinv cmp (by omega)
    have hswI := cmpIdx_symm (l := l) hsw
    have hlaw := lexC_law hswI (fun s => (xs.map Prod.fst).indexOf s)
    have hagree : ∀ a b,
        (fun s => (xs.map Prod.fst).indexOf s) a <
          (fun s => (xs.map Prod.fst).indexOf s) b →
        (cmpIdx l cmp a b = .gt ↔
          lexC (cmpIdx l cmp) (fun s => (xs.map Prod.fst).indexOf s) a b
            = .gt) :=
      fun a b h => lexC_agree _ _ h
    have hmono : ∀ p q, (hp : p < (xs.map Prod.fst).length) →
        (hq : q < (xs.map Prod.fst).length) → p < q →
        (fun s => (xs.map Prod.fst).indexOf s) ((xs.map Prod.fst)[p]) <
        (fun s => (xs.map Prod.fst).indexOf s) ((xs.map Prod.fst)[q]) := by
      intro p q hp hq hpq
      simp only
      rw [List.indexOf_getElem hnd p hp, List.indexOf_getElem hnd q hq]
      exact hpq
    have hinit : ∀ k,
        (((xs.map Prod.fst).drop (k * 1)).take 1).Perm
          (((xs.map Prod.fst).drop (k * 1)).take 1) ∧
        List.Chain' (leC (lexC (cmpIdx l cmp)
          (fun s => (xs.map Prod.fst).indexOf s)))
          (((xs.map Prod.fst).drop (k * 1)).take 1) := by
      intro k
      refine ⟨List.Perm.refl _, ?_⟩
      rcases hd : (xs.map Prod.fst).drop (k * 1) with _ | ⟨x, t⟩
      · simp
      · simp
    obtain ⟨hsperm, hschain⟩ := sortLoop_chunks (cmpIdx l cmp)
      (lexC (cmpIdx l cmp) (fun s => (xs.map Prod.fst).indexOf s)) hlaw
      (fun s => (xs.map Prod.fst).indexOf s) hagree
      ((xs.map Prod.fst).length - 1) 1 (xs.map Prod.fst)
      (xs.map Prod.fst) rfl (by omega) rfl hmono hinit
    have hswP : ∀ x y, x ∈ xs.map Prod.fst → y ∈ xs.map Prod.fst →
        cmpIdx l cmp x y = (cmpIdx l cmp y x).swap :=
      fun x y _ _ => hswI x y
    have htrP : ∀ x y z, x ∈ xs.map Prod.fst → y ∈ xs.map Prod.fst →
        z ∈ xs.map Prod.fst → cmpIdx l cmp x y ≠ .gt →
        cmpIdx l cmp y z ≠ .gt → cmpIdx l cmp x z ≠ .gt := by
      intro x y z hx hy hz hxy hyz
      obtain ⟨px, hpx, rfl⟩ := List.mem_map.1 hx
      obtain ⟨py, hpy, rfl⟩ := List.mem_map.1 hy
      obtain ⟨pz, hpz, rfl⟩ := List.mem_map.1 hz
      rw [cmpIdx_eval hinv hpx hpy cmp] at hxy
      rw [cmpIdx_eval hinv hpy hpz cmp] at hyz
      rw [cmpIdx_eval hinv hpx hpz cmp]
      exact htr _ _ _ hxy hyz
    have hpw : List.Pairwise
        (leC (lexC (cmpIdx l cmp)
          (fun s => (xs.map Prod.fst).indexOf s)))
        (sortLoop (cmpIdx l cmp) 1 (xs.map Prod.fst)) := by
      refine chain'_pairwise_on ?_ hschain
      intro a ha b hb d hd
      exact lexC_trans_on hswP htrP (hsperm.subset ha) (hsperm.subset hb)
        (hsperm.subset hd)
    refine ⟨xs', hinv', hperm, ?_, ?_⟩
    · have hpw2 := hpw
      rw [← hfst, List.pairwise_map] at hpw2
      have hpw3 : List.Pairwise
          (fun a b : Nat × T => cmp a.2 b.2 ≠ .gt) xs' := by
        refine hpw2.imp_of_mem ?_
        intro a b ha hb hR
        have haxs : a ∈ xs := hperm.subset ha
        have hbxs : b ∈ xs := hperm.subset hb
        rw [show leC (lexC (cmpIdx l cmp)
            (fun s => (xs.map Prod.fst).indexOf s)) a.1 b.1 =
          (lexC (cmpIdx l cmp)
            (fun s => (xs.map Prod.fst).indexOf s) a.1 b.1 ≠ .gt)
          from rfl, lexC_ne_gt, cmpIdx_eval hinv haxs hbxs cmp] at hR
        intro hgt
        rcases hR with h | ⟨h, _⟩ <;> rw [hgt] at h <;> simp at h
      exact hpw3.chain'
    · intro p q hp hq hpq heq
      have hpm : xs[p].1 ∈ xs.map Prod.fst :=
        List.mem_map.2 ⟨xs[p], List.getElem_mem _, rfl⟩
      have hqm : xs[q].1 ∈ xs.map Prod.fst :=
        List.mem_map.2 ⟨xs[q], List.getElem_mem _, rfl⟩
      have hpσ : xs[p].1 ∈ sortLoop (cmpIdx l cmp) 1 (xs.map Prod.fst) :=
        hsperm.mem_iff.2 hpm
      have hqσ : xs[q].1 ∈ sortLoop (cmpIdx l cmp) 1 (xs.map Prod.fst) :=
        hsperm.mem_iff.2 hqm
      rw [hfst]
      have hia : (sortLoop (cmpIdx l cmp) 1
          (xs.map Prod.fst)).indexOf (xs[p].1) <
          (sortLoop (cmpIdx l cmp) 1 (xs.map Prod.fst)).length :=
        List.indexOf_lt_length.2 hpσ
      have hib : (sortLoop (cmpIdx l cmp) 1
          (xs.map Prod.fst)).indexOf (xs[q].1) <
          (sortLoop (cmpIdx l cmp) 1 (xs.map Prod.fst)).length :=
        List.indexOf_lt_length.2 hqσ
      have hga := List.getElem_indexOf hia
      have hgb := List.getElem_indexOf hib
      have hne : xs[p].1 ≠ xs[q].1 := fst_ne_of_nodup hnd hp hq (by omega)
      rcases lt_trichotomy
        ((sortLoop (cmpIdx l cmp) 1 (xs.map Prod.fst)).indexOf (xs[p].1))
        ((sortLoop (cmpIdx l cmp) 1 (xs.map Prod.fst)).indexOf (xs[q].1))
        with hlt | hE | hgt2
      · exact hlt
      · exfalso
        apply hne
        have h2 : (sortLoop (cmpIdx l cmp) 1
            (xs.map Prod.fst))[(sortLoop (cmpIdx l cmp) 1
              (xs.map Prod.fst)).indexOf (xs[p].1)]? =
            (sortLoop (cmpIdx l cmp) 1
            (xs.map Prod.fst))[(sortLoop (cmpIdx l cmp) 1
              (xs.map Prod.fst)).indexOf (xs[q].1)]? := by rw [hE]
        rw [List.getElem?_eq_getElem hia,
          List.getElem?_eq_getElem hib] at h2
        simp only [Option.some.injEq] at h2
        exact hga.symm.trans (h2.trans hgb)
      · exfalso
        have hrel := (List.pairwise_iff_getElem.1 hpw) _ _ hib hia hgt2
        rw [hga, hgb] at hrel
        rw [show leC (lexC (cmpIdx l cmp)
            (fun s => (xs.map Prod.fst).indexOf s)) (xs[q].1) (xs[p].1) =
          (lexC (cmpIdx l cmp)
            (fun s => (xs.map Prod.fst).indexOf s) (xs[q].1) (xs[p].1)
            ≠ .gt) from rfl, lexC_ne_gt] at hrel
        have hev : cmpIdx l cmp (xs[q].1) (xs[p].1) = .eq := by
          rw [cmpIdx_eval hinv (List.getElem_mem _) (List.getElem_mem _)
            cmp]
          have := hsw (xs[p].2) (xs[q].2)
          rw [heq] at this
          exact ordSwap_eq.1 this.symm
        rcases hrel with h | ⟨_, hr⟩
        · rw [hev] at h
          simp at h
        · have hq2 : q < (xs.map Prod.fst).length := by simpa using hq
          have hp2 : p < (xs.map Prod.fst).length := by simpa using hp
          have e1 : (xs.map Prod.fst).indexOf (xs[q].1) = q := by
            have := List.indexOf_getElem hnd q hq2
            simpa using this
          have e2 : (xs.map Prod.fst).indexOf (xs[p].1) = p := by
            have := List.indexOf_getElem hnd p hp2
            simpa using this
          rw [e1, e2] at hr
          omega

/-- Closed witness for C3: the spec's stability example — values
`20, 10, 21, 11, 22` (tens digit is the sort key, units digit the original
order within equal keys) on a concrete five-element list, compared by the
tens digit only. -/
theorem claim_C3_witness :
    ListInv 5 [(0, 20), (1, 10), (2, 21), (3, 11), (4, 22)]
      ({ nodes := [some { value := 20, index := 0, prev := none,
                          next := some 1 },
                   some { value := 10, index := 1, prev := some 0,
                          next := some 2 },
                   some { value := 21, index := 2, prev := some 1,
                          next := some 3 },
                   some { value := 11, index := 3, prev := some 2,
                          next := some 4 },
                   some { value := 22, index := 4, prev := some 3,
                          next := none }],
         used := 31, len := 5, tail := some 4,
         head := some 0 } : SizedDoubleLinkedList Nat) ∧
    (∃ xs', ListInv 5 xs'
        (sort_by (fun a b => compare (a / 10) (b / 10))
          ({ nodes := [some { value := 20, index := 0, prev := none,
                              next := some 1 },
                       some { value := 10, index := 1, prev := some 0,
                              next := some 2 },
                       some { value := 21, index := 2, prev := some 1,
                              next := some 3 },
                       some { value := 11, index := 3, prev := some 2,
                              next := some 4 },
                       some { value := 22, index := 4, prev := some 3,
                              next := none }],
             used := 31, len := 5, tail := some 4,
             head := some 0 } : SizedDoubleLinkedList Nat)) ∧
      xs'.Perm [(0, 20), (1, 10), (2, 21), (3, 11), (4, 22)] ∧
      List.Chain' (fun a b : Nat × Nat =>
        compare (a.2 / 10) (b.2 / 10) ≠ .gt) xs' ∧
      ∀ p q,
        (hp : p < ([(0, 20), (1, 10), (2, 21), (3, 11), (4, 22)]
          : List (Nat × Nat)).length) →
        (hq : q < ([(0, 20), (1, 10), (2, 21), (3, 11), (4, 22)]
          : List (Nat × Nat)).length) → p < q →
        compare (([(0, 20), (1, 10), (2, 21), (3, 11),
            (4, 22)] : List (Nat × Nat))[p].2 / 10)
          (([(0, 20), (1, 10), (2, 21), (3, 11),
            (4, 22)] : List (Nat × Nat))[q].2 / 10) = .eq →
        (xs'.map Prod.fst).indexOf
            (([(0, 20), (1, 10), (2, 21), (3, 11),
              (4, 22)] : List (Nat × Nat))[p].1) <
          (xs'.map Prod.fst).indexOf
            (([(0, 20), (1, 10), (2, 21), (3, 11),
              (4, 22)] : List (Nat × Nat))[q].1)) :=
  ⟨by unfold ListInv; decide,
   @claim_C3 Nat 5 [(0, 20), (1, 10), (2, 21), (3, 11), (4, 22)]
     { nodes := [some { value := 20, index := 0, prev := none,
                        next := some 1 },
                 some { value := 10, index := 1, prev := some 0,
                        next := some 2 },
                 some { value := 21, index := 2, prev := some 1,
                        next := some 3 },
                 some { value := 11, index := 3, prev := some 2,
                        next := some 4 },
                 some { value := 22, index := 4, prev := some 3,
                        next := none }],
       used := 31, len := 5, tail := some 4, head := some 0 }
     (by unfold ListInv; decide) (fun a b => compare (a / 10) (b / 10))
     (fun x y => natCompare_symm (x / 10) (y / 10))
     (fun x y z => natCompare_le_trans (x / 10) (y / 10) (z / 10))⟩

/-- Source: the `while cmp(arr[i], pivot) == Ordering::Less { i += 1 }`
scan of the Hoare partition; reading past the slice end (a Rust panic) is
`none`. -/
def scanUp (c : Nat → Nat → Ordering) (piv : Nat) (arr : List Nat)
    (i : Nat) : Option Nat :=
  if h : i < arr.length then
    if c arr[i] piv = .lt then scanUp c piv arr (i + 1) else some i
  else none
termination_by arr.length - i

/-- Source: the `while cmp(arr[j], pivot) == Ordering::Greater` scan with
its `if j == 0 { break }` guard. -/
def scanDown (c : Nat → Nat → Ordering) (piv : Nat) (arr : List Nat)
    (j : Nat) : Option Nat :=
  if h : j < arr.length then
    if c arr[j] piv = .gt then
      if j = 0 then some 0 else scanDown c piv arr (j - 1)
    else some j
  else none
termination_by j

/-- Source: the `loop { … }` body of the Hoare `partition` helper: scan up,
scan down, return `j` when the cursors cross, otherwise swap and step both
cursors (with the `if j == 0 return 0` underflow guard); `fuel` bounds the
iteration count (`j` strictly decreases). -/
def partGo (c : Nat → Nat → Ordering) (piv : Nat) :
    Nat → List Nat → Nat → Nat → Option (List Nat × Nat)
  | 0, _, _, _ => none
  | fuel + 1, arr, i, j =>
    match scanUp c piv arr i with
    | none => none
    | some i2 =>
      match scanDown c piv arr j with
      | none => none
      | some j2 =>
        if i2 ≥ j2 then some (arr, j2)
        else
          let arr2 := (arr.set i2 (arr.getD j2 0)).set j2 (arr.getD i2 0)
          if j2 = 0 then some (arr2, 0)
          else partGo c piv fuel arr2 (i2 + 1) (j2 - 1)

/-- Source: `partition(arr, left, right, cmp)` — pivot value read from the
middle slot, then the swap loop. -/
def partition (c : Nat → Nat → Ordering) (arr : List Nat)
    (left right : Nat) : Option (List Nat × Nat) :=
  if (left + right) / 2 < arr.length then
    partGo c (arr.getD ((left + right) / 2) 0) (right + 1) arr left right
  else none

/-- Source: the `while left < right` quickselect loop of
`select_n_first_by` — narrow to the side holding `select_pos`, stopping
early when the pivot lands at slot `0`. -/
def qselGo (c : Nat → Nat → Ordering) :
    Nat → List Nat → Nat → Nat → Nat → Option (List Nat)
  | 0, _, _, _, _ => none
  | fuel + 1, arr, left, right, sp =>
    if left < right then
      match partition c arr left right with
      | none => none
      | some (arr2, p) =>
        if sp ≤ p then
          if p = 0 then some arr2
          else qselGo c fuel arr2 left p sp
        else qselGo c fuel arr2 (p + 1) right sp
    else some arr

/-- Source: the inner `while j > 0 && cmp(arr[j], arr[j-1]) == Less` bubble
of the final insertion sort. -/
def insGo (c : Nat → Nat → Ordering) : List Nat → Nat → List Nat
  | arr, 0 => arr
  | arr, j + 1 =>
    if c (arr.getD (j + 1) 0) (arr.getD j 0) = .lt then
      insGo c ((arr.set (j + 1) (arr.getD j 0)).set j
        (arr.getD (j + 1) 0)) j
    else arr

/-- Source: the `for i in 1..target` insertion sort over the first
`target` selected indices. -/
def insSortAux (c : Nat → Nat → Ordering) (target : Nat) :
    List Nat → Nat → List Nat
  | arr, i =>
    if i < target then insSortAux c target (insGo c arr i) (i + 1) else arr
termination_by _ i => target - i

/-- Source: no-std `select_n_first_by::<N>(compare)` — empty/zero shortcut,
gather the slot order, quickselect the `target = min(N, len)` smallest to
the front, insertion-sort that prefix, and emit `Some` for the first
`target` outputs and `None` for the rest.  `none` models a panic (slice
bounds) or a non-terminating run; the call never mutates the list (the
embedding returns only the output array). -/
def select_n_first_by (N : Nat) (cmp : T → T → Ordering)
    (l : SizedDoubleLinkedList T) : Option (List (Option T)) :=
  if l.len = 0 ∨ N = 0 then some (List.replicate N none)
  else
    let idxs := chainIdx l l.head l.len
    let target := min N l.len
    let afterSel :=
      if 1 < l.len then
        qselGo (cmpIdx l cmp) (l.len + 1) idxs 0 (l.len - 1) (target - 1)
      else some idxs
    match afterSel with
    | none => none
    | some arr =>
      let arr2 := if 1 < target then insSortAux (cmpIdx l cmp) target arr 1
        else arr
      some ((List.range N).map (fun k =>
        if k < target then
          (l.nodes.getD (arr2.getD k 0) none).map Node.value
        else none))

theorem scanUp_spec (c : Nat → Nat → Ordering) (piv : Nat)
    (arr : List Nat) :
    ∀ (i s : Nat), s < arr.length → i ≤ s →
      c (arr.getD s 0) piv ≠ .lt →
      ∃ i2, scanUp c piv arr i = some i2 ∧ i ≤ i2 ∧ i2 ≤ s ∧
        c (arr.getD i2 0) piv ≠ .lt ∧
        (∀ u, i ≤ u → u < i2 → c (arr.getD u 0) piv = .lt) := by
  have MAIN : ∀ (n i s : Nat), s - i = n → s < arr.length → i ≤ s →
      c (arr.getD s 0) piv ≠ .lt →
      ∃ i2, scanUp c piv arr i = some i2 ∧ i ≤ i2 ∧ i2 ≤ s ∧
        c (arr.getD i2 0) piv ≠ .lt ∧
        (∀ u, i ≤ u → u < i2 → c (arr.getD u 0) piv = .lt) := by
    intro n
    induction n using Nat.strong_induction_on with
    | _ n ih =>
      intro i s hn hs his hstop
      have hi : i < arr.length := by omega
      rw [scanUp, dif_pos hi]
      by_cases hlt : c arr[i] piv = .lt
      · have hne : i ≠ s := by
          intro he
          rw [← List.getD_eq_getElem arr 0 hi, he] at hlt
          exact hstop hlt
        rw [if_pos hlt]
        obtain ⟨i2, h1, h2, h3, h4, h5⟩ := ih (s - (i + 1)) (by omega)
          (i + 1) s rfl hs (by omega) hstop
        refine ⟨i2, h1, by omega, h3, h4, ?_⟩
        intro u hu1 hu2
        rcases Nat.eq_or_lt_of_le hu1 with he | hlt2
        · rw [← he, List.getD_eq_getElem arr 0 hi]
          exact hlt
        · exact h5 u (by omega) hu2
      · rw [if_neg hlt]
        refine ⟨i, rfl, le_refl i, his, ?_, ?_⟩
        · rw [List.getD_eq_getElem arr 0 hi]
          exact hlt
        · intro u hu1 hu2
          omega
  intro i s h1 h2 h3
  exact MAIN (s - i) i s rfl h1 h2 h3

theorem scanDown_spec (c : Nat → Nat → Ordering) (piv : Nat)
    (arr : List Nat) :
    ∀ (j t : Nat), j < arr.length → t ≤ j →
      c (arr.getD t 0) piv ≠ .gt →
      ∃ j2, scanDown c piv arr j = some j2 ∧ t ≤ j2 ∧ j2 ≤ j ∧
        c (arr.getD j2 0) piv ≠ .gt ∧
        (∀ v, j2 < v → v ≤ j → c (arr.getD v 0) piv = .gt) := by
  intro j
  induction j using Nat.strong_induction_on with
  | _ j ih =>
    intro t hj htj hstop
    rw [scanDown, dif_pos hj]
    by_cases hgt : c arr[j] piv = .gt
    · have hne : t ≠ j := by
        intro he
        rw [he, List.getD_eq_getElem arr 0 hj] at hstop
        exact hstop hgt
      rw [if_pos hgt, if_neg (show ¬ j = 0 by omega)]
      obtain ⟨j2, h1, h2, h3, h4, h5⟩ := ih (j - 1) (by omega) t
        (by omega) (by omega) hstop
      refine ⟨j2, h1, h2, by omega, h4, ?_⟩
      intro v hv1 hv2
      rcases Nat.eq_or_lt_of_le hv2 with he | hlt2
      · rw [he, List.getD_eq_getElem arr 0 hj]
        exact hgt
      · exact h5 v hv1 (by omega)
    · rw [if_neg hgt]
      refine ⟨j, rfl, htj, le_refl j, ?_, ?_⟩
      · rw [List.getD_eq_getElem arr 0 hj]
        exact hgt
      · intro v hv1 hv2
        omega

theorem swap_perm {arr : List Nat} {a b : Nat} (hab : a < b)
    (hb : b < arr.length) :
    ((arr.set a (arr.getD b 0)).set b (arr.getD a 0)).Perm arr := by
  have ha : a < arr.length := by omega
  have hD : a + 1 + (b - a - 1) = b := by omega
  have hDlen : b - a - 1 < (arr.drop (a + 1)).length := by
    simp [List.length_drop]
    omega
  have harr : arr = arr.take a ++ arr.getD a 0 ::
      ((arr.drop (a + 1)).take (b - a - 1) ++ arr.getD b 0 ::
        arr.drop (b + 1)) := by
    conv_lhs => rw [← List.take_append_drop a arr]
    rw [List.drop_eq_getElem_cons ha, ← List.getD_eq_getElem arr 0 ha]
    congr 1
    congr 1
    conv_lhs => rw [← List.take_append_drop (b - a - 1) (arr.drop (a + 1))]
    congr 1
    rw [List.drop_drop, hD, List.drop_eq_getElem_cons hb,
      ← List.getD_eq_getElem arr 0 hb]
  have hswap : (arr.set a (arr.getD b 0)).set b (arr.getD a 0) =
      arr.take a ++ arr.getD b 0 ::
        ((arr.drop (a + 1)).take (b - a - 1) ++ arr.getD a 0 ::
          arr.drop (b + 1)) := by
    rw [List.set_eq_take_cons_drop _ ha, List.set_append,
      if_neg (by simp [List.length_take]; omega)]
    congr 1
    have hba : b - a.min arr.length = b - a - 1 + 1 := by
      have hmin : a.min arr.length = a := Nat.min_eq_left (le_of_lt ha)
      rw [hmin]
      omega
    rw [List.length_take, hba, List.set_cons_succ]
    congr 1
    rw [List.set_eq_take_cons_drop _ hDlen]
    congr 2
    rw [List.drop_drop, show a + 1 + (b - a - 1 + 1) = b + 1 by omega]
  rw [hswap]
  conv_rhs => rw [harr]
  refine List.Perm.append_left _ ?_
  refine List.Perm.trans (List.Perm.cons _ List.perm_middle) ?_
  refine List.Perm.trans (List.Perm.swap _ _ _) ?_
  exact List.Perm.cons _ List.perm_middle.symm

theorem swap_perm' {arr : List Nat} {a b : Nat} (hab : a ≠ b)
    (ha : a < arr.length) (hb : b < arr.length) :
    ((arr.set a (arr.getD b 0)).set b (arr.getD a 0)).Perm arr := by
  rcases Nat.lt_or_ge a b with h | h
  · exact swap_perm h hb
  · have hba : b < a := by omega
    rw [List.set_comm _ _ _ hab]
    exact swap_perm hba ha

theorem getD_set_self {α : Type} (ns : List α) {a : Nat} (x d : α)
    (h : a < ns.length) : (ns.set a x).getD a d = x := by
  rw [List.getD_eq_getElem?_getD, List.getElem?_set_self h]
  rfl

/-- Hoare partition loop: under the classic two-region invariant with
explicit stopper witnesses the loop returns, permutes only the segment, and
splits it at the returned index into not-Greater-than-pivot and
not-Less-than-pivot parts. -/
theorem partGo_spec (c : Nat → Nat → Ordering) (piv : Nat)
    {left right : Nat} :
    ∀ (fuel : Nat) (arr : List Nat) (i j s t : Nat),
      j < fuel →
      right < arr.length →
      left ≤ i → i ≤ j + 1 → j ≤ right →
      (∀ u, left ≤ u → u < i → c (arr.getD u 0) piv ≠ .gt) →
      (∀ v, j < v → v ≤ right → c (arr.getD v 0) piv ≠ .lt) →
      i ≤ s → s ≤ right → c (arr.getD s 0) piv ≠ .lt →
      left ≤ t → t ≤ j → c (arr.getD t 0) piv ≠ .gt →
      ∃ arr2 p, partGo c piv fuel arr i j = some (arr2, p) ∧
        arr2.length = arr.length ∧ arr2.Perm arr ∧
        (∀ u, u < left → arr2.getD u 0 = arr.getD u 0) ∧
        (∀ u, right < u → arr2.getD u 0 = arr.getD u 0) ∧
        left ≤ p ∧ p ≤ j ∧ (p < right ∨ p ≤ s) ∧
        (∀ u, left ≤ u → u ≤ p → c (arr2.getD u 0) piv ≠ .gt) ∧
        (∀ v, p < v → v ≤ right → c (arr2.getD v 0) piv ≠ .lt) := by
  intro fuel
  induction fuel with
  | zero =>
    intro arr i j s t hfuel
    omega
  | succ fuel ih =>
    intro arr i j s t hfuel hr hli hij hjr hlow hhigh hs1 hs2 hs3 ht1 ht2
      ht3
    have hslen : s < arr.length := by omega
    have htlen : t < arr.length := by omega
    obtain ⟨i2, hu1, hu2, hu3, hu4, hu5⟩ :=
      scanUp_spec c piv arr i s hslen hs1 hs3
    obtain ⟨j2, hd1, hd2, hd3, hd4, hd5⟩ :=
      scanDown_spec c piv arr j t (by omega) ht2 ht3
    rw [partGo]
    simp only [hu1, hd1]
    by_cases hcross : i2 ≥ j2
    · rw [if_pos hcross]
      refine ⟨arr, j2, rfl, rfl, List.Perm.refl arr, fun u _ => rfl,
        fun u _ => rfl, by omega, by omega, Or.inr (by omega), ?_, ?_⟩
      · intro u hu hup
        by_cases huc : u < i
        · exact hlow u hu huc
        · by_cases huc2 : u < i2
          · rw [hu5 u (by omega) huc2]
            simp
          · have : u = i2 ∧ u = j2 := by omega
            rw [this.2]
            exact hd4
      · intro v hv1 hv2
        by_cases hvc : v ≤ j
        · rw [hd5 v hv1 hvc]
          simp
        · exact hhigh v (by omega) hv2
    · rw [if_neg hcross]
      push_neg at hcross
      have hj2 : j2 ≠ 0 := by omega
      rw [if_neg hj2]
      have hi2len : i2 < arr.length := by omega
      have hj2len : j2 < arr.length := by omega
      have hswl : ((arr.set i2 (arr.getD j2 0)).set j2
          (arr.getD i2 0)).length = arr.length := by
        simp
      have hgA : ((arr.set i2 (arr.getD j2 0)).set j2
          (arr.getD i2 0)).getD i2 0 = arr.getD j2 0 := by
        rw [getD_set_ne _ _ _ (by omega), getD_set_self _ _ _ hi2len]
      have hgB : ((arr.set i2 (arr.getD j2 0)).set j2
          (arr.getD i2 0)).getD j2 0 = arr.getD i2 0 :=
        getD_set_self _ _ _ (by simp [hj2len])
      have hgO : ∀ u, u ≠ i2 → u ≠ j2 →
          ((arr.set i2 (arr.getD j2 0)).set j2
            (arr.getD i2 0)).getD u 0 = arr.getD u 0 := by
        intro u hua hub
        rw [getD_set_ne _ _ _ (Ne.symm hub), getD_set_ne _ _ _
          (Ne.symm hua)]
      obtain ⟨arr3, p, hp1, hp2, hp3, hp4, hp5, hp6, hp7, hp8, hp9, hp10⟩ :=
        ih ((arr.set i2 (arr.getD j2 0)).set j2 (arr.getD i2 0))
          (i2 + 1) (j2 - 1) j2 i2 (by omega) (by omega) (by omega)
          (by omega) (by omega)
          (by
            intro u hu hup
            by_cases huc : u = i2
            · subst huc
              rw [hgA]
              exact hd4
            · rw [hgO u huc (by omega)]
              by_cases huc2 : u < i
              · exact hlow u hu huc2
              · rw [hu5 u (by omega) (by omega)]
                simp)
          (by
            intro v hv1 hv2
            by_cases hvc : v = j2
            · subst hvc
              rw [hgB]
              exact hu4
            · rw [hgO v (by omega) hvc]
              by_cases hvc2 : v ≤ j
              · rw [hd5 v (by omega) hvc2]
                simp
              · exact hhigh v (by omega) hv2)
          (by omega) (by omega) (by rw [hgB]; exact hu4)
          (by omega) (by omega) (by rw [hgA]; exact hd4)
      refine ⟨arr3, p, hp1, by rw [hp2, hswl], ?_, ?_, ?_, by omega,
        by omega, Or.inl (by omega), hp9, ?_⟩
      · exact hp3.trans (swap_perm' (by omega) hi2len hj2len)
      · intro u hu
        rw [hp4 u hu, hgO u (by omega) (by omega)]
      · intro u hu
        rw [hp5 u hu, hgO u (by omega) (by omega)]
      · intro v hv1 hv2
        exact hp10 v hv1 hv2

theorem partition_spec (c : Nat → Nat → Ordering) {arr : List Nat}
    {left right : Nat} (hlr : left < right) (hr : right < arr.length)
    (hrefl : c (arr.getD ((left + right) / 2) 0)
      (arr.getD ((left + right) / 2) 0) = .eq) :
    ∃ arr2 p, partition c arr left right = some (arr2, p) ∧
      arr2.length = arr.length ∧ arr2.Perm arr ∧
      (∀ u, u < left → arr2.getD u 0 = arr.getD u 0) ∧
      (∀ u, right < u → arr2.getD u 0 = arr.getD u 0) ∧
      left ≤ p ∧ p < right ∧
      (∀ u, left ≤ u → u ≤ p →
        c (arr2.getD u 0) (arr.getD ((left + right) / 2) 0) ≠ .gt) ∧
      (∀ v, p < v → v ≤ right →
        c (arr2.getD v 0) (arr.getD ((left + right) / 2) 0) ≠ .lt) := by
  have hmid1 : left ≤ (left + right) / 2 := by omega
  have hmid2 : (left + right) / 2 < right := by omega
  obtain ⟨arr2, p, h1, h2, h3, h4, h5, h6, h7, h8, h9, h10⟩ :=
    partGo_spec c (arr.getD ((left + right) / 2) 0) (right + 1) arr left
      right ((left + right) / 2) ((left + right) / 2) (by omega)
      hr (le_refl left) (by omega) (le_refl right)
      (by intro u hu hup; omega)
      (by intro v hv1 hv2; omega)
      (by omega) (by omega) (by rw [hrefl]; simp)
      (by omega) (by omega) (by rw [hrefl]; simp)
  refine ⟨arr2, p, ?_, h2, h3, h4, h5, h6, ?_, h9, h10⟩
  · rw [partition, if_pos (by omega)]
    exact h1
  · rcases h8 with h | h <;> omega

/-- The quickselect loop: maintains that the array is a permutation of the
original with everything before `left` not-Greater than everything from
`left` on, and everything up to `right` not-Greater than everything after
`right`; at exit the first `sp + 1` entries are the `sp + 1` smallest. -/
theorem qselGo_spec (c : Nat → Nat → Ordering)
    (hsw : ∀ x y, c x y = (c y x).swap) :
    ∀ (fuel : Nat) (arr : List Nat) (left right sp : Nat),
      (∀ x ∈ arr, ∀ y ∈ arr, ∀ z ∈ arr,
        c x y ≠ .gt → c y z ≠ .gt → c x z ≠ .gt) →
      right - left < fuel →
      right < arr.length → left ≤ sp → sp ≤ right →
      (∀ x ∈ arr.take left, ∀ y ∈ arr.drop left, c x y ≠ .gt) →
      (∀ x ∈ arr.take (right + 1), ∀ y ∈ arr.drop (right + 1),
        c x y ≠ .gt) →
      ∃ arr2, qselGo c fuel arr left right sp = some arr2 ∧
        arr2.length = arr.length ∧ arr2.Perm arr ∧
        (∀ x ∈ arr2.take (sp + 1), ∀ y ∈ arr2.drop (sp + 1),
          c x y ≠ .gt) := by
  intro fuel
  induction fuel with
  | zero =>
    intro arr left right sp _ hfuel
    omega
  | succ fuel ih =>
    intro arr left right sp htr hfuel hr hlsp hspr hsep1 hsep2
    rw [qselGo]
    by_cases hlr : left < right
    · rw [if_pos hlr]
      have hmidlen : (left + right) / 2 < arr.length := by omega
      have hrefl : c (arr.getD ((left + right) / 2) 0)
          (arr.getD ((left + right) / 2) 0) = .eq := by
        have hq := hsw (arr.getD ((left + right) / 2) 0)
          (arr.getD ((left + right) / 2) 0)
        rcases hv : c (arr.getD ((left + right) / 2) 0)
            (arr.getD ((left + right) / 2) 0) with _ | _ | _
        · rw [hv] at hq
          exact absurd hq (by decide)
        · rfl
        · rw [hv] at hq
          exact absurd hq (by decide)
      obtain ⟨arr2, p, h1, h2, h3, h4, h5, h6, h7, h8, h9⟩ :=
        partition_spec c hlr hr hrefl
      simp only [h1]
      have htk : ∀ m, m ≤ left → arr2.take m = arr.take m := by
        intro m hm
        apply List.ext_getElem (by simp [h2])
        intro u hu1 hu2
        have hul : u < m := by
          simp at hu1
          omega
        have hua : u < arr.length := by
          simp at hu2
          omega
        rw [List.getElem_take, List.getElem_take]
        rw [← List.getD_eq_getElem arr2 0 (by omega),
          ← List.getD_eq_getElem arr 0 hua]
        exact h4 u (by omega)
      have hdropPerm : ∀ m, m ≤ left →
          (arr2.drop m).Perm (arr.drop m) := by
        intro m hm
        have hp := h3
        rw [← List.take_append_drop m arr2, ← List.take_append_drop m arr,
          htk m hm] at hp
        exact (List.perm_append_left_iff _).1 hp
      have hdr : arr2.drop (right + 1) = arr.drop (right + 1) := by
        apply List.ext_getElem (by simp [h2])
        intro u hu1 hu2
        have hua : right + 1 + u < arr.length := by
          simp at hu2
          omega
        rw [List.getElem_drop, List.getElem_drop,
          ← List.getD_eq_getElem arr2 0 (by omega),
          ← List.getD_eq_getElem arr 0 hua]
        exact h5 _ (by omega)
      have htkPerm : (arr2.take (right + 1)).Perm (arr.take (right + 1))
          := by
        have hp := h3
        rw [← List.take_append_drop (right + 1) arr2,
          ← List.take_append_drop (right + 1) arr, hdr] at hp
        exact (List.perm_append_right_iff _).1 hp
      have hsegLow : ∀ x ∈ (arr2.drop left).take (p + 1 - left),
          c x (arr.getD ((left + right) / 2) 0) ≠ .gt := by
        intro x hx
        obtain ⟨q, hq, hqe⟩ := List.mem_iff_getElem.1 hx
        have hq2 : q < p + 1 - left := by
          have := hq
          simp [List.length_take, List.length_drop] at this
          omega
        have hq3 : left + q < arr2.length := by
          have := hq
          simp [List.length_take, List.length_drop] at this
          omega
        rw [← hqe, List.getElem_take, List.getElem_drop,
          ← List.getD_eq_getElem arr2 0 (by omega)]
        exact h8 _ (by omega) (by omega)
      have hsegHigh : ∀ y ∈ (arr2.drop (p + 1)).take (right - p),
          c (arr.getD ((left + right) / 2) 0) y ≠ .gt := by
        intro y hy
        obtain ⟨q, hq, hqe⟩ := List.mem_iff_getElem.1 hy
        have hq2 : q < right - p := by
          have := hq
          simp [List.length_take, List.length_drop] at this
          omega
        have hq3 : p + 1 + q < arr2.length := by
          have := hq
          simp [List.length_take, List.length_drop] at this
          omega
        rw [← hqe, List.getElem_take, List.getElem_drop,
          ← List.getD_eq_getElem arr2 0 (by omega)]
        intro hgt
        have h9v := h9 (p + 1 + q) (by omega) (by omega)
        have hx := hsw (arr2.getD (p + 1 + q) 0)
          (arr.getD ((left + right) / 2) 0)
        rw [hgt] at hx
        exact h9v hx
      have hSPLIT : ∀ x ∈ arr2.take (p + 1), ∀ y ∈ arr2.drop (p + 1),
          c x y ≠ .gt := by
        intro x hx y hy
        have hmx : x ∈ arr := h3.subset (List.mem_of_mem_take hx)
        have hmy : y ∈ arr := h3.subset (List.mem_of_mem_drop hy)
        have hmpiv : arr.getD ((left + right) / 2) 0 ∈ arr := by
          rw [List.getD_eq_getElem arr 0 hmidlen]
          exact List.getElem_mem hmidlen
        have hxdec : arr2.take (p + 1) =
            arr2.take left ++ (arr2.drop left).take (p + 1 - left) := by
          rw [← List.take_add, show left + (p + 1 - left) = p + 1 by omega]
        have hydec : arr2.drop (p + 1) =
            (arr2.drop (p + 1)).take (right - p) ++
              arr2.drop (right + 1) := by
          conv_lhs => rw [← List.take_append_drop (right - p)
            (arr2.drop (p + 1))]
          rw [List.drop_drop, show p + 1 + (right - p) = right + 1
            by omega]
        rw [hxdec] at hx
        rw [hydec] at hy
        rcases List.mem_append.1 hx with hx1 | hx2
        · -- x is left of `left`: dominated by everything from `left` on
          have hx3 : x ∈ arr.take left := by
            rw [← htk left (le_refl left)]
            exact hx1
          have hy2 : y ∈ arr2.drop left := by
            rcases List.mem_append.1 hy with hy1 | hy1
            · have := List.mem_of_mem_take hy1
              have h := List.mem_of_mem_drop
                (show y ∈ (arr2.drop left).drop (p + 1 - left) from by
                  rw [List.drop_drop,
                    show left + (p + 1 - left) = p + 1 by omega]
                  exact this)
              exact h
            · have := List.mem_of_mem_drop
                (show y ∈ (arr2.drop left).drop (right + 1 - left) from by
                  rw [List.drop_drop,
                    show left + (right + 1 - left) = right + 1 by omega]
                  exact hy1)
              exact this
          exact hsep1 x hx3 y ((hdropPerm left (le_refl left)).subset hy2)
        · -- x is in the low part of the partitioned segment
          have hxp : c x (arr.getD ((left + right) / 2) 0) ≠ .gt :=
            hsegLow x hx2
          rcases List.mem_append.1 hy with hy1 | hy1
          · exact htr x hmx _ hmpiv y hmy hxp (hsegHigh y hy1)
          · -- y beyond `right`: use the outer separation
            have hxtk : x ∈ arr.take (right + 1) := by
              refine htkPerm.subset ?_
              have : x ∈ (arr2.take (right + 1)).take (p + 1) := by
                rw [List.take_take, show min (p + 1) (right + 1) = p + 1
                  by omega, hxdec]
                exact List.mem_append.2 (Or.inr hx2)
              exact List.mem_of_mem_take this
            rw [hdr] at hy1
            exact hsep2 x hxtk y hy1
      by_cases hsp : sp ≤ p
      · rw [if_pos hsp]
        by_cases hp0 : p = 0
        · rw [if_pos hp0]
          refine ⟨arr2, rfl, h2, h3, ?_⟩
          have hsp0 : sp = 0 := by omega
          rw [hsp0]
          rw [hp0] at hSPLIT
          exact hSPLIT
        · rw [if_neg hp0]
          obtain ⟨arr3, hq1, hq2, hq3, hq4⟩ := ih arr2 left p sp
            (fun x hx y hy z hz => htr x (h3.subset hx) y (h3.subset hy)
              z (h3.subset hz))
            (by omega) (by omega) hlsp hsp
            (by
              intro x hx y hy
              have hx2 : x ∈ arr.take left := by
                rw [← htk left (le_refl left)]
                exact hx
              exact hsep1 x hx2 y
                ((hdropPerm left (le_refl left)).subset hy))
            hSPLIT
          exact ⟨arr3, hq1, by rw [hq2, h2], hq3.trans h3, hq4⟩
      · rw [if_neg hsp]
        obtain ⟨arr3, hq1, hq2, hq3, hq4⟩ := ih arr2 (p + 1) right sp
          (fun x hx y hy z hz => htr x (h3.subset hx) y (h3.subset hy)
            z (h3.subset hz))
          (by omega) (by omega) (by omega) hspr hSPLIT
          (by
            intro x hx y hy
            rw [hdr] at hy
            exact hsep2 x (htkPerm.subset hx) y hy)
        exact ⟨arr3, hq1, by rw [hq2, h2], hq3.trans h3, hq4⟩
    · rw [if_neg hlr]
      refine ⟨arr, rfl, rfl, List.Perm.refl arr, ?_⟩
      intro x hx y hy
      have hsp : sp = left := by omega
      have hsp2 : sp = right := by omega
      rw [hsp2] at hx hy
      exact hsep2 x hx y hy

theorem getD_take {arr : List Nat} {u m : Nat} (h : u < m) :
    (arr.take m).getD u 0 = arr.getD u 0 := by
  rw [List.getD_eq_getElem?_getD, List.getD_eq_getElem?_getD,
    List.getElem?_take_of_lt h]

theorem swap_take_perm {arr : List Nat} {a b m : Nat} (hab : a ≠ b)
    (ha : a < m) (hb : b < m) (hm : m ≤ arr.length) :
    (((arr.set a (arr.getD b 0)).set b (arr.getD a 0)).take m).Perm
      (arr.take m) := by
  have hlen : (arr.take m).length = m := by
    simp
    omega
  rw [List.set_take, List.set_take, ← getD_take hb, ← getD_take ha]
  exact swap_perm' hab (by omega) (by omega)

/-- Bubbling pass of the insertion sort: starting with the moving element
at position `k`, a sorted prefix strictly below it, a sorted run above it
up to `i`, and a bridge comparison over the hole, the pass terminates with
positions `0..i` consecutively sorted, positions beyond `i` untouched, and
the first `i + 1` entries a permutation of their old contents. -/
theorem insGo_spec (c : Nat → Nat → Ordering)
    (hsw : ∀ x y, c x y = (c y x).swap) :
    ∀ (k : Nat) (arr : List Nat) (i : Nat),
      k ≤ i → i < arr.length →
      (∀ u, u + 1 < k → c (arr.getD u 0) (arr.getD (u + 1) 0) ≠ .gt) →
      (∀ u, k < u → u + 1 ≤ i →
        c (arr.getD u 0) (arr.getD (u + 1) 0) ≠ .gt) →
      (k < i → c (arr.getD k 0) (arr.getD (k + 1) 0) ≠ .gt) →
      (0 < k → k < i →
        c (arr.getD (k - 1) 0) (arr.getD (k + 1) 0) ≠ .gt) →
      (insGo c arr k).length = arr.length ∧
      (∀ u, i < u → (insGo c arr k).getD u 0 = arr.getD u 0) ∧
      ((insGo c arr k).take (i + 1)).Perm (arr.take (i + 1)) ∧
      (∀ u, u + 1 ≤ i →
        c ((insGo c arr k).getD u 0) ((insGo c arr k).getD (u + 1) 0)
          ≠ .gt) := by
  intro k
  induction k with
  | zero =>
    intro arr i hk hi ha hb hd hc
    refine ⟨rfl, fun u _ => rfl, List.Perm.refl _, ?_⟩
    intro u hu
    rcases Nat.eq_zero_or_pos u with h0 | h0
    · subst h0
      exact hd (by omega)
    · exact hb u (by omega) hu
  | succ j ih =>
    intro arr i hk hi ha hb hd hc
    rw [insGo]
    by_cases hcmp : c (arr.getD (j + 1) 0) (arr.getD j 0) = .lt
    · rw [if_pos hcmp]
      have hjlen : j < arr.length := by omega
      have hj1len : j + 1 < arr.length := by omega
      have hg1 : ((arr.set (j + 1) (arr.getD j 0)).set j
          (arr.getD (j + 1) 0)).getD j 0 = arr.getD (j + 1) 0 :=
        getD_set_self _ _ _ (by simp [hjlen])
      have hg2 : ((arr.set (j + 1) (arr.getD j 0)).set j
          (arr.getD (j + 1) 0)).getD (j + 1) 0 = arr.getD j 0 := by
        rw [getD_set_ne _ _ _ (by omega), getD_set_self _ _ _ hj1len]
      have hgO : ∀ u, u ≠ j → u ≠ j + 1 →
          ((arr.set (j + 1) (arr.getD j 0)).set j
            (arr.getD (j + 1) 0)).getD u 0 = arr.getD u 0 := by
        intro u h1 h2
        rw [getD_set_ne _ _ _ (Ne.symm h1), getD_set_ne _ _ _
          (Ne.symm h2)]
      obtain ⟨hL, hO, hP, hS⟩ :=
        ih ((arr.set (j + 1) (arr.getD j 0)).set j (arr.getD (j + 1) 0))
          i (by omega) (by simpa using hi)
          (by
            intro u hu
            rw [hgO u (by omega) (by omega),
              hgO (u + 1) (by omega) (by omega)]
            exact ha u (by omega))
          (by
            intro u hu1 hu2
            by_cases huj : u = j + 1
            · subst huj
              rw [hg2, hgO (j + 1 + 1) (by omega) (by omega)]
              exact hc (by omega) (by omega)
            · rw [hgO u (by omega) (by omega),
                hgO (u + 1) (by omega) (by omega)]
              exact hb u (by omega) hu2)
          (by
            intro _
            rw [hg1, hg2, hcmp]
            simp)
          (by
            intro h0 hji
            rw [hgO (j - 1) (by omega) (by omega), hg2]
            have h := ha (j - 1) (by omega)
            rw [show j - 1 + 1 = j by omega] at h
            exact h)
      refine ⟨by rw [hL]; simp, ?_, ?_, hS⟩
      · intro u hu
        rw [hO u hu, hgO u (by omega) (by omega)]
      · refine hP.trans ?_
        exact swap_take_perm (by omega) (by omega) (by omega) (by omega)
    · rw [if_neg hcmp]
      refine ⟨rfl, fun u _ => rfl, List.Perm.refl _, ?_⟩
      intro u hu
      by_cases huj : u = j
      · intro hgt
        rw [huj] at hgt
        have hx := hsw (arr.getD (j + 1) 0) (arr.getD j 0)
        rw [hgt] at hx
        exact hcmp hx
      · by_cases huj2 : u = j + 1
        · subst huj2
          exact hd (by omega)
        · rcases Nat.lt_or_ge u j with hul | hug
          · exact ha u (by omega)
          · exact hb u (by omega) hu

/-- The outer insertion-sort loop: starting at index `i` with positions
`0..i-1` already consecutively sorted, the loop leaves the array with its
first `target` entries consecutively sorted and a permutation of their old
contents, every entry from `target` on untouched, and the length kept. -/
theorem insSortAux_spec (c : Nat → Nat → Ordering)
    (hsw : ∀ x y, c x y = (c y x).swap) (target : Nat) :
    ∀ (n i : Nat) (arr : List Nat), target - i ≤ n →
      target ≤ arr.length →
      (∀ u, u + 1 < i → c (arr.getD u 0) (arr.getD (u + 1) 0) ≠ .gt) →
      (insSortAux c target arr i).length = arr.length ∧
      (∀ u, target ≤ u → (insSortAux c target arr i).getD u 0 =
        arr.getD u 0) ∧
      ((insSortAux c target arr i).take target).Perm (arr.take target) ∧
      (∀ u, u + 1 < target →
        c ((insSortAux c target arr i).getD u 0)
          ((insSortAux c target arr i).getD (u + 1) 0) ≠ .gt) := by
  intro n
  induction n with
  | zero =>
    intro i arr hn htl hsorted
    rw [insSortAux, if_neg (by omega)]
    exact ⟨rfl, fun u _ => rfl, List.Perm.refl _, fun u hu =>
      hsorted u (by omega)⟩
  | succ n ihn =>
    intro i arr hn htl hsorted
    by_cases hit : i < target
    · rw [insSortAux, if_pos hit]
      obtain ⟨hL, hO, hP, hS⟩ := insGo_spec c hsw i arr i (le_refl i)
        (by omega) hsorted
        (by
          intro u hu1 hu2
          exact absurd hu2 (by omega))
        (by
          intro h
          exact absurd h (by omega))
        (by
          intro _ h
          exact absurd h (by omega))
      obtain ⟨jL, jO, jP, jS⟩ := ihn (i + 1) (insGo c arr i) (by omega)
        (by rw [hL]; exact htl)
        (fun u hu => hS u (by omega))
      have hseg : ((insGo c arr i).drop (i + 1)).take (target - (i + 1)) =
          (arr.drop (i + 1)).take (target - (i + 1)) := by
        apply List.ext_getElem (by simp [hL])
        intro q hq1 hq2
        have hq3 : i + 1 + q < (insGo c arr i).length := by
          simp at hq1
          omega
        have hq4 : i + 1 + q < arr.length := by
          simp at hq2
          omega
        rw [List.getElem_take, List.getElem_drop, List.getElem_take,
          List.getElem_drop, ← List.getD_eq_getElem _ 0 hq3,
          ← List.getD_eq_getElem arr 0 hq4]
        exact hO (i + 1 + q) (by omega)
      have htp : ((insGo c arr i).take target).Perm (arr.take target)
          := by
        have h1 : (insGo c arr i).take target =
            (insGo c arr i).take (i + 1) ++
              ((insGo c arr i).drop (i + 1)).take (target - (i + 1)) := by
          rw [← List.take_add, show i + 1 + (target - (i + 1)) = target
            by omega]
        have h2 : arr.take target =
            arr.take (i + 1) ++
              (arr.drop (i + 1)).take (target - (i + 1)) := by
          rw [← List.take_add, show i + 1 + (target - (i + 1)) = target
            by omega]
        rw [h1, h2, hseg]
        exact hP.append_right _
      refine ⟨jL.trans hL, ?_, jP.trans htp, jS⟩
      intro u hu
      rw [jO u hu, hO u (by omega)]
    · rw [insSortAux, if_neg hit]
      exact ⟨rfl, fun u _ => rfl, List.Perm.refl _, fun u hu =>
        hsorted u (by omega)⟩

theorem chain'_imp_mem {α : Type} {R S : α → α → Prop} :
    ∀ {l : List α}, (∀ a ∈ l, ∀ b ∈ l, R a b → S a b) →
      List.Chain' R l → List.Chain' S l := by
  intro l
  induction l with
  | nil =>
    intro _ _
    exact List.chain'_nil
  | cons x t ih =>
    intro himp hch
    rcases ht : t with _ | ⟨y, t2⟩
    · exact List.chain'_singleton x
    · subst ht
      rw [List.chain'_cons] at hch ⊢
      refine ⟨himp x (by simp) y (by simp) hch.1, ?_⟩
      exact ih (fun a ha b hb => himp a (List.mem_cons_of_mem _ ha)
        b (List.mem_cons_of_mem _ hb)) hch.2

/-- C7: on a well-formed arena list and for a lawful comparator
(antisymmetric via `swap`, transitive on not-`gt`), the no-std
`select_n_first_by N cmp` runs without panicking and returns an
`N`-entry array: its first `min(N, len)` entries are `some` of the
`min(N, len)` smallest values — a block `kept` that, together with some
`rest`, permutes the list's value sequence, is consecutively sorted
ascending under `cmp`, and is dominated by nothing in `rest` — and every
remaining entry is `none`.  The list itself is untouched: the embedded
call is pure, mirroring the `&self` receiver. -/
theorem claim_C7 {K : Nat} {xs : List (Nat × T)}
    {l : SizedDoubleLinkedList T} (hinv : ListInv K xs l) (N : Nat)
    (cmp : T → T → Ordering)
    (hsw : ∀ x y, cmp x y = (cmp y x).swap)
    (htr : ∀ x y z, cmp x y ≠ .gt → cmp y z ≠ .gt → cmp x z ≠ .gt) :
    ∃ kept rest : List T,
      select_n_first_by N cmp l =
        some (kept.map some ++ List.replicate (N - min N l.len) none) ∧
      kept.length = min N l.len ∧
      (xs.map Prod.snd).Perm (kept ++ rest) ∧
      List.Chain' (fun a b => cmp a b ≠ .gt) kept ∧
      (∀ x ∈ kept, ∀ y ∈ rest, cmp x y ≠ .gt) := by
  have hlen : l.len = xs.length := hinv.2.2.1
  have hnd : (xs.map Prod.fst).Nodup := hinv.2.2.2.2.1
  by_cases hcase : l.len = 0 ∨ N = 0
  · have ht0 : min N l.len = 0 := by
      rcases hcase with h | h <;> simp [h]
    refine ⟨[], xs.map Prod.snd, ?_, by simp [ht0],
      by simpa using List.Perm.refl (xs.map Prod.snd), by simp, ?_⟩
    · rw [select_n_first_by, if_pos hcase]
      simp [ht0]
    · intro x hx
      simp at hx
  · have hl0 : l.len ≠ 0 := fun h => hcase (Or.inl h)
    have hN0 : N ≠ 0 := fun h => hcase (Or.inr h)
    have hσ : chainIdx l l.head l.len = xs.map Prod.fst := by
      have h0 := chainIdx_spec hinv xs.length 0 (by omega)
      rw [hinv.2.2.2.2.2.2.1, hlen]
      simpa using h0
    have hswI := cmpIdx_symm (l := l) hsw
    have htrP : ∀ x ∈ xs.map Prod.fst, ∀ y ∈ xs.map Prod.fst,
        ∀ z ∈ xs.map Prod.fst, cmpIdx l cmp x y ≠ .gt →
        cmpIdx l cmp y z ≠ .gt → cmpIdx l cmp x z ≠ .gt := by
      intro x hx y hy z hz hxy hyz
      obtain ⟨px, hpx, rfl⟩ := List.mem_map.1 hx
      obtain ⟨py, hpy, rfl⟩ := List.mem_map.1 hy
      obtain ⟨pz, hpz, rfl⟩ := List.mem_map.1 hz
      rw [cmpIdx_eval hinv hpx hpy cmp] at hxy
      rw [cmpIdx_eval hinv hpy hpz cmp] at hyz
      rw [cmpIdx_eval hinv hpx hpz cmp]
      exact htr _ _ _ hxy hyz
    obtain ⟨σ2, hsel, hs2, hs3, hs4⟩ : ∃ σ2,
        (if 1 < l.len then
          qselGo (cmpIdx l cmp) (l.len + 1) (xs.map Prod.fst) 0
            (l.len - 1) (min N l.len - 1)
        else some (xs.map Prod.fst)) = some σ2 ∧
        σ2.length = xs.length ∧ σ2.Perm (xs.map Prod.fst) ∧
        (∀ x ∈ σ2.take (min N l.len), ∀ y ∈ σ2.drop (min N l.len),
          cmpIdx l cmp x y ≠ .gt) := by
      by_cases h2len : 1 < l.len
      · rw [if_pos h2len]
        obtain ⟨σ2, hq1, hq2, hq3, hq4⟩ := qselGo_spec (cmpIdx l cmp)
          hswI (l.len + 1) (xs.map Prod.fst) 0 (l.len - 1)
          (min N l.len - 1) htrP (by omega) (by simp; omega)
          (Nat.zero_le _) (by omega)
          (by
            intro x hx
            simp at hx)
          (by
            intro x hx y hy
            rw [List.drop_eq_nil_of_le (by simp; omega)] at hy
            simp at hy)
        refine ⟨σ2, hq1, by rw [hq2]; simp, hq3, ?_⟩
        have hq5 := hq4
        rw [show min N l.len - 1 + 1 = min N l.len by omega] at hq5
        exact hq5
      · rw [if_neg h2len]
        refine ⟨xs.map Prod.fst, rfl, by simp, List.Perm.refl _, ?_⟩
        intro x hx y hy
        rw [List.drop_eq_nil_of_le (by simp; omega)] at hy
        simp at hy
    set A := if 1 < min N l.len then
        insSortAux (cmpIdx l cmp) (min N l.len) σ2 1
      else σ2 with hA
    obtain ⟨hA1, hA2, hA3, hA4⟩ : A.length = σ2.length ∧
        (∀ u, min N l.len ≤ u → A.getD u 0 = σ2.getD u 0) ∧
        (A.take (min N l.len)).Perm (σ2.take (min N l.len)) ∧
        (∀ u, u + 1 < min N l.len →
          cmpIdx l cmp (A.getD u 0) (A.getD (u + 1) 0) ≠ .gt) := by
      by_cases h1t : 1 < min N l.len
      · rw [hA, if_pos h1t]
        exact insSortAux_spec (cmpIdx l cmp) hswI (min N l.len)
          (min N l.len) 1 σ2 (by omega) (by rw [hs2]; omega)
          (by
            intro u hu
            exact absurd hu (by omega))
      · rw [hA, if_neg h1t]
        exact ⟨rfl, fun u _ => rfl, List.Perm.refl _,
          fun u hu => absurd hu (by omega)⟩
    have hAlen : A.length = xs.length := hA1.trans hs2
    have hAdropEq : A.drop (min N l.len) = σ2.drop (min N l.len) := by
      apply List.ext_getElem (by simp [hA1])
      intro q hq1 hq2
      have hq3 : min N l.len + q < A.length := by
        simp at hq1
        omega
      have hq4 : min N l.len + q < σ2.length := by
        simp at hq2
        omega
      rw [List.getElem_drop, List.getElem_drop,
        ← List.getD_eq_getElem A 0 hq3, ← List.getD_eq_getElem σ2 0 hq4]
      exact hA2 _ (by omega)
    have hAperm : A.Perm σ2 := by
      rw [← List.take_append_drop (min N l.len) A,
        ← List.take_append_drop (min N l.len) σ2, hAdropEq]
      exact hA3.append_right _
    have hApermσ : A.Perm (xs.map Prod.fst) := hAperm.trans hs3
    have hAmem : ∀ s ∈ A, s ∈ xs.map Prod.fst :=
      fun s hs => hApermσ.subset hs
    have hAdom : ∀ x ∈ A.take (min N l.len), ∀ y ∈ A.drop (min N l.len),
        cmpIdx l cmp x y ≠ .gt := by
      intro x hx y hy
      rw [hAdropEq] at hy
      exact hs4 x (hA3.subset hx) y hy
    set SP := spineOf xs (A.take (min N l.len)) with hSP
    set SR := spineOf xs (A.drop (min N l.len)) with hSR
    have hmemT : ∀ s ∈ A.take (min N l.len), s ∈ xs.map Prod.fst :=
      fun s hs => hAmem s (List.mem_of_mem_take hs)
    have hmemD : ∀ s ∈ A.drop (min N l.len), s ∈ xs.map Prod.fst :=
      fun s hs => hAmem s (List.mem_of_mem_drop hs)
    have hSPfst : SP.map Prod.fst = A.take (min N l.len) :=
      spineOf_map_fst hmemT
    have hSRfst : SR.map Prod.fst = A.drop (min N l.len) :=
      spineOf_map_fst hmemD
    have hSPlen : SP.length = min N l.len := by
      have h := congrArg List.length hSPfst
      rw [List.length_map, List.length_take, hAlen] at h
      rw [h]
      omega
    have hspine : (SP ++ SR).Perm xs := by
      have hdecomp : SP ++ SR = spineOf xs A := by
        rw [hSP, hSR]
        simp only [spineOf]
        rw [← List.filterMap_append, List.take_append_drop]
      rw [hdecomp]
      exact spineOf_perm hnd hApermσ
    have hvals : (xs.map Prod.snd).Perm
        (SP.map Prod.snd ++ SR.map Prod.snd) := by
      have h := (hspine.symm).map Prod.snd
      rw [List.map_append] at h
      exact h
    have hchainA : List.Chain' (fun a b => cmpIdx l cmp a b ≠ .gt)
        (A.take (min N l.len)) := by
      rw [List.chain'_iff_get]
      intro i hi
      have hi2 : i + 1 < min N l.len := by
        simp [List.length_take] at hi
        omega
      have hb1 : i < A.length := by omega
      have hb2 : i + 1 < A.length := by omega
      simp only [List.get_eq_getElem]
      rw [List.getElem_take, List.getElem_take,
        ← List.getD_eq_getElem A 0 hb1, ← List.getD_eq_getElem A 0 hb2]
      exact hA4 i hi2
    have hchainSP : List.Chain' (fun a b : Nat × T => cmp a.2 b.2 ≠ .gt)
        SP := by
      have h1 : List.Chain' (fun a b => cmpIdx l cmp a b ≠ .gt)
          (SP.map Prod.fst) := by
        rw [hSPfst]
        exact hchainA
      have h2 := (List.chain'_map Prod.fst).1 h1
      refine chain'_imp_mem ?_ h2
      intro a ha b hb hab
      have hma : a ∈ xs := spineOf_subset (hSP ▸ ha)
      have hmb : b ∈ xs := spineOf_subset (hSP ▸ hb)
      rw [cmpIdx_eval hinv hma hmb cmp] at hab
      exact hab
    have hchainV : List.Chain' (fun a b => cmp a b ≠ .gt)
        (SP.map Prod.snd) := (List.chain'_map Prod.snd).2 hchainSP
    have hdom : ∀ x ∈ SP.map Prod.snd, ∀ y ∈ SR.map Prod.snd,
        cmp x y ≠ .gt := by
      intro x hx y hy
      obtain ⟨pr, hpr, rfl⟩ := List.mem_map.1 hx
      obtain ⟨qr, hqr, rfl⟩ := List.mem_map.1 hy
      have hm1 : pr ∈ xs := spineOf_subset (hSP ▸ hpr)
      have hm2 : qr ∈ xs := spineOf_subset (hSR ▸ hqr)
      have hsl1 : pr.1 ∈ A.take (min N l.len) := by
        rw [← hSPfst]
        exact List.mem_map_of_mem Prod.fst hpr
      have hsl2 : qr.1 ∈ A.drop (min N l.len) := by
        rw [← hSRfst]
        exact List.mem_map_of_mem Prod.fst hqr
      have h := hAdom pr.1 hsl1 qr.1 hsl2
      rw [cmpIdx_eval hinv hm1 hm2 cmp] at h
      exact h
    have hout : (List.range N).map (fun k =>
        if k < min N l.len then
          (l.nodes.getD (A.getD k 0) none).map Node.value
        else none) =
        (SP.map Prod.snd).map some ++
          List.replicate (N - min N l.len) none := by
      apply List.ext_getElem?
      intro k
      rw [List.getElem?_map]
      by_cases hkN : k < N
      · rw [List.getElem?_range hkN]
        simp only [Option.map_some']
        by_cases hkt : k < min N l.len
        · have hkSP : k < SP.length := by omega
          have hkA : k < A.length := by omega
          obtain ⟨pr, hpr⟩ : ∃ pr, SP[k]? = some pr :=
            ⟨SP[k], List.getElem?_eq_getElem hkSP⟩
          have hprmem : pr ∈ xs := by
            have h := List.getElem?_mem hpr
            exact spineOf_subset (hSP ▸ h)
          have hprfst : pr.1 = A.getD k 0 := by
            have h := congrArg (fun t => t[k]?) hSPfst
            simp only [List.getElem?_map, hpr, Option.map_some'] at h
            rw [List.getElem?_take_of_lt hkt,
              List.getElem?_eq_getElem hkA] at h
            have h2 := Option.some.inj h
            rw [h2, ← List.getD_eq_getElem A 0 hkA]
          have hnode := node_of_mem hinv hprmem
          have hap : ((SP.map Prod.snd).map some ++
              List.replicate (N - min N l.len) none)[k]? =
              ((SP.map Prod.snd).map some)[k]? := by
            rw [List.getElem?_append]
            rw [if_pos (by simp [hSPlen]; omega)]
          rw [if_pos hkt, ← hprfst, hnode, hap, List.getElem?_map,
            List.getElem?_map, hpr]
          simp
        · have hap : ((SP.map Prod.snd).map some ++
              List.replicate (N - min N l.len) none)[k]? =
              (List.replicate (N - min N l.len) none)[k -
                ((SP.map Prod.snd).map some).length]? :=
            List.getElem?_append_right (by simp [hSPlen]; omega)
          rw [if_neg hkt, hap]
          simp only [List.length_map, hSPlen]
          rw [List.getElem?_replicate, if_pos (by omega)]
      · have h1 : (List.range N)[k]? = none :=
          List.getElem?_eq_none (by simp; omega)
        have h2 : ((SP.map Prod.snd).map some ++
            List.replicate (N - min N l.len) none)[k]? = none :=
          List.getElem?_eq_none (by simp [hSPlen]; omega)
        rw [h1, h2]
        simp
    refine ⟨SP.map Prod.snd, SR.map Prod.snd, ?_, by simp [hSPlen],
      hvals, hchainV, hdom⟩
    rw [select_n_first_by, if_neg hcase]
    simp only [hσ, hsel]
    rw [← hA, hout]

/-- C7 witness: the claim applied to a concrete well-formed 5-element
list holding 20, 10, 21, 11, 22 with `N = 3` and the natural-number
comparator. -/
theorem claim_C7_witness :
    ListInv 5 [(0, 20), (1, 10), (2, 21), (3, 11), (4, 22)]
      ({ nodes := [some { value := 20, index := 0, prev := none,
                          next := some 1 },
                   some { value := 10, index := 1, prev := some 0,
                          next := some 2 },
                   some { value := 21, index := 2, prev := some 1,
                          next := some 3 },
                   some { value := 11, index := 3, prev := some 2,
                          next := some 4 },
                   some { value := 22, index := 4, prev := some 3,
                          next := none }],
         used := 31, len := 5, tail := some 4,
         head := some 0 } : SizedDoubleLinkedList Nat) ∧
    (∃ kept rest : List Nat,
      select_n_first_by 3 compare
        ({ nodes := [some { value := 20, index := 0, prev := none,
                            next := some 1 },
                     some { value := 10, index := 1, prev := some 0,
                            next := some 2 },
                     some { value := 21, index := 2, prev := some 1,
                            next := some 3 },
                     some { value := 11, index := 3, prev := some 2,
                            next := some 4 },
                     some { value := 22, index := 4, prev := some 3,
                            next := none }],
           used := 31, len := 5, tail := some 4,
           head := some 0 } : SizedDoubleLinkedList Nat) =
        some (kept.map some ++ List.replicate (3 - min 3
          ({ nodes := [some { value := 20, index := 0, prev := none,
                              next := some 1 },
                       some { value := 10, index := 1, prev := some 0,
                              next := some 2 },
                       some { value := 21, index := 2, prev := some 1,
                              next := some 3 },
                       some { value := 11, index := 3, prev := some 2,
                              next := some 4 },
                       some { value := 22, index := 4, prev := some 3,
                              next := none }],
             used := 31, len := 5, tail := some 4,
             head := some 0 } : SizedDoubleLinkedList Nat).len) none) ∧
      kept.length = min 3
        ({ nodes := [some { value := 20, index := 0, prev := none,
                            next := some 1 },
                     some { value := 10, index := 1, prev := some 0,
                            next := some 2 },
                     some { value := 21, index := 2, prev := some 1,
                            next := some 3 },
                     some { value := 11, index := 3, prev := some 2,
                            next := some 4 },
                     some { value := 22, index := 4, prev := some 3,
                            next := none }],
           used := 31, len := 5, tail := some 4,
           head := some 0 } : SizedDoubleLinkedList Nat).len ∧
      (([(0, 20), (1, 10), (2, 21), (3, 11), (4, 22)]
          : List (Nat × Nat)).map Prod.snd).Perm (kept ++ rest) ∧
      List.Chain' (fun a b => compare a b ≠ .gt) kept ∧
      (∀ x ∈ kept, ∀ y ∈ rest, compare x y ≠ .gt)) :=
  ⟨by unfold ListInv; decide,
   @claim_C7 Nat 5 [(0, 20), (1, 10), (2, 21), (3, 11), (4, 22)]
     { nodes := [some { value := 20, index := 0, prev := none,
                        next := some 1 },
                 some { value := 10, index := 1, prev := some 0,
                        next := some 2 },
                 some { value := 21, index := 2, prev := some 1,
                        next := some 3 },
                 some { value := 11, index := 3, prev := some 2,
                        next := some 4 },
                 some { value := 22, index := 4, prev := some 3,
                        next := none }],
       used := 31, len := 5, tail := some 4, head := some 0 }
     (by unfold ListInv; decide) 3 compare natCompare_symm
     natCompare_le_trans⟩

/-- C2 counterexample: after `insert_tail 10; insert_tail 20; remove 0;
insert_tail 30` on a capacity-3 list, the list reads `[20, 30]` by
position, yet `get_index_where (== 30)` returns `some 0` — the arena slot
of `30`, not its list position `1` — and feeding that `0` to `get` yields
`20`, not the matching element. -/
theorem claim_C2_counterexample :
    runOps 3 [Op.insTail 10, Op.insTail 20, Op.rem 0, Op.insTail 30]
        ((empty 3 : SizedDoubleLinkedList Nat), 0, 0) =
      some ({ nodes := [some { value := 30, index := 0, prev := some 1,
                               next := none },
                        some { value := 20, index := 1, prev := none,
                               next := some 0 }, none],
              used := 3, len := 2, tail := some 0, head := some 1 },
            3, 1) ∧
    get_index_where
      ({ nodes := [some { value := 30, index := 0, prev := some 1,
                          next := none },
                   some { value := 20, index := 1, prev := none,
                          next := some 0 }, none],
         used := 3, len := 2, tail := some 0,
         head := some 1 } : SizedDoubleLinkedList Nat)
      (fun v => v == 30) = some 0 ∧
    get ({ nodes := [some { value := 30, index := 0, prev := some 1,
                            next := none },
                     some { value := 20, index := 1, prev := none,
                            next := some 0 }, none],
           used := 3, len := 2, tail := some 0,
           head := some 1 } : SizedDoubleLinkedList Nat) 0 = .ok 20 ∧
    get ({ nodes := [some { value := 30, index := 0, prev := some 1,
                            next := none },
                     some { value := 20, index := 1, prev := none,
                            next := some 0 }, none],
           used := 3, len := 2, tail := some 0,
           head := some 1 } : SizedDoubleLinkedList Nat) 1 = .ok 30 := by
  refine ⟨by decide, by decide, by rfl, by rfl⟩

/-- C2 (amended to match the code): on a well-formed list,
`get_index_where f` returns the arena slot index stored in the first
node (scanning head to tail) whose value satisfies `f` — not its list
position — and `get_value_where f` returns that first matching value;
both return `none` exactly when no element matches. -/
theorem claim_C2_amended {K : Nat} {xs : List (Nat × T)}
    {l : SizedDoubleLinkedList T} (hinv : ListInv K xs l) (f : T → Bool) :
    get_index_where l f = (xs.find? (fun pr => f pr.2)).map Prod.fst ∧
    get_value_where l f = (xs.find? (fun pr => f pr.2)).map Prod.snd := by
  have hw := get_where_spec hinv f
  have hnode := hinv.2.2.2.2.2.2.2.2.2.2.2
  constructor
  · rw [get_index_where, hw]
    cases hf : xs.find? (fun pr => f pr.2) with
    | none => simp
    | some pr =>
      obtain ⟨q, hq, hqe⟩ :=
        List.mem_iff_getElem.1 (List.mem_of_find?_eq_some hf)
      subst hqe
      rw [Option.some_bind, hnode q hq]
      simp
  · rw [get_value_where, hw]
    cases hf : xs.find? (fun pr => f pr.2) with
    | none => simp
    | some pr =>
      obtain ⟨q, hq, hqe⟩ :=
        List.mem_iff_getElem.1 (List.mem_of_find?_eq_some hf)
      subst hqe
      rw [Option.some_bind, hnode q hq]
      simp

/-- Closed witness for the amended C2, on the counterexample list:
the first value matching `(== 30)` sits in arena slot `0` (list position
`1`), so `get_index_where` yields `some 0` and `get_value_where` yields
`some 30`. -/
theorem claim_C2_amended_witness :
    ListInv 3 [(1, 20), (0, 30)]
      ({ nodes := [some { value := 30, index := 0, prev := some 1,
                          next := none },
                   some { value := 20, index := 1, prev := none,
                          next := some 0 }, none],
         used := 3, len := 2, tail := some 0,
         head := some 1 } : SizedDoubleLinkedList Nat) ∧
    (get_index_where
        ({ nodes := [some { value := 30, index := 0, prev := some 1,
                            next := none },
                     some { value := 20, index := 1, prev := none,
                            next := some 0 }, none],
           used := 3, len := 2, tail := some 0,
           head := some 1 } : SizedDoubleLinkedList Nat)
        (fun v => v == 30) =
      ([(1, 20), (0, 30)].find?
        (fun pr => pr.2 == 30)).map Prod.fst ∧
     get_value_where
        ({ nodes := [some { value := 30, index := 0, prev := some 1,
                            next := none },
                     some { value := 20, index := 1, prev := none,
                            next := some 0 }, none],
           used := 3, len := 2, tail := some 0,
           head := some 1 } : SizedDoubleLinkedList Nat)
        (fun v => v == 30) =
      ([(1, 20), (0, 30)].find?
        (fun pr => pr.2 == 30)).map Prod.snd) :=
  ⟨by unfold ListInv; decide,
   @claim_C2_amended Nat 3 [(1, 20), (0, 30)]
     { nodes := [some { value := 30, index := 0, prev := some 1,
                        next := none },
                 some { value := 20, index := 1, prev := none,
                        next := some 0 }, none],
       used := 3, len := 2, tail := some 0, head := some 1 }
     (by unfold ListInv; decide) (fun v => v == 30)⟩

/-- C4: starting from an empty arena list of capacity `K`, after any
sequence of insert/remove calls (that did not panic) `len` equals the
number of successful inserts minus the number of successful removes
(stated additively: `len + #removes = #inserts`); and on any well-formed
full list (`len = K`), `insert_head`, `insert_tail`, and
`insert_after`/`insert_before` at any valid position all return
`ListIsFull` and leave the list unchanged. -/
theorem claim_C4 {K : Nat} (hK : K ≤ 63) (ops : List (Op T)) :
    (∀ (l : SizedDoubleLinkedList T) (ins rem : Nat),
      runOps K ops (empty K, 0, 0) = some (l, ins, rem) →
      l.len + rem = ins) ∧
    (∀ (xs : List (Nat × T)) (l : SizedDoubleLinkedList T) (v : T),
      ListInv K xs l → l.len = K →
      insert_head K l v = some (.error .ListIsFull, l) ∧
      insert_tail K l v = some (.error .ListIsFull, l) ∧
      (∀ i, i < l.len → insert_after K l i v = (.error .ListIsFull, l)) ∧
      (∀ i, i ≤ l.len →
        insert_before K l i v = some (.error .ListIsFull, l))) := by
  constructor
  · intro l ins rem h
    obtain ⟨xs', hinv', heq⟩ := runOps_inv ops (listInv_empty hK) h
    have h0 : (empty K : SizedDoubleLinkedList T).len = 0 := rfl
    omega
  · intro xs l v hinv hfullLen
    have hlen : l.len = xs.length := hinv.2.2.1
    have hfull : xs.length = K := by omega
    refine ⟨?_, ?_, ?_, ?_⟩
    · rw [insert_head]
      exact insert_before_err_full hinv (by omega) hfull v
    · rw [insert_tail]
      by_cases h0 : l.len = 0
      · rw [if_pos h0]
        exact insert_before_err_full hinv (by omega) hfull v
      · rw [if_neg h0, insert_after_err_full hinv (by omega) hfull v]
    · intro i hi
      exact insert_after_err_full hinv (by omega) hfull v
    · intro i hi
      exact insert_before_err_full hinv (by omega) hfull v

/-- Closed witness for C4: the five-call sequence insert-tail 10, 20, 30
(the third hits the full list), remove position 0, insert-head 40 on a
capacity-2 list gives 3 successful inserts, 1 successful remove and
`len = 2`; and a concrete full two-slot list rejects all four insert
entry points with `ListIsFull`, unchanged. -/
theorem claim_C4_witness :
    ((2 : Nat) ≤ 63 ∧
      ({ nodes := [some { value := 40, index := 0, prev := none,
                          next := some 1 },
                   some { value := 20, index := 1, prev := some 0,
                          next := none }],
         used := 3, len := 2, tail := some 1,
         head := some 0 } : SizedDoubleLinkedList Nat).len + 1 = 3) ∧
    (insert_head 2
        ({ nodes := [some { value := 10, index := 0, prev := none,
                            next := some 1 },
                     some { value := 20, index := 1, prev := some 0,
                            next := none }],
           used := 3, len := 2, tail := some 1,
           head := some 0 } : SizedDoubleLinkedList Nat) 9 =
      some (.error .ListIsFull,
        { nodes := [some { value := 10, index := 0, prev := none,
                           next := some 1 },
                    some { value := 20, index := 1, prev := some 0,
                           next := none }],
          used := 3, len := 2, tail := some 1, head := some 0 }) ∧
     insert_tail 2
        ({ nodes := [some { value := 10, index := 0, prev := none,
                            next := some 1 },
                     some { value := 20, index := 1, prev := some 0,
                            next := none }],
           used := 3, len := 2, tail := some 1,
           head := some 0 } : SizedDoubleLinkedList Nat) 9 =
      some (.error .ListIsFull,
        { nodes := [some { value := 10, index := 0, prev := none,
                           next := some 1 },
                    some { value := 20, index := 1, prev := some 0,
                           next := none }],
          used := 3, len := 2, tail := some 1, head := some 0 }) ∧
     insert_after 2
        ({ nodes := [some { value := 10, index := 0, prev := none,
                            next := some 1 },
                     some { value := 20, index := 1, prev := some 0,
                            next := none }],
           used := 3, len := 2, tail := some 1,
           head := some 0 } : SizedDoubleLinkedList Nat) 1 9 =
      (.error .ListIsFull,
        { nodes := [some { value := 10, index := 0, prev := none,
                           next := some 1 },
                    some { value := 20, index := 1, prev := some 0,
                           next := none }],
          used := 3, len := 2, tail := some 1, head := some 0 }) ∧
     insert_before 2
        ({ nodes := [some { value := 10, index := 0, prev := none,
                            next := some 1 },
                     some { value := 20, index := 1, prev := some 0,
                            next := none }],
           used := 3, len := 2, tail := some 1,
           head := some 0 } : SizedDoubleLinkedList Nat) 2 9 =
      some (.error .ListIsFull,
        { nodes := [some { value := 10, index := 0, prev := none,
                           next := some 1 },
                    some { value := 20, index := 1, prev := some 0,
                           next := none }],
          used := 3, len := 2, tail := some 1, head := some 0 })) := by
  constructor
  · refine ⟨by decide, ?_⟩
    exact (@claim_C4 Nat 2 (by decide) [Op.insTail 10, Op.insTail 20,
      Op.insTail 30, Op.rem 0, Op.insHead 40]).1
      { nodes := [some { value := 40, index := 0, prev := none,
                         next := some 1 },
                  some { value := 20, index := 1, prev := some 0,
                         next := none }],
        used := 3, len := 2, tail := some 1, head := some 0 } 3 1
      (by decide)
  · have hfac := (@claim_C4 Nat 2 (by decide) []).2
      [(0, 10), (1, 20)]
      { nodes := [some { value := 10, index := 0, prev := none,
                         next := some 1 },
                  some { value := 20, index := 1, prev := some 0,
                         next := none }],
        used := 3, len := 2, tail := some 1, head := some 0 } 9
      (by unfold ListInv; decide) rfl
    exact ⟨hfac.1, hfac.2.1, hfac.2.2.1 1 (by decide),
      hfac.2.2.2 2 (by decide)⟩

/-- C10: in `insert_after` and `insert_before` the index check precedes the
capacity check: on a full list (`len = K`) an out-of-range index
(`index ≥ len` for `insert_after`, `index > len` for `insert_before`)
yields `IndexOutOfRange`, not `ListIsFull`, and the list is returned
unchanged. -/
theorem claim_C10 {K : Nat} {l : SizedDoubleLinkedList T} (hfull : l.len = K)
    {index : Nat} (v : T) :
    (l.len ≤ index →
      insert_after K l index v = (.error .IndexOutOfRange, l)) ∧
    (l.len < index →
      insert_before K l index v = some (.error .IndexOutOfRange, l)) := by
  constructor
  · intro h
    rw [insert_after, if_pos h]
  · intro h
    rw [insert_before, if_pos h]

/-- Closed witness for C10: a concrete full one-slot list (`len = K = 1`)
with the out-of-range index `2`. -/
theorem claim_C10_witness :
    (({ nodes := [some { value := 5, index := 0, prev := none,
                         next := none }],
        used := 1, len := 1, tail := some 0,
        head := some 0 } : SizedDoubleLinkedList Nat).len ≤ 2 ∧
      insert_after 1
        ({ nodes := [some { value := 5, index := 0, prev := none,
                            next := none }],
           used := 1, len := 1, tail := some 0,
           head := some 0 } : SizedDoubleLinkedList Nat) 2 7 =
        (.error .IndexOutOfRange,
          { nodes := [some { value := 5, index := 0, prev := none,
                             next := none }],
            used := 1, len := 1, tail := some 0, head := some 0 })) ∧
    (({ nodes := [some { value := 5, index := 0, prev := none,
                         next := none }],
        used := 1, len := 1, tail := some 0,
        head := some 0 } : SizedDoubleLinkedList Nat).len < 2 ∧
      insert_before 1
        ({ nodes := [some { value := 5, index := 0, prev := none,
                            next := none }],
           used := 1, len := 1, tail := some 0,
           head := some 0 } : SizedDoubleLinkedList Nat) 2 7 =
        some (.error .IndexOutOfRange,
          { nodes := [some { value := 5, index := 0, prev := none,
                             next := none }],
            used := 1, len := 1, tail := some 0, head := some 0 })) :=
  ⟨⟨by decide,
    (@claim_C10 Nat 1
      { nodes := [some { value := 5, index := 0, prev := none,
                         next := none }],
        used := 1, len := 1, tail := some 0, head := some 0 }
      rfl 2 7).1 (by decide)⟩,
   ⟨by decide,
    (@claim_C10 Nat 1
      { nodes := [some { value := 5, index := 0, prev := none,
                         next := none }],
        used := 1, len := 1, tail := some 0, head := some 0 }
      rfl 2 7).2 (by decide)⟩⟩

end SizedDoubleLinkedList

end Datastructures
